import Mathlib

/-!
Verification development for the `focus` configuration system
(`focus/parser/lexer.py`, `focus/parser/parser.py`, `focus/registry.py`,
`focus/plugin/registration.py`, `focus/daemon.py`).

The Python code is shallowly embedded: every stateful object becomes an
explicit state record, every method a pure function on it, and every
`raise` an `Except` error value.  Python strings are `String`/`List Char`,
Python lists are `List`, and Python dicts are association lists used only
through their key-to-value mapping (CPython 2 dict iteration order is
unspecified; wherever the source iterates a dict, the result is shown or
noted to be independent of that order).
-/

set_option maxRecDepth 4096

namespace FocusSpec

/-- View of `Except` as a sum, for deciding equality of run results. -/
def exceptToSum {ε α : Type} : Except ε α → ε ⊕ α
  | .error e => .inl e
  | .ok a => .inr a

instance {ε α : Type} [DecidableEq ε] [DecidableEq α] : DecidableEq (Except ε α) :=
  fun a b =>
    decidable_of_iff (exceptToSum a = exceptToSum b)
      (by cases a <;> cases b <;> simp [exceptToSum])

/-! ## Lexer (`focus/parser/lexer.py`, class `SettingLexer`)

The lexer is a character-at-a-time state machine.  `SettingLexer._tokenize`
reads the stream in 8192-byte chunks and feeds the characters one by one,
so a stream is embedded as the full `List Char` it yields.

A faithful modelling note: the Python property `SettingLexer._escaped` has a
side effect — when the accumulated token buffer ends in a backslash it *pops*
that backslash off the buffer and returns `True`.  It is embedded as
`popEscaped`, returning both the flag and the possibly-popped buffer, and
the call sites reproduce Python's evaluation (and short-circuiting) order.
-/

/-- Lexer states: `ST_TOKEN = 1`, `ST_STRING = 2`, `ST_COMMENT = 3`. -/
inductive LexMode
  | token
  | strMode
  | comment
deriving DecidableEq, Repr

/-- State of a `SettingLexer`: emitted tokens (`_tokens`, each with its line
number), the accumulated character buffer (`_token_info['chars']`), the
current line (`_token_info['line_no']`), and the state info triple
(`state`, `last_quote`, `double_esc`). -/
structure Lexer where
  tokens : List (Nat × String)
  chars : List Char
  lineNo : Nat
  mode : LexMode
  lastQuote : Option Char
  doubleEsc : Bool
deriving DecidableEq, Repr

/-- `WHITESPACE = ' \n\r\t'` -/
def isWhitespaceChar (c : Char) : Bool :=
  c = ' ' || c = '\n' || c = '\r' || c = '\t'

/-- `NEWLINES = '\n\r'` -/
def isNewlineChar (c : Char) : Bool := c = '\n' || c = '\r'

/-- `TOKENS = '{},;'` -/
def isTokenChar (c : Char) : Bool :=
  c = '\x7b' || c = '\x7d' || c = ',' || c = ';'

/-- `QUOTES = '\'"'` -/
def isQuoteChar (c : Char) : Bool := c = '\'' || c = '"'

/-- `ESCAPE = '\\'` -/
def escapeChar : Char := '\\'

/-- `COMMENT_START = '#'` -/
def commentChar : Char := '#'

/-- The `_escaped` property: if the buffer ends in the escape character,
swallow it and report `true`; otherwise leave the buffer alone. -/
def popEscaped (cs : List Char) : Bool × List Char :=
  match cs.getLast? with
  | some c => if c = escapeChar then (true, cs.dropLast) else (false, cs)
  | none => (false, cs)

/-- `_new_token()` with default arguments: appends the buffer as a token
(unless empty) and clears it. -/
def newToken (lx : Lexer) : Lexer :=
  if lx.chars = [] then lx
  else { lx with tokens := lx.tokens ++ [(lx.lineNo, String.mk lx.chars)], chars := [] }

/-- `_new_token([char])`: appends a single-character token and clears the
buffer (a no-op clear at its call site, where the buffer was just flushed). -/
def newTokenChar (lx : Lexer) (c : Char) : Lexer :=
  { lx with tokens := lx.tokens ++ [(lx.lineNo, String.mk [c])], chars := [] }

/-- The `_state` property setter: replaces the whole `_state_info` dict,
resetting `last_quote` and `double_esc`. -/
def setMode (lx : Lexer) (m : LexMode) : Lexer :=
  { lx with mode := m, lastQuote := none, doubleEsc := false }

/-- `_process_newline`. -/
def processNewline (lx : Lexer) (c : Char) : Lexer :=
  let lx1 := if lx.mode = .strMode then { lx with chars := lx.chars ++ [c] } else newToken lx
  let lx2 := { lx1 with lineNo := lx1.lineNo + 1 }
  if lx.mode = .comment then setMode lx2 .token else lx2

/-- `_process_string`.  The Python condition
`char == self._last_quote and not self._escaped or self._double_escaped`
parses as `(match and not escaped) or double_escaped`; `self._escaped` is
evaluated (with its pop side effect) only when `char` matches the opening
quote, because `and` short-circuits. -/
def processString (lx : Lexer) (c : Char) : Lexer :=
  if isQuoteChar c then
    if some c = lx.lastQuote then
      let p := popEscaped lx.chars
      if !p.1 || lx.doubleEsc then
        setMode (newToken { lx with chars := p.2 }) .token
      else
        { lx with chars := p.2 ++ [c] }
    else
      if lx.doubleEsc then
        setMode (newToken lx) .token
      else
        { lx with chars := lx.chars ++ [c] }
  else if c = escapeChar then
    if lx.doubleEsc then { lx with chars := lx.chars ++ [c] }
    else
      let p := popEscaped lx.chars
      { lx with doubleEsc := p.1, chars := p.2 ++ [c] }
  else
    { lx with doubleEsc := false, chars := lx.chars ++ [c] }

/-- `_process_tokens`. -/
def processTokens (lx : Lexer) (c : Char) : Lexer :=
  if isWhitespaceChar c || c = commentChar || isQuoteChar c || isTokenChar c then
    if c = ' ' || isTokenChar c then
      let p := popEscaped lx.chars
      if p.1 then { lx with chars := p.2 ++ [c] }
      else
        let lx1 := newToken lx
        if isTokenChar c then newTokenChar lx1 c else lx1
    else if c = commentChar then
      newToken (setMode lx .comment)
    else if isQuoteChar c then
      let p := popEscaped lx.chars
      if p.1 then { lx with chars := p.2 ++ [c] }
      else newToken { lx with mode := .strMode, lastQuote := some c, doubleEsc := false }
    else
      newToken lx
  else
    { lx with chars := lx.chars ++ [c] }

/-- One character of `_tokenize`'s inner loop. -/
def lexStep (lx : Lexer) (c : Char) : Lexer :=
  if isNewlineChar c then processNewline lx c
  else
    match lx.mode with
    | .strMode => processString lx c
    | .token => processTokens lx c
    | .comment => lx

/-- The freshly reset lexer (`_tokenize` lines 181-183). -/
def lexInit : Lexer :=
  { tokens := [], chars := [], lineNo := 1, mode := .token,
    lastQuote := none, doubleEsc := false }

def lexChars (lx : Lexer) (input : List Char) : Lexer :=
  input.foldl lexStep lx

/-- `SettingLexer.readstream`/`_tokenize`: the token stream produced for an
input.  Characters remaining in the buffer at end of input are never
flushed, exactly as in the source. -/
def tokenize (input : List Char) : List (Nat × String) :=
  (lexChars lexInit input).tokens

/-! ## Parser (`focus/parser/parser.py`, class `SettingParser`)

The parser consumes the token stream as a list.  Line numbers only feed the
text of error messages in the source; the embedding records which error
occurred (a distinct constructor per `raise` site) but not the message
text, so the parsing rules work on the `List String` of token strings.

Recursion in the source is a set of `while` loops over a token stream of
statically unknown length; each loop is embedded with a fuel parameter and
entered with `tokens.length + 1` fuel, which dominates the number of
iterations since every iteration consumes at least one token. -/

/-- The distinct `ParseError` raise sites (messages elided). -/
inductive PError
  | unexpectedEOF
  | badTokenFormat (token : String)
  | unexpectedToken (token : String) (expected : String)
  | trailingToken (token : String)
  | outOfFuel
deriving DecidableEq, Repr

/-- First character of `RE_NAME = '[a-zA-Z_][a-zA-Z0-9_]*$'`. -/
def isNameChar1 (c : Char) : Bool := c.isAlpha || c = '_'

/-- Remaining characters of `RE_NAME`. -/
def isNameRestChar (c : Char) : Bool := c.isAlphanum || c = '_'

/-- A full match of the character classes of `RE_NAME`. -/
def isNameCore : List Char → Bool
  | [] => false
  | c :: cs => isNameChar1 c && cs.all isNameRestChar

/-- `RE_NAME.match(s)`: Python's `$` (without `re.MULTILINE`) also matches
just before one final newline, so `"ab\n"` matches. -/
def reNameMatch (s : String) : Bool :=
  isNameCore s.data ||
    (s.data.getLast? = some '\n' && isNameCore s.data.dropLast)

abbrev Toks := List String

/-- `_get_token()` without a regex. -/
def getTok : Toks → Except PError (String × Toks)
  | [] => .error .unexpectedEOF
  | t :: rest => .ok (t, rest)

/-- `_get_token(self.RE_NAME)`. -/
def getTokName : Toks → Except PError (String × Toks)
  | [] => .error .unexpectedEOF
  | t :: rest => if reNameMatch t then .ok (t, rest) else .error (.badTokenFormat t)

/-- The token `_lookahead_token` reports, given the up-to-`count` tokens it
popped: scanning them deepest-first, the first truthy (non-empty) token, or
failing that the shallowest one (`if not next_token: next_token = token`). -/
def pickLookahead (cands : List String) : Option String :=
  match cands.find? (fun t => t ≠ "") with
  | some t => some t
  | none => cands.getLast?

/-- `_lookahead_token(count)`: peeks without consuming. -/
def lookaheadToken (count : Nat) (toks : Toks) : Option String :=
  pickLookahead ((toks.take count).reverse)

/-- `_expect_token(expected)`. -/
def expectTok (expected : String) : Toks → Except PError Toks
  | [] => .error .unexpectedEOF
  | t :: rest => if t = expected then .ok rest else .error (.unexpectedToken t expected)

/-- `_expect_empty()`. -/
def expectEmpty : Toks → Except PError Unit
  | [] => .ok ()
  | t :: _ => .error (.trailingToken t)

/-- An option entry `[name, value_list]` of the AST. -/
abbrev OptEntry := String × List String

/-- A block entry `[name, option_list]` of the AST. -/
abbrev BlkEntry := String × List OptEntry

/-- The `while self._lookahead_token() == ','` loop of `_rule_value`. -/
def ruleValueLoop (fuel : Nat) (toks : Toks) (terms : List String) :
    Except PError (List String × Toks) :=
  match fuel with
  | 0 => .error .outOfFuel
  | fuel + 1 =>
    if lookaheadToken 1 toks = some "," then
      match getTok toks with
      | .error e => .error e
      | .ok (_, toks1) =>
        match getTok toks1 with
        | .error e => .error e
        | .ok (t, toks2) => ruleValueLoop fuel toks2 (terms ++ [t])
    else .ok (terms, toks)

/-- `_rule_value`. -/
def ruleValue (fuel : Nat) (toks : Toks) : Except PError (List String × Toks) :=
  match getTok toks with
  | .error e => .error e
  | .ok (t, toks1) => ruleValueLoop fuel toks1 [t]

/-- `_rule_option`. -/
def ruleOption (fuel : Nat) (toks : Toks) : Except PError (OptEntry × Toks) :=
  match getTokName toks with
  | .error e => .error e
  | .ok (name, toks1) =>
    match ruleValue fuel toks1 with
    | .error e => .error e
    | .ok (vals, toks2) =>
      match expectTok ";" toks2 with
      | .error e => .error e
      | .ok toks3 => .ok ((name, vals), toks3)

/-- The `while self._lookahead_token() != '}'` loop of `_rule_block`. -/
def ruleBlockLoop (fuel : Nat) (toks : Toks) (opts : List OptEntry) :
    Except PError (List OptEntry × Toks) :=
  match fuel with
  | 0 => .error .outOfFuel
  | fuel + 1 =>
    if lookaheadToken 1 toks ≠ some "\x7d" then
      match ruleOption fuel toks with
      | .error e => .error e
      | .ok (o, toks1) => ruleBlockLoop fuel toks1 (opts ++ [o])
    else .ok (opts, toks)

/-- `_rule_block`. -/
def ruleBlock (fuel : Nat) (toks : Toks) : Except PError (BlkEntry × Toks) :=
  match getTokName toks with
  | .error e => .error e
  | .ok (name, toks1) =>
    match expectTok "\x7b" toks1 with
    | .error e => .error e
    | .ok toks2 =>
      match ruleBlockLoop fuel toks2 [] with
      | .error e => .error e
      | .ok (opts, toks3) =>
        match expectTok "\x7d" toks3 with
        | .error e => .error e
        | .ok toks4 => .ok ((name, opts), toks4)

/-- The parser's `_block_map` dict (block name → index into the block
list), as an association list used through its key-to-value mapping. -/
abbrev BMap := List (String × Nat)

def bmGet (m : BMap) (k : String) : Option Nat :=
  (m.find? (fun p => p.1 = k)).map Prod.snd

def bmSet (m : BMap) (k : String) (v : Nat) : BMap :=
  if (m.find? (fun p => p.1 = k)).isSome then
    m.map (fun p => if p.1 = k then (k, v) else p)
  else m ++ [(k, v)]

def bmDel (m : BMap) (k : String) : BMap := m.filter (fun p => p.1 ≠ k)

/-- The local `dupe_blocks` dict of `_rule_container` (block name → block),
keyed assignment `dupe_blocks[name] = block`. -/
abbrev Dupes := List (String × List OptEntry)

def dupSet (d : Dupes) (k : String) (v : List OptEntry) : Dupes :=
  if (d.find? (fun p => p.1 = k)).isSome then
    d.map (fun p => if p.1 = k then (k, v) else p)
  else d ++ [(k, v)]

/-- The `while self._lookahead_token() != '}'` loop of `_rule_container`.
Threads the parser's `_block_map`, which survives a raised `ParseError`
(returned on both the ok and the error path). -/
def containerLoop (fuel : Nat) (toks : Toks) (opts : List OptEntry)
    (blocks : List BlkEntry) (bmap : BMap) (dupes : Dupes) :
    Except PError (List OptEntry × List BlkEntry × Dupes × Toks) × BMap :=
  match fuel with
  | 0 => (.error .outOfFuel, bmap)
  | fuel + 1 =>
    if lookaheadToken 1 toks ≠ some "\x7d" then
      if lookaheadToken 2 toks = some "\x7b" then
        match ruleBlock fuel toks with
        | .error e => (.error e, bmap)
        | .ok (blk, toks1) =>
          if (bmGet bmap blk.1).isSome then
            containerLoop fuel toks1 opts blocks bmap (dupSet dupes blk.1 blk.2)
          else
            containerLoop fuel toks1 opts (blocks ++ [blk])
              (bmSet bmap blk.1 blocks.length) dupes
      else
        match ruleOption fuel toks with
        | .error e => (.error e, bmap)
        | .ok (o, toks1) => containerLoop fuel toks1 (opts ++ [o]) blocks bmap dupes
    else (.ok (opts, blocks, dupes, toks), bmap)

/-- The duplicate-replacement pass of `_rule_container`
(`for name, block in dupe_blocks.iteritems(): blocks[block_map[name]] = block`).
The dict iteration order is unspecified in CPython 2; distinct names hold
distinct indices, so the updates commute and insertion order is used.
A `bmGet` miss or an out-of-range index cannot occur when the map starts
empty, since every `dupes` key was put in `bmap` with the index it had when
first appended. -/
def applyDupes (dupes : Dupes) (bmap : BMap) (blocks : List BlkEntry) : List BlkEntry :=
  dupes.foldl
    (fun bs d =>
      match bmGet bmap d.1 with
      | some i => bs.set i (d.1, d.2)
      | none => bs)
    blocks

/-- The parsed AST `[header, options, blocks]`. -/
structure Ast where
  header : Option String
  options : List OptEntry
  blocks : List BlkEntry
deriving DecidableEq, Repr

/-- `_rule_container`. -/
def ruleContainer (fuel : Nat) (toks : Toks) (bmap : BMap) :
    Except PError Ast × BMap :=
  match getTokName toks with
  | .error e => (.error e, bmap)
  | .ok (typeName, toks1) =>
    match expectTok "\x7b" toks1 with
    | .error e => (.error e, bmap)
    | .ok toks2 =>
      match containerLoop fuel toks2 [] [] bmap [] with
      | (.error e, bmap1) => (.error e, bmap1)
      | (.ok (opts, blocks, dupes, toks3), bmap1) =>
        let blocks1 := applyDupes dupes bmap1 blocks
        match expectTok "\x7d" toks3 with
        | (.error e) => (.error e, bmap1)
        | .ok toks4 =>
          match expectEmpty toks4 with
          | .error e => (.error e, bmap1)
          | .ok _ => (.ok ⟨some typeName, opts, blocks1⟩, bmap1)

/-- The mutable state of a `SettingParser`: `_filename`, `_ast`
(`[header, options, blocks]`) and `_block_map`. -/
structure PState where
  filename : Option String
  ast : Ast
  blockMap : BMap
deriving DecidableEq, Repr

/-- `_reset()`: header `None`, empty option list, empty block list, empty
block map, no tracked filename. -/
def resetState : PState :=
  { filename := none, ast := ⟨none, [], []⟩, blockMap := [] }

def parseFuel (toks : Toks) : Nat := toks.length + 1

/-- `SettingParser.readstream`: resets, tokenizes, parses.  On success the
parsed AST replaces `_ast` (`_parse`); on a `ParseError` the exception
propagates and `_ast` keeps the value `_reset` gave it, while `_block_map`
keeps whatever the failed `_rule_container` run put in it.  Reading a
`List Char` cannot raise `IOError`, so the `except IOError` arm of the
source is unreachable here. -/
def readstream (input : List Char) : Except PError Unit × PState :=
  let s := resetState
  let toks := (tokenize input).map Prod.snd
  match ruleContainer (parseFuel toks) toks s.blockMap with
  | (.ok ast, bmap) => (.ok (), { s with ast := ast, blockMap := bmap })
  | (.error e, bmap) => (.error e, { s with blockMap := bmap })



/-! ## Mutation API (`SettingParser.add_option` / `remove_option` /
`add_block` / `remove_block`)

Python list indexing with an index from `_block_map` can raise
`IndexError` when the map is stale (indices in the map are always
non-negative, so only the out-of-range case arises); the embedding returns
a distinct `indexError` value there.  Each method performs all its checks
before its single mutation, so an error leaves the state unchanged, as in
the source. -/

/-- The `ValueError`/`IndexError` raise sites of the mutation API. -/
inductive VError
  | invalidOptionName (name : String)
  | missingValue
  | blockNotExist (name : String)
  | optionNotExist (name : String)
  | invalidBlockName (name : String)
  | blockExists (name : String)
  | indexError
deriving DecidableEq, Repr

/-- Python truthiness of the `block` argument (`if block:`): `None` and the
empty string are falsy. -/
def isTruthyStr : Option String → Bool
  | none => false
  | some s => s ≠ ""

/-- `SettingParser.add_option(block, name, *values)`. -/
def addOption (s : PState) (block : Option String) (name : String)
    (values : List String) : Except VError PState :=
  if !reNameMatch name then .error (.invalidOptionName name)
  else if values = [] then .error .missingValue
  else if isTruthyStr block then
    let b := block.getD ""
    match bmGet s.blockMap b with
    | none => .error (.blockNotExist b)
    | some idx =>
      match s.ast.blocks.get? idx with
      | none => .error .indexError
      | some blk =>
        .ok { s with ast :=
          { s.ast with blocks := s.ast.blocks.set idx (blk.1, blk.2 ++ [(name, values)]) } }
  else
    .ok { s with ast := { s.ast with options := s.ast.options ++ [(name, values)] } }

/-- `SettingParser.remove_option(block, name)`: removes the first matching
option (`for ... if opt[0] == name: break / else: raise`). -/
def removeOption (s : PState) (block : Option String) (name : String) :
    Except VError PState :=
  if isTruthyStr block then
    let b := block.getD ""
    match bmGet s.blockMap b with
    | none => .error (.blockNotExist b)
    | some idx =>
      match s.ast.blocks.get? idx with
      | none => .error .indexError
      | some blk =>
        match blk.2.findIdx? (fun o => o.1 = name) with
        | none => .error (.optionNotExist name)
        | some i =>
          .ok { s with ast :=
            { s.ast with blocks := s.ast.blocks.set idx (blk.1, blk.2.eraseIdx i) } }
  else
    match s.ast.options.findIdx? (fun o => o.1 = name) with
    | none => .error (.optionNotExist name)
    | some i =>
      .ok { s with ast := { s.ast with options := s.ast.options.eraseIdx i } }

/-- `SettingParser.add_block(name)`: the index mapping is recorded first
(`len` of the block list before the append). -/
def addBlock (s : PState) (name : String) : Except VError PState :=
  if !reNameMatch name then .error (.invalidBlockName name)
  else if (bmGet s.blockMap name).isSome then .error (.blockExists name)
  else
    .ok { s with
      blockMap := bmSet s.blockMap name s.ast.blocks.length,
      ast := { s.ast with blocks := s.ast.blocks ++ [(name, [])] } }

/-- `SettingParser.remove_block(name)`: pops the block at the mapped index
(out of range raises `IndexError` before the map entry is deleted) and
deletes the map entry.  Indices of later blocks are not adjusted. -/
def removeBlock (s : PState) (name : String) : Except VError PState :=
  match bmGet s.blockMap name with
  | none => .error (.blockNotExist name)
  | some idx =>
    if idx < s.ast.blocks.length then
      .ok { s with
        ast := { s.ast with blocks := s.ast.blocks.eraseIdx idx },
        blockMap := bmDel s.blockMap name }
    else .error .indexError

/-- A call into the mutation API. -/
inductive MOp
  | addOpt (block : Option String) (name : String) (values : List String)
  | removeOpt (block : Option String) (name : String)
  | addBlk (name : String)
  | removeBlk (name : String)
deriving DecidableEq, Repr

def applyMOp (s : PState) : MOp → Except VError PState
  | .addOpt b n vs => addOption s b n vs
  | .removeOpt b n => removeOption s b n
  | .addBlk n => addBlock s n
  | .removeBlk n => removeBlock s n

/-- Running a sequence of mutation calls, failing if any call raises. -/
def runMOps (s : PState) : List MOp → Except VError PState
  | [] => .ok s
  | op :: ops =>
    match applyMOp s op with
    | .error e => .error e
    | .ok s1 => runMOps s1 ops

/-! ## Serialization (`SettingParser.writestream` / `write`)

`os.linesep` is `"\n"` on the POSIX platforms the program targets.
`common.to_utf8` is the identity on the embedded strings. -/

/-- One `str.replace(old, new)` with a single-character pattern. -/
def pyReplaceChar (cs : List Char) (old : Char) (repl : List Char) : List Char :=
  cs.foldr (fun c acc => (if c = old then repl else [c]) ++ acc) []

/-- `v.replace('\\', '\\\\').replace('"', '\\"')` from `serialize_values`. -/
def escValue (v : String) : List Char :=
  pyReplaceChar (pyReplaceChar v.data '\\' ['\\', '\\']) '"' ['\\', '"']

/-- `serialize_values`: `','.join('"{0}"'.format(escaped(v)) for v in values)`. -/
def serializeValues (vs : List String) : List Char :=
  List.intercalate [','] (vs.map (fun v => ['"'] ++ escValue v ++ ['"']))

def linesep : List Char := ['\n']

def spaces (n : Nat) : List Char := List.replicate n ' '

/-- The text of one non-block option line: `'    {0} {1};{2}'`. -/
def optionLine (ind : Nat) (o : OptEntry) : List Char :=
  spaces ind ++ o.1.data ++ [' '] ++ serializeValues o.2 ++ [';'] ++ linesep

/-- The text of one block: `'    {0} {{{1}'`, its option lines, `'    }}{0}'`. -/
def blockText (b : BlkEntry) : List Char :=
  spaces 4 ++ b.1.data ++ [' ', '\x7b'] ++ linesep
    ++ (b.2.map (optionLine 8)).flatten
    ++ spaces 4 ++ ['\x7d'] ++ linesep

/-- Everything `writestream` writes, in order, for header `hdr`:
`'{0} {{{1}'`, the option lines, the block texts, `'}}{0}'`. -/
def serializeAst (ast : Ast) (hdr : String) : List Char :=
  hdr.data ++ [' ', '\x7b'] ++ linesep
    ++ (ast.options.map (optionLine 4)).flatten
    ++ (ast.blocks.map blockText).flatten
    ++ ['\x7d'] ++ linesep

/-- The `ValueError` raise sites of `writestream` (the
`'No available data to write'` generic exception is unreachable: `_ast`
is rebuilt by `_reset` and never empty). -/
inductive WError
  | missingHeader
  | invalidHeader
deriving DecidableEq, Repr

/-- `header = header or self._ast[0]` (Python `or`: falsy means `None` or
the empty string). -/
def resolveHeader (ast : Ast) (header : Option String) : Option String :=
  if isTruthyStr header then header else ast.header

/-- A file-like object for writing: what has been written so far, plus an
I/O fault model — `failAfter = some n` makes the `(n+1)`-th `write` call
raise `IOError`. -/
structure WStream where
  written : List Char
  failAfter : Option Nat
deriving DecidableEq, Repr

/-- One `stream.write(piece)` call. -/
def streamWrite (st : WStream) (piece : List Char) : Except Unit WStream :=
  match st.failAfter with
  | none => .ok { st with written := st.written ++ piece }
  | some 0 => .error ()
  | some (n + 1) => .ok { written := st.written ++ piece, failAfter := some n }

/-- The sequence of `stream.write` calls `writestream` makes. -/
def writePieces (ast : Ast) (hdr : String) : List (List Char) :=
  [hdr.data ++ [' ', '\x7b'] ++ linesep]
    ++ ast.options.map (optionLine 4)
    ++ ast.blocks.map blockText
    ++ [['\x7d'] ++ linesep]

/-- Running the write calls in order; an `IOError` stops the sequence,
leaving the stream with what was written before the fault. -/
def runWrites (st : WStream) : List (List Char) → Bool × WStream
  | [] => (true, st)
  | p :: ps =>
    match streamWrite st p with
    | .error _ => (false, st)
    | .ok st1 => runWrites st1 ps

/-- `SettingParser.writestream(stream, header)`: raises `ValueError` for a
missing or `RE_NAME`-invalid header; otherwise writes the serialized AST,
sets `_ast[0] = header` on success, and catches `IOError` into a `False`
return (with the header not yet set and the stream partially written;
`flush` is modelled as infallible). -/
def writestream (s : PState) (st : WStream) (header : Option String) :
    Except WError (Bool × PState × WStream) :=
  match resolveHeader s.ast header with
  | none => .error .missingHeader
  | some h =>
    if h = "" then .error .missingHeader
    else if !reNameMatch h then .error .invalidHeader
    else
      match runWrites st (writePieces s.ast h) with
      | (true, st1) => .ok (true, { s with ast := { s.ast with header := some h } }, st1)
      | (false, st1) => .ok (false, s, st1)

/-- `SettingParser.write(filename, header)`: `origfile` is saved; an
`IOError` on `open` restores it and returns `False`; a `ValueError` from
`writestream` propagates (the filename not yet updated); otherwise the
boolean `writestream` returned is *discarded*, `_filename` is set and
`True` returned. -/
def writeFile (s : PState) (openFails : Bool) (st : WStream)
    (filename : String) (header : Option String) :
    Except WError (Bool × PState × WStream) :=
  if openFails then .ok (false, s, st)
  else
    match writestream s st header with
    | .error e => .error e
    | .ok (_, s1, st1) => .ok (true, { s1 with filename := some filename }, st1)

/-! ## Registry (`focus/registry.py`) and plugin registration
(`focus/plugin/registration.py`)

The master plugin registry `_registered` is an `ExtRegistry` whose actions
map a plugin name to the plugin *class*; `Registry.get` lazily calls the
class and caches the resulting instance, which is the shared singleton the
hook tables reach through their `fetch_plugin` closures
(`_registered.get(name)[0]`).  Plugin classes are embedded as ids
(`ClassId`); calling a class allocates a fresh instance id from a counter,
so object identity is id equality. -/

abbrev ClassId := Nat

/-- Instance identity: which class was called, and an allocation number
fresh per instantiation. -/
structure Instance where
  cls : ClassId
  alloc : Nat
deriving DecidableEq, Repr

/-- A `type_info` dict (string keys, boolean values such as `'option'`,
`'command'`, `'event'`, `'disabled'`), used through its mapping. -/
abbrev TInfo := List (String × Bool)

def tiGet (ti : TInfo) (k : String) : Option Bool :=
  (ti.find? (fun p => p.1 = k)).map Prod.snd

/-- `dict.update(other)`: keys of `other` overwrite, new keys appended. -/
def tiUpdate (ti other : TInfo) : TInfo :=
  ti.map (fun p => match tiGet other p.1 with
    | some v => (p.1, v)
    | none => p)
    ++ other.filter (fun p => (tiGet ti p.1).isNone)

/-- State of the master `ExtRegistry`: `_actions` (name → class),
`_cache` (name → memoized instance), `_type_info`, plus the allocation
counter of the instantiation model. -/
structure ExtReg where
  actions : List (String × ClassId)
  cache : List (String × Instance)
  typeInfo : List (String × TInfo)
  nextAlloc : Nat
deriving DecidableEq, Repr

def ExtReg.empty : ExtReg := ⟨[], [], [], 0⟩

def aGet (m : List (String × ClassId)) (k : String) : Option ClassId :=
  (m.find? (fun p => p.1 = k)).map Prod.snd

def cGet (m : List (String × Instance)) (k : String) : Option Instance :=
  (m.find? (fun p => p.1 = k)).map Prod.snd

def tGet (m : List (String × TInfo)) (k : String) : Option TInfo :=
  (m.find? (fun p => p.1 = k)).map Prod.snd

def dictSet {α : Type} (m : List (String × α)) (k : String) (v : α) :
    List (String × α) :=
  if (m.find? (fun p => p.1 = k)).isSome then
    m.map (fun p => if p.1 = k then (k, v) else p)
  else m ++ [(k, v)]

def dictDel {α : Type} (m : List (String × α)) (k : String) : List (String × α) :=
  m.filter (fun p => p.1 ≠ k)

/-- `ExtRegistry.get(key)` (through `Registry.get`): returns `None` for an
unregistered key; otherwise the cached instance, or — on a cache miss —
the result of calling the registered class (`self._actions[key]()`), which
is memoized.  Returns the instance together with
`self._type_info.get(key)`. -/
def extGet (r : ExtReg) (k : String) : Option (Instance × Option TInfo) × ExtReg :=
  match aGet r.actions k with
  | none => (none, r)
  | some cls =>
    match cGet r.cache k with
    | some inst => (some (inst, tGet r.typeInfo k), r)
    | none =>
      let inst : Instance := ⟨cls, r.nextAlloc⟩
      (some (inst, tGet r.typeInfo k),
       { r with cache := dictSet r.cache k inst, nextAlloc := r.nextAlloc + 1 })

/-- `ExtRegistry.register(key, value, type_info)`: merges the type info
when the registered value is unchanged, replaces it otherwise; then
`Registry.register` stores the value and *invalidates the cache* for the
key (`if key in self._cache: del self._cache[key]`). -/
def extRegister (r : ExtReg) (k : String) (cls : ClassId) (ti : TInfo) : ExtReg :=
  let newTI :=
    match aGet r.actions k, tGet r.typeInfo k with
    | some old, some existing =>
      if old = cls then tiUpdate existing ti else ti
    | _, _ => ti
  { r with
    typeInfo := dictSet r.typeInfo k newTI,
    actions := dictSet r.actions k cls,
    cache := dictDel r.cache k }

/-- `registration.disable_plugin_instance(plugin)`:
`_registered.register(plugin.name, plugin.__class__, {'disabled': True})`.
The class of the live instance equals the registered class in every state
reachable through `fetch_plugin`, and is passed explicitly here. -/
def disablePluginInstance (r : ExtReg) (name : String) (cls : ClassId) : ExtReg :=
  extRegister r name cls [("disabled", true)]

/-! ## Option-hook dispatch (`registration.run_option_hooks`)

The option-hook table `_option_hooks` resolves a key to a plugin instance
and a properties dict; both are inputs here: `hooks` gives the hook entry
for a key (`None` for an unregistered key) and `behave` gives the outcome
of `plugin_obj.parse_option(option, block, *values)` — normal return, a
`TypeError` (wrong value count), or a `ValueError` with a message.  The
`disable_missing` pass acts on the global registries and runs only when
dispatch completed without raising; the claims settled here concern runs
that raise, so it is not reached and not modelled. -/

/-- Outcome of a `parse_option` call. -/
inductive ParseOutcome
  | ok
  | typeError
  | valueError (msg : String)
deriving DecidableEq, Repr

/-- A registered option hook: the plugin (by id) and the registered
properties (only `allow_duplicates` is consulted; `none` means the key is
absent so `props.get('allow_duplicates', True)` yields the default). -/
structure HookEntry where
  plugin : Nat
  allowDuplicates : Option Bool
deriving DecidableEq, Repr

def HookEntry.allowDup (h : HookEntry) : Bool := h.allowDuplicates.getD true

/-- `errors.InvalidTaskConfig(filename, reason)`. -/
structure InvalidTaskConfig where
  filename : Option String
  reason : String
deriving DecidableEq, Repr

/-- `_raise_error(msg, block)`: appends ` (block: "...")` when the block
value is truthy. -/
def raiseReason (msg : String) (block : Option String) : String :=
  if isTruthyStr block then
    msg ++ " (block: \"" ++ block.getD "" ++ "\")"
  else msg

/-- The `key` built by `_run_hooks`: `'{0}_{1}'.format(block, option)` when
the block value is truthy, else the bare option name. -/
def hookKey (block : Option String) (option : String) : String :=
  if isTruthyStr block then block.getD "" ++ "_" ++ option else option

/-- The shared `state` dict of occurrence counters. -/
abbrev CountMap := List (String × Nat)

def cmGet (m : CountMap) (k : String) : Nat :=
  ((m.find? (fun p => p.1 = k)).map Prod.snd).getD 0

def cmInc (m : CountMap) (k : String) : CountMap :=
  if (m.find? (fun p => p.1 = k)).isSome then
    m.map (fun p => if p.1 = k then (p.1, p.2 + 1) else p)
  else m ++ [(k, 1)]

/-- Running state of a `run_option_hooks` call: the counters plus the
`parse_option` invocations made so far (option, block, values). -/
structure HookRun where
  counts : CountMap
  calls : List (String × Option String × List String)
deriving DecidableEq, Repr

/-- One iteration of the `for option, value_list in options` loop of
`_run_hooks`. -/
def hookStep (hooks : String → Option HookEntry)
    (behave : Nat → String → Option String → List String → ParseOutcome)
    (filename : Option String) (block : Option String)
    (hr : HookRun) (o : OptEntry) : Except (InvalidTaskConfig × HookRun) HookRun :=
  match hooks (hookKey block o.1) with
  | some entry =>
    if !entry.allowDup && cmGet (cmInc hr.counts (hookKey block o.1)) (hookKey block o.1) > 1 then
      .error (⟨filename, raiseReason ("Duplicate option \"" ++ o.1 ++ "\"") block⟩,
              ⟨cmInc hr.counts (hookKey block o.1), hr.calls⟩)
    else
      match behave entry.plugin o.1 block o.2 with
      | .ok => .ok ⟨cmInc hr.counts (hookKey block o.1), hr.calls ++ [(o.1, block, o.2)]⟩
      | .typeError =>
        .error (⟨filename, raiseReason ("Value mismatch for option \"" ++ o.1 ++ "\"") block⟩,
                ⟨cmInc hr.counts (hookKey block o.1), hr.calls⟩)
      | .valueError msg =>
        .error (⟨filename,
                 raiseReason
                   (if msg = "" then "Invalid value provided for option \"" ++ o.1 ++ "\"" else msg)
                   block⟩,
                ⟨cmInc hr.counts (hookKey block o.1), hr.calls⟩)
  | none =>
    .error (⟨filename, raiseReason ("Invalid option \"" ++ o.1 ++ "\" found") block⟩, hr)

/-- `_run_hooks(options, block)`. -/
def runHooksList (hooks : String → Option HookEntry)
    (behave : Nat → String → Option String → List String → ParseOutcome)
    (filename : Option String) (block : Option String)
    (hr : HookRun) : List OptEntry → Except (InvalidTaskConfig × HookRun) HookRun
  | [] => .ok hr
  | o :: os =>
    match hookStep hooks behave filename block hr o with
    | .error e => .error e
    | .ok hr1 => runHooksList hooks behave filename block hr1 os

/-- The per-block phase: `for block, option_list in parser.blocks:
_run_hooks(option_list, block)`. -/
def runHooksBlocks (hooks : String → Option HookEntry)
    (behave : Nat → String → Option String → List String → ParseOutcome)
    (filename : Option String)
    (hr : HookRun) : List BlkEntry → Except (InvalidTaskConfig × HookRun) HookRun
  | [] => .ok hr
  | b :: bs =>
    match runHooksList hooks behave filename (some b.1) hr b.2 with
    | .error e => .error e
    | .ok hr1 => runHooksBlocks hooks behave filename hr1 bs

/-- `run_option_hooks(parser)` up to the `disable_missing` pass: non-block
options first, then every block, with one shared `state` dict.  On a raise
the carried `HookRun` records the counters and the `parse_option` calls
made before the raise. -/
def runOptionHooks (hooks : String → Option HookEntry)
    (behave : Nat → String → Option String → List String → ParseOutcome)
    (filename : Option String) (ast : Ast) :
    Except (InvalidTaskConfig × HookRun) HookRun :=
  match runHooksList hooks behave filename none ⟨[], []⟩ ast.options with
  | .error e => .error e
  | .ok hr1 => runHooksBlocks hooks behave filename hr1 ast.blocks

/-! ## Command server (`focus/daemon.py`, `CommandServer._process_commands`)

One call of `_process_commands`, given the payload the poll produced
(`none` when the 1-second poll timed out) and the outcome of
`common.shell_process` for a command (`none` models a `None` return, i.e.
failure).  The reply sent over the pipe (if any) and the boolean return
value are the outputs; the pipe itself is modelled as fault-free, so the
`except (EOFError, IOError)` arm fires exactly for the `raise EOFError`
of the `TRM` opcode. -/

/-- `payload.split('\x80', 2)`: split on at most `maxsplit` occurrences. -/
def pySplit (sep : Char) : Nat → List Char → List (List Char)
  | 0, cs => [cs]
  | maxsplit + 1, cs =>
    match cs.findIdx? (fun c => c = sep) with
    | none => [cs]
    | some i => cs.take i :: pySplit sep maxsplit (cs.drop (i + 1))

/-- The separator `'\x80'`. -/
def sepChar : Char := '\x80'

/-- `CommandServer._process_commands`: returns the reply written to the
pipe (if any) and the boolean result. -/
def processCommands (shell : String → Option String) (payload : Option String) :
    Option String × Bool :=
  match payload with
  | none => (none, true)
  | some p =>
    if p = "" then (none, true)
    else
      let parts := pySplit sepChar 2 p.data
      let op := (parts.headD []).asString
      if op = "TRM" then (none, false)
      else if op = "SHL" && parts.length = 2 then
        let command := (parts.getD 1 []).asString
        if command ≠ "" then
          match shell command with
          | some _ => (some "OK", true)
          | none => (some "FAIL", true)
        else (some "FAIL", true)
      else (some "FAIL", true)

/-! ## Specification-side definitions

The definitions below are not translations of the source; they state the
properties the claims assert (consistency invariants, the first-position /
last-content block policy, the naive block sequence of an input, the class
of round-trippable values) and are compared against the source embedding
by the theorems. -/

/-- The block-index consistency invariant: `_block_map` holds exactly the
names of the blocks in the block list, each mapped to that block's current
position (block names being distinct, as every consistent parser state
has). -/
def consistentBM (s : PState) : Prop :=
  (s.ast.blocks.map Prod.fst).Nodup ∧
  ∀ n i, bmGet s.blockMap n = some i ↔ (s.ast.blocks.map Prod.fst).get? i = some n

/-- Mutation sequences in which every successful `remove_block` removes the
block sitting at the last position of the block list. -/
inductive SafeSteps : PState → List MOp → PState → Prop
  | nil (s : PState) : SafeSteps s [] s
  | cons (s : PState) (op : MOp) (s1 s2 : PState) (ops : List MOp) :
      applyMOp s op = .ok s1 →
      (∀ n, op = .removeBlk n → bmGet s.blockMap n = some (s.ast.blocks.length - 1)) →
      SafeSteps s1 ops s2 →
      SafeSteps s (op :: ops) s2

/-- Lookup in the `dupe_blocks` dict. -/
def dupGet (d : Dupes) (k : String) : Option (List OptEntry) :=
  (d.find? (fun p => p.1 = k)).map Prod.snd

/-- First-occurrence order of keys. -/
def uniqKeysGo (seen : List String) : List String → List String
  | [] => []
  | n :: r => if n ∈ seen then uniqKeysGo seen r else n :: uniqKeysGo (n :: seen) r

def uniqKeys (l : List String) : List String := uniqKeysGo [] l

/-- The option content of the last occurrence of block `n` in a raw block
sequence. -/
def lastContent (raw : List BlkEntry) (n : String) : List OptEntry :=
  (((raw.filter (fun b => b.1 = n)).getLast?).map Prod.snd).getD []

/-- The block policy the spec states: each duplicated name keeps the list
position of its first occurrence and the content of its last. -/
def dedupFirstLast (raw : List BlkEntry) : List BlkEntry :=
  (uniqKeys (raw.map Prod.fst)).map (fun n => (n, lastContent raw n))

/-- Specification-side container loop: identical control flow to
`containerLoop`, but keeping every block occurrence, in parse order. -/
def naiveLoop (fuel : Nat) (toks : Toks) (opts : List OptEntry)
    (raw : List BlkEntry) : Except PError (List OptEntry × List BlkEntry × Toks) :=
  match fuel with
  | 0 => .error .outOfFuel
  | fuel + 1 =>
    if lookaheadToken 1 toks ≠ some "\x7d" then
      if lookaheadToken 2 toks = some "\x7b" then
        match ruleBlock fuel toks with
        | .error e => .error e
        | .ok (blk, toks1) => naiveLoop fuel toks1 opts (raw ++ [blk])
      else
        match ruleOption fuel toks with
        | .error e => .error e
        | .ok (o, toks1) => naiveLoop fuel toks1 (opts ++ [o]) raw
    else .ok (opts, raw, toks)

/-- Specification-side read: the header, options and the raw ordered
sequence of block occurrences of an input. -/
def naiveReadstream (input : List Char) :
    Except PError (Option String × List OptEntry × List BlkEntry) :=
  let toks := (tokenize input).map Prod.snd
  match getTokName toks with
  | .error e => .error e
  | .ok (typeName, toks1) =>
    match expectTok "\x7b" toks1 with
    | .error e => .error e
    | .ok toks2 =>
      match naiveLoop (parseFuel toks) toks2 [] [] with
      | .error e => .error e
      | .ok (opts, raw, toks3) =>
        match expectTok "\x7d" toks3 with
        | .error e => .error e
        | .ok toks4 =>
          match expectEmpty toks4 with
          | .error e => .error e
          | .ok _ => .ok (some typeName, opts, raw)

/-- The literal duplicate-block input scenario:
`header \x7bopt "1"; blk\x7bo "a";\x7d blk2\x7bo "b";\x7d blk2\x7bo "c";\x7d
blk\x7bo "d";\x7d blk3\x7bo "e";\x7d\x7d`. -/
def c2Input : List Char :=
  ("header \x7bopt \"1\"; blk\x7bo \"a\";\x7d blk2\x7bo \"b\";\x7d "
    ++ "blk2\x7bo \"c\";\x7d blk\x7bo \"d\";\x7d blk3\x7bo \"e\";\x7d\x7d").data

/-- The ordered sequence of `(block, option)` pairs `run_option_hooks`
dispatches: non-block options first, then each block's options. -/
def dispatchSeq (ast : Ast) : List (Option String × OptEntry) :=
  ast.options.map (fun o => (none, o))
    ++ ast.blocks.flatMap (fun b => b.2.map (fun o => (some b.1, o)))

/-- Folding `hookStep` over a tagged dispatch sequence. -/
def runSeq (hooks : String → Option HookEntry)
    (behave : Nat → String → Option String → List String → ParseOutcome)
    (filename : Option String) (hr : HookRun) :
    List (Option String × OptEntry) → Except (InvalidTaskConfig × HookRun) HookRun
  | [] => .ok hr
  | e :: l =>
    match hookStep hooks behave filename e.1 hr e.2 with
    | .error err => .error err
    | .ok hr1 => runSeq hooks behave filename hr1 l

/-- Occurrences of hook key `k` in a tagged dispatch sequence. -/
def countKey (l : List (Option String × OptEntry)) (k : String) : Nat :=
  (l.filter (fun e => hookKey e.1 e.2.1 = k)).length

/-- Characters that corrupt a serialized value when they immediately follow
a backslash: the lexer's double-escape flag is then set, so a following
backslash is not folded, a following quote (either kind) terminates the
string early, and a newline keeps the flag alive. -/
def badAfterBackslash (c : Char) : Bool :=
  c = '\\' || c = '"' || c = '\'' || c = '\n' || c = '\r'

/-- Value character sequences whose serialization re-lexes to the same
content: every backslash is immediately followed by a character that is
not a backslash, quote, or newline (in particular no trailing
backslash). -/
def goodSeq : List Char → Bool
  | [] => true
  | c :: cs =>
    if c = '\\' then
      match cs with
      | [] => false
      | d :: _ => !badAfterBackslash d && goodSeq cs
    else goodSeq cs

/-- A value that survives the serialize-then-parse round trip: non-empty
with `goodSeq` content. -/
def goodValue (v : String) : Bool := v ≠ "" && goodSeq v.data

/-- `escValue` written as one left-to-right pass: each backslash doubles,
each double quote gains a backslash. -/
def escSeq : List Char → List Char
  | [] => []
  | c :: cs =>
    (if c = '\\' then ['\\', '\\'] else if c = '"' then ['\\', '"'] else [c]) ++ escSeq cs

/-- Token strings of a serialized value list: the values interleaved with
comma tokens. -/
def valTokStrs : List String → List String
  | [] => []
  | v :: vs => [v] ++ vs.flatMap (fun w => [",", w])

/-- Mutation calls whose results round-trip: additive calls with
grammar-core names, at least one value, round-trippable value content, and
(for a top-level option) a first value that the container loop's two-token
lookahead cannot mistake for a block opener. -/
def goodOp : MOp → Bool
  | .addOpt block name values =>
      isNameCore name.data && !values.isEmpty && values.all goodValue &&
        (isTruthyStr block || values.headD "" ≠ "\x7b")
  | .addBlk name => isNameCore name.data
  | _ => false

/-- Token strings of one serialized option: name, the values interleaved
with comma tokens, and the terminating semicolon. -/
def optTokStrs (o : OptEntry) : List String :=
  match o.2 with
  | [] => [o.1, ";"]
  | v :: vs => [o.1, v] ++ vs.flatMap (fun w => [",", w]) ++ [";"]

/-- Token strings of one serialized block. -/
def blkTokStrs (b : BlkEntry) : List String :=
  [b.1, "\x7b"] ++ b.2.flatMap optTokStrs ++ ["\x7d"]

/-- Token strings of a whole serialized AST under header `hdr`. -/
def astTokStrs (ast : Ast) (hdr : String) : List String :=
  [hdr, "\x7b"] ++ ast.options.flatMap optTokStrs
    ++ ast.blocks.flatMap blkTokStrs ++ ["\x7d"]

/-- Well-formedness of an option entry for the round trip: `NAME`-valid
name (per the grammar, without the trailing-newline regex quirk), at least
one value, every value round-trippable.  `topLevel` additionally forbids a
first value equal to `"{"`, which the container loop's two-token lookahead
would mistake for the start of a block. -/
def wfOpt (topLevel : Bool) (o : OptEntry) : Prop :=
  isNameCore o.1.data ∧ o.2 ≠ [] ∧ (∀ v ∈ o.2, goodValue v) ∧
    (topLevel → o.2.headD "" ≠ "\x7b")

def wfBlk (b : BlkEntry) : Prop :=
  isNameCore b.1.data ∧ ∀ o ∈ b.2, wfOpt false o

/-- Well-formedness of an AST for the round trip. -/
def wfAst (ast : Ast) : Prop :=
  (∀ o ∈ ast.options, wfOpt true o) ∧ (∀ b ∈ ast.blocks, wfBlk b) ∧
    (ast.blocks.map Prod.fst).Nodup

/-- A lexer state cleanly between tokens: token mode, empty buffer, no
quote context. -/
def cleanLexer (tks : List (Nat × String)) (ln : Nat) : Lexer :=
  { tokens := tks, chars := [], lineNo := ln, mode := .token,
    lastQuote := none, doubleEsc := false }

/-- A character segment that carries the lexer from one clean between-token
state to another, emitting exactly the given token strings. -/
def EmitsClean (seg : List Char) (strs : List String) : Prop :=
  ∀ tks ln, ∃ tks2 ln2,
    lexChars (cleanLexer tks ln) seg = cleanLexer (tks ++ tks2) ln2 ∧
    tks2.map Prod.snd = strs

/-- Newlines contributed by a value's characters (values may span lines). -/
def nlCount (cs : List Char) : Nat := (cs.filter (fun c => isNewlineChar c)).length

/-! # Theorems -/

/-! ## Sanity checks of the embedding against the lexer docstring -/

example : tokenize "task \x7b\nduration 30;\n\x7d\n".data =
    [(1, "task"), (1, "\x7b"), (2, "duration"), (2, "30"), (2, ";"), (3, "\x7d")] := by
  decide

example :
    (runWrites { written := [], failAfter := none }
        (writePieces ⟨none, [("o", ["v"])], []⟩ "h")).2.written
      = "h \x7b\n    o \"v\";\n\x7d\n".data := by
  decide

/-! ## C3 — quote matching inside strings -/

/-- C3: the claim is refuted by the source's operator precedence: in
`char == self._last_quote and not self._escaped or self._double_escaped`
the `or` arm fires for a *non-matching* quote whenever the double-escape
flag is set.  On input `'a\\"b'` the double quote after the double
backslash terminates the single-quoted string: the lexer emits the token
`a\` at the `"` (with both backslashes swallowed by the `_escaped` pops)
and then `b`, instead of treating `"` as literal content of a still-open
string.  This contradicts the code's own comment ("quote must match
original quote") and the grammar docstring ("they just have to match"). -/
theorem quote_mismatch_terminates_string :
    tokenize "'a\\\\\"b'".data = [(1, "a\\"), (1, "b")] := by decide

/-! ## C10 — empty quoted strings produce no token -/

/-- C10: from token mode with no pending escape, an opening quote
immediately followed by its matching closing quote flushes the pending
buffer (one token at most, for the buffered characters) and emits nothing
for the string itself, returning the lexer to a clean token mode; and
concretely `name "";` lexes to exactly `name` and `;`. -/
theorem empty_quoted_string_vanishes :
    (∀ (lx : Lexer) (q : Char), lx.mode = .token → (popEscaped lx.chars).1 = false →
      isQuoteChar q → lexChars lx [q, q] = setMode (newToken lx) .token) ∧
    tokenize "name \"\";".data = [(1, "name"), (1, ";")] := by
  refine ⟨?_, by decide⟩
  intro lx q hmode hesc hq
  have hq2 : (q = '\'' ∨ q = '"') := by
    rcases Bool.or_eq_true_iff.mp hq with h | h
    · exact Or.inl (by simpa using h)
    · exact Or.inr (by simpa using h)
  have hnotnl : isNewlineChar q = false := by
    rcases hq2 with rfl | rfl <;> decide
  have hnotws : isWhitespaceChar q = false := by
    rcases hq2 with rfl | rfl <;> decide
  have hnotcm : (q = commentChar) = False := by
    rcases hq2 with rfl | rfl <;> simp [commentChar]
  have hnottk : isTokenChar q = false := by
    rcases hq2 with rfl | rfl <;> decide
  have hnotsp : (q = ' ') = False := by
    rcases hq2 with rfl | rfl <;> simp
  set lxS : Lexer :=
    { lx with mode := LexMode.strMode, lastQuote := some q, doubleEsc := false } with hS
  set lx1 : Lexer := newToken lxS with h1
  -- first character: opens the string
  have step1 : lexStep lx q = lx1 := by
    simp [lexStep, hnotnl, hmode, processTokens, hnotws, hnotcm, hq, hnottk, hnotsp, hesc,
      h1, hS]
  -- the state after the opening quote
  have hb1 : lx1.chars = [] := by
    rw [h1, hS]; unfold newToken
    by_cases h : lx.chars = [] <;> simp [h]
  have hb2 : lx1.mode = .strMode := by
    rw [h1, hS]; unfold newToken
    by_cases h : lx.chars = [] <;> simp [h]
  have hb3 : lx1.lastQuote = some q := by
    rw [h1, hS]; unfold newToken
    by_cases h : lx.chars = [] <;> simp [h]
  -- second character: closes the empty string, emitting nothing
  have step2 : lexStep lx1 q = setMode (newToken lx) .token := by
    have hps : processString lx1 q = setMode (newToken { lx1 with chars := [] }) .token := by
      simp [processString, hq, hb3, hb1, popEscaped]
    have hmain : lexStep lx1 q = setMode (newToken { lx1 with chars := [] }) .token := by
      simp [lexStep, hnotnl, hb2, hps]
    rw [hmain]
    have hnt : newToken { lx1 with chars := [] } = { lx1 with chars := [] } := by
      simp [newToken]
    rw [hnt, h1, hS]
    unfold setMode newToken
    by_cases h : lx.chars = [] <;> simp [h]
  show List.foldl lexStep lx [q, q] = _
  simp only [List.foldl_cons, List.foldl_nil, step1, step2]

/-- C10 witness: the general statement applied to the initial lexer with a
double quote. -/
theorem empty_quoted_string_vanishes_witness :
    lexChars lexInit ['"', '"'] = setMode (newToken lexInit) .token :=
  empty_quoted_string_vanishes.1 lexInit '"' rfl rfl rfl

/-! ## C5 — what a failed parse leaves behind -/

/-- C5 counterexample: the claim asserts a freshly reset state including an
*empty block index map* after every failed parse.  On
`h{b{o "v";};}` the parse fails (the `;` after the block is not a NAME)
*after* block `b` was entered into `_block_map`, and `readstream` leaves
that entry in place: the block map is `{b: 0}`, not empty. -/
theorem failed_parse_keeps_block_map :
    (readstream "h\x7bb\x7bo \"v\";\x7d;\x7d".data).1 = .error (.badTokenFormat ";") ∧
    (readstream "h\x7bb\x7bo \"v\";\x7d;\x7d".data).2.blockMap = [("b", 0)] ∧
    [("b", 0)] ≠ ([] : BMap) := by
  refine ⟨by decide, by decide, by decide⟩

/-- C5 amended: when `readstream` raises a `ParseError` the parser holds
the freshly reset header (`None`), option list and block list, and no
tracked filename — but the block index map may retain entries for blocks
parsed before the failure (those entries are observable, e.g. `add_block`
of such a name then raises "already exists"). -/
theorem failed_parse_resets_ast (input : List Char) (e : PError)
    (h : (readstream input).1 = .error e) :
    (readstream input).2.ast = ⟨none, [], []⟩ ∧
      (readstream input).2.filename = none := by
  rcases hrc : ruleContainer (parseFuel ((tokenize input).map Prod.snd))
      ((tokenize input).map Prod.snd) ([] : BMap) with ⟨res, bmap⟩
  cases res with
  | ok ast =>
    exfalso
    have hok : (readstream input).1 = .ok () := by
      simp [readstream, resetState, hrc]
    rw [hok] at h
    exact Except.noConfusion h
  | error e2 =>
    constructor <;> simp [readstream, resetState, hrc]

/-- C5 witness: the amended theorem at the input `x`, which fails with an
unexpected end of file (a lone `x` with no newline is never flushed into a
token). -/
theorem failed_parse_resets_ast_witness :
    (readstream "x".data).2.ast = ⟨none, [], []⟩ ∧
      (readstream "x".data).2.filename = none :=
  failed_parse_resets_ast "x".data .unexpectedEOF (by decide)

/-! ## C9 — command-server protocol -/

theorem findIdx_sep_prefix (pre cs : List Char) (h : sepChar ∉ pre) :
    (pre ++ sepChar :: cs).findIdx? (fun c => c = sepChar) = some pre.length := by
  induction pre with
  | nil =>
    rw [List.nil_append, List.findIdx?_cons]
    norm_num
  | cons a l ih =>
    have ha : (a = sepChar) = False := by
      simp only [eq_iff_iff, iff_false]
      intro hc
      exact h (hc ▸ List.mem_cons_self a l)
    have hl : sepChar ∉ l := fun hc => h (List.mem_cons_of_mem a hc)
    rw [List.cons_append, List.findIdx?_cons]
    simp [ha, ih hl]

theorem pySplit_succ_eq (n : Nat) (cs : List Char) :
    pySplit sepChar (n + 1) cs =
      match cs.findIdx? (fun c => c = sepChar) with
      | none => [cs]
      | some i => cs.take i :: pySplit sepChar n (cs.drop (i + 1)) := rfl

theorem pySplit_prefix (n : Nat) (pre cs : List Char) (h : sepChar ∉ pre) :
    pySplit sepChar (n + 1) (pre ++ sepChar :: cs) = pre :: pySplit sepChar n cs := by
  rw [pySplit_succ_eq, findIdx_sep_prefix pre cs h]
  dsimp only
  have htake : (pre ++ sepChar :: cs).take pre.length = pre := by
    simpa using List.take_left pre (sepChar :: cs)
  have hdrop : (pre ++ sepChar :: cs).drop (pre.length + 1) = cs := by
    have hsplitup : pre ++ sepChar :: cs = (pre ++ [sepChar]) ++ cs := by simp
    have hlen : pre.length + 1 = (pre ++ [sepChar]).length := by simp
    rw [hsplitup, hlen]
    exact List.drop_left (pre ++ [sepChar]) cs
  rw [htake, hdrop]

theorem shl_data (cmd : String) :
    ("SHL\x80" ++ cmd).data = "SHL".data ++ sepChar :: cmd.data := by
  have h1 : "SHL\x80".data = "SHL".data ++ [sepChar] := by decide
  rw [String.data_append, h1, List.append_assoc]
  rfl

theorem trm_data (rest : String) :
    ("TRM\x80" ++ rest).data = "TRM".data ++ sepChar :: rest.data := by
  have h1 : "TRM\x80".data = "TRM".data ++ [sepChar] := by decide
  rw [String.data_append, h1, List.append_assoc]
  rfl

theorem prefix_sep_ne_empty (pre : List Char) (s rest : String)
    (hdata : s.data = pre ++ sepChar :: rest.data) : s ≠ "" := by
  intro hc
  have hlen : s.data.length = 0 := by rw [hc]; rfl
  rw [hdata] at hlen
  simp [List.length_append] at hlen

/-- Any payload whose first separator-segment reads `TRM` makes
`_process_commands` raise `EOFError` into a `False` return with no
reply. -/
theorem processCommands_op_trm (shell : String → Option String) (p : String) (hne : p ≠ "")
    (hop : ((pySplit sepChar 2 p.data).headD []).asString = "TRM") :
    processCommands shell (some p) = (none, false) := by
  unfold processCommands
  dsimp only
  rw [if_neg hne]
  simp only [hop]
  rfl

/-- C9 counterexample: the claim requires every payload that is neither
`SHL<0x80>cmd` nor `TRM` to be answered with `FAIL` and the loop to
continue; but `TRM<0x80>x` matches the `TRM` opcode test (which looks only
at the segment before the first separator, prior to any shape check), so
the server stops with no reply instead. -/
theorem trm_with_separator_stops_loop :
    processCommands (fun _ => some "") (some ("TRM\x80x")) = (none, false) ∧
    ((none, false) : Option String × Bool) ≠ (some "FAIL", true) := by
  refine ⟨by decide, by decide⟩

/-- C9 amended: `SHL<0x80>cmd` with a non-empty, separator-free `cmd` is
executed synchronously, answered `OK` on success and `FAIL` on failure,
and the loop continues; any payload whose first separator-segment is `TRM`
(not only the bare payload `TRM`) stops the loop with no reply, as a
normal termination distinct from error-driven stops; an empty payload
produces no reply and the loop continues; every other payload — empty
command, extra separators, unknown opcode — is answered `FAIL`. -/
theorem command_server_protocol (shell : String → Option String) :
    (∀ cmd : String, cmd ≠ "" → sepChar ∉ cmd.data →
      processCommands shell (some ("SHL\x80" ++ cmd)) =
        (some (if (shell cmd).isSome then "OK" else "FAIL"), true)) ∧
    (processCommands shell (some "TRM") = (none, false)) ∧
    (∀ rest : String, processCommands shell (some ("TRM\x80" ++ rest)) = (none, false)) ∧
    (processCommands shell (some "") = (none, true)) ∧
    (processCommands shell none = (none, true)) ∧
    (∀ p : String, p ≠ "" →
      ((pySplit sepChar 2 p.data).headD []).asString ≠ "TRM" →
      ¬(((pySplit sepChar 2 p.data).headD []).asString = "SHL" ∧
          (pySplit sepChar 2 p.data).length = 2 ∧
          (pySplit sepChar 2 p.data).getD 1 [] ≠ []) →
      processCommands shell (some p) = (some "FAIL", true)) := by
  refine ⟨?_, ?_, ?_, by simp [processCommands], by simp [processCommands], ?_⟩
  · intro cmd hne hsep
    have hnone : cmd.data.findIdx? (fun c => c = sepChar) = none := by
      rw [List.findIdx?_eq_none_iff]
      intro c hc
      exact decide_eq_false (fun heq => hsep (heq ▸ hc))
    have hsplit : pySplit sepChar 2 ("SHL\x80" ++ cmd).data = ["SHL".data, cmd.data] := by
      rw [shl_data, pySplit_prefix 1 _ _ (by decide), pySplit_succ_eq, hnone]
    have hpne : ("SHL\x80" ++ cmd) ≠ "" := prefix_sep_ne_empty _ _ _ (shl_data cmd)
    have hcmdas : cmd.data.asString = cmd := by cases cmd; rfl
    unfold processCommands
    dsimp only
    rw [if_neg hpne]
    simp only [hsplit, List.headD_cons, List.getD_cons_succ, List.getD_cons_zero,
      List.length_cons, List.length_nil, List.length_singleton, hcmdas]
    norm_num
    rw [if_neg hne]
    cases h : shell cmd <;> simp +decide
  · have hnone : ("TRM").data.findIdx? (fun c => c = sepChar) = none := by decide
    have h1 : pySplit sepChar 2 "TRM".data = ["TRM".data] := by
      rw [pySplit_succ_eq, hnone]
    apply processCommands_op_trm
    · decide
    · rw [h1]; decide
  · intro rest
    have hsplit : pySplit sepChar 2 ("TRM\x80" ++ rest).data
        = "TRM".data :: pySplit sepChar 1 rest.data := by
      rw [trm_data, pySplit_prefix 1 _ _ (by decide)]
    apply processCommands_op_trm _ _ (prefix_sep_ne_empty _ _ _ (trm_data rest))
    rw [hsplit, List.headD_cons]
    decide
  · intro p hne htrm hshl
    unfold processCommands
    dsimp only
    rw [if_neg hne, if_neg htrm]
    by_cases hb : (((pySplit sepChar 2 p.data).headD []).asString = "SHL" &&
        (pySplit sepChar 2 p.data).length = 2) = true
    · have h1 : ((pySplit sepChar 2 p.data).headD []).asString = "SHL" := by
        have hh := (Bool.and_eq_true _ _).mp hb
        exact of_decide_eq_true hh.1
      have h2 : (pySplit sepChar 2 p.data).length = 2 := by
        have hh := (Bool.and_eq_true _ _).mp hb
        exact of_decide_eq_true hh.2
      have hc : (pySplit sepChar 2 p.data).getD 1 [] = [] := by
        by_contra hcc
        exact hshl ⟨h1, h2, hcc⟩
      rw [if_pos hb, hc]
      rw [if_neg (show ¬(([] : List Char).asString ≠ "") by decide)]
    · rw [if_neg hb]

/-- C9 witness: the amended protocol theorem applied at the command `ls`
with a succeeding shell. -/
theorem command_server_protocol_witness :
    processCommands (fun _ => some "out") (some ("SHL\x80ls")) =
      (some (if ((fun (_ : String) => some "out") "ls").isSome then "OK" else "FAIL"), true) :=
  (command_server_protocol (fun _ => some "out")).1 "ls" (by decide) (by decide)

/-! ## C6 — write failure semantics -/

/-- C6 counterexample: with a target that opens fine but whose stream
faults on the first write, `writestream` catches the `IOError` and returns
`False` — but `write` discards that boolean, still records the new
filename and returns `True`.  So an I/O error while writing the stream
content does *not* surface as a failure return of `write`, and the
original-filename tracking is changed, contradicting the claim. -/
theorem write_swallows_stream_errors :
    writestream ⟨none, ⟨none, [("o", ["v"])], []⟩, []⟩ ⟨[], some 0⟩ (some "h") =
      .ok (false, ⟨none, ⟨none, [("o", ["v"])], []⟩, []⟩, ⟨[], some 0⟩) ∧
    writeFile ⟨none, ⟨none, [("o", ["v"])], []⟩, []⟩ false ⟨[], some 0⟩ "f" (some "h") =
      .ok (true, ⟨some "f", ⟨none, [("o", ["v"])], []⟩, []⟩, ⟨[], some 0⟩) ∧
    (some "f" : Option String) ≠ none := by
  refine ⟨by decide, by decide, by decide⟩

/-- C6 amended: `write` returns the failure value `False` exactly when
*opening* the file raises `IOError`, leaving the state and the filename
tracking unchanged; a missing or NAME-invalid header raises `ValueError`
exactly as `writestream` does (and the state is unchanged, no `.ok`
result being produced); but when the file opens and the header is valid,
`write` returns `True` and updates the tracked filename even if an
`IOError` occurred while writing the stream content — `writestream`'s
`False` is discarded (the AST header is then also left unset). -/
theorem write_failure_semantics (s : PState) (st : WStream) (fname : String)
    (hdr : Option String) :
    (writeFile s true st fname hdr = .ok (false, s, st)) ∧
    (∀ e, writeFile s false st fname hdr = .error e ↔ writestream s st hdr = .error e) ∧
    (∀ h, resolveHeader s.ast hdr = some h → h ≠ "" → reNameMatch h →
      writeFile s false st fname hdr =
        .ok (true,
          { s with filename := some fname,
                   ast := if (runWrites st (writePieces s.ast h)).1 then
                            { s.ast with header := some h } else s.ast },
          (runWrites st (writePieces s.ast h)).2)) := by
  refine ⟨rfl, ?_, ?_⟩
  · intro e
    unfold writeFile
    cases hws : writestream s st hdr with
    | error e2 => simp [hws]
    | ok r => simp [hws]
  · intro h hres hne hmatch
    unfold writeFile writestream
    rw [hres]
    dsimp only
    rw [if_neg hne]
    rcases hrw : runWrites st (writePieces s.ast h) with ⟨b, st1⟩
    cases b <;> simp [hrw, hmatch]

/-- C6 witness: the amended theorem's valid-header clause at a concrete
state with a faulting stream: `write` reports success and retargets the
filename although every stream write failed. -/
theorem write_failure_semantics_witness :
    writeFile ⟨none, ⟨none, [], []⟩, []⟩ false ⟨[], some 0⟩ "f" (some "hd") =
      .ok (true,
        ⟨some "f",
         if (runWrites ⟨[], some 0⟩ (writePieces ⟨none, [], []⟩ "hd")).1 then
           ⟨some "hd", [], []⟩ else ⟨none, [], []⟩, []⟩,
        (runWrites ⟨[], some 0⟩ (writePieces ⟨none, [], []⟩ "hd")).2) :=
  (write_failure_semantics ⟨none, ⟨none, [], []⟩, []⟩ ⟨[], some 0⟩ "f" (some "hd")).2.2
    "hd" (by decide) (by decide) (by decide)

/-! ## C8 — disabling a plugin and singleton identity -/

theorem find_key_map_set {α : Type} (l : List (String × α)) (k : String) (v : α) :
    (l.map (fun p => if p.1 = k then (k, v) else p)).find? (fun p => p.1 = k) =
      (l.find? (fun p => p.1 = k)).map (fun _ => (k, v)) := by
  induction l with
  | nil => rfl
  | cons a l ih =>
    by_cases ha : a.1 = k <;> simp [List.find?_cons, ha, ih]

theorem find_key_map_set_other {α : Type} (l : List (String × α)) (k k2 : String) (v : α)
    (h : k2 ≠ k) :
    (l.map (fun p => if p.1 = k then (k, v) else p)).find? (fun p => p.1 = k2) =
      l.find? (fun p => p.1 = k2) := by
  induction l with
  | nil => rfl
  | cons a l ih =>
    by_cases ha : a.1 = k
    · simp [List.find?_cons, ha, Ne.symm h, ih]
    · by_cases ha2 : a.1 = k2 <;> simp [List.find?_cons, ha, ha2, h, ih]

theorem find_key_dictSet_self {α : Type} (m : List (String × α)) (k : String) (v : α) :
    ((dictSet m k v).find? (fun p => p.1 = k)).map Prod.snd = some v := by
  unfold dictSet
  by_cases hmem : (m.find? (fun p => p.1 = k)).isSome
  · rw [if_pos hmem, find_key_map_set]
    rcases Option.isSome_iff_exists.mp hmem with ⟨p, hp⟩
    rw [hp]
    rfl
  · rw [if_neg hmem, List.find?_append, Option.not_isSome_iff_eq_none.mp hmem]
    simp [List.find?_cons]

theorem find_key_dictSet_other {α : Type} (m : List (String × α)) (k k2 : String) (v : α)
    (h : k2 ≠ k) :
    (dictSet m k v).find? (fun p => p.1 = k2) = m.find? (fun p => p.1 = k2) := by
  unfold dictSet
  by_cases hmem : (m.find? (fun p => p.1 = k)).isSome
  · rw [if_pos hmem, find_key_map_set_other _ _ _ _ h]
  · rw [if_neg hmem, List.find?_append]
    have h1 : ([(k, v)].find? (fun p => p.1 = k2)) = none := by
      simp [List.find?_cons, Ne.symm h]
    rw [h1]
    cases m.find? (fun p => p.1 = k2) <;> rfl

theorem find_key_dictDel_self {α : Type} (m : List (String × α)) (k : String) :
    (dictDel m k).find? (fun p => p.1 = k) = none := by
  unfold dictDel
  rw [List.find?_eq_none]
  intro p hp
  rw [List.mem_filter] at hp
  simp only [decide_eq_true_eq]
  intro hpk
  have h2 := hp.2
  simp [hpk] at h2

theorem find_key_dictDel_other {α : Type} (m : List (String × α)) (k k2 : String)
    (h : k2 ≠ k) :
    (dictDel m k).find? (fun p => p.1 = k2) = m.find? (fun p => p.1 = k2) := by
  unfold dictDel
  induction m with
  | nil => rfl
  | cons a l ih =>
    rw [List.filter_cons]
    by_cases ha : a.1 = k
    · have hfa : (decide ¬(a.1 = k)) = false := by simp [ha]
      simp only [hfa, if_false]
      have hfa2 : (decide (a.1 = k2)) = false := by simp [ha, Ne.symm h]
      rw [List.find?_cons]
      simp only [hfa2]
      exact ih
    · have hfa : (decide ¬(a.1 = k)) = true := by simp [ha]
      simp only [hfa, if_true]
      rw [List.find?_cons, List.find?_cons]
      cases hfa2 : (decide (a.1 = k2))
      · simp only [hfa2]
        exact ih
      · simp only [hfa2]

/-- C8 counterexample: register plugin `p` (class id 7) with option type
info, look it up (instantiating the singleton, allocation 0), then mark it
disabled.  `disable_plugin_instance` re-registers the same class, which
merges `{'disabled': True}` into the type info but *invalidates the
instance cache* (`Registry.register` deletes the cache entry even for an
unchanged value).  The next lookup therefore instantiates a *new* object
(allocation 1): the singleton identity is not preserved. -/
theorem disable_discards_cached_instance :
    extGet (extRegister ExtReg.empty "p" 7 [("option", true)]) "p" =
      (some (⟨7, 0⟩, some [("option", true)]),
       ⟨[("p", 7)], [("p", ⟨7, 0⟩)], [("p", [("option", true)])], 1⟩) ∧
    disablePluginInstance
        ⟨[("p", 7)], [("p", ⟨7, 0⟩)], [("p", [("option", true)])], 1⟩ "p" 7 =
      ⟨[("p", 7)], [], [("p", [("option", true), ("disabled", true)])], 1⟩ ∧
    extGet ⟨[("p", 7)], [], [("p", [("option", true), ("disabled", true)])], 1⟩ "p" =
      (some (⟨7, 1⟩, some [("option", true), ("disabled", true)]),
       ⟨[("p", 7)], [("p", ⟨7, 1⟩)], [("p", [("option", true), ("disabled", true)])], 2⟩) ∧
    (⟨7, 0⟩ : Instance) ≠ ⟨7, 1⟩ := by
  refine ⟨by decide, by decide, by decide, by decide⟩

/-- C8 amended: `disable_plugin_instance` is a soft-disable that preserves
the *registration* — the key still maps to the same class, other keys are
untouched, and the type info is the old one merged with the disabled flag
— but not the *instance identity*: the cache entry for the key is deleted,
so the next lookup calls the class again and every later lookup (shared by
all hook tables through the master registry) returns that fresh instance,
which is a different object from any instance allocated before the
disable. -/
theorem disable_reregisters_class (r : ExtReg) (k : String) (cls : ClassId)
    (hact : aGet r.actions k = some cls) :
    (aGet (disablePluginInstance r k cls).actions k = some cls) ∧
    (∀ k2, k2 ≠ k →
      aGet (disablePluginInstance r k cls).actions k2 = aGet r.actions k2) ∧
    (cGet (disablePluginInstance r k cls).cache k = none) ∧
    (∀ ti, tGet r.typeInfo k = some ti →
      tGet (disablePluginInstance r k cls).typeInfo k =
        some (tiUpdate ti [("disabled", true)])) ∧
    ((extGet (disablePluginInstance r k cls) k).1.map Prod.fst =
      some ⟨cls, r.nextAlloc⟩) ∧
    (∀ inst : Instance, inst.alloc < r.nextAlloc →
      (extGet (disablePluginInstance r k cls) k).1.map Prod.fst ≠ some inst) := by
  have hacts : aGet (disablePluginInstance r k cls).actions k = some cls := by
    unfold disablePluginInstance extRegister aGet
    exact find_key_dictSet_self r.actions k cls
  have hcache : cGet (disablePluginInstance r k cls).cache k = none := by
    unfold disablePluginInstance extRegister cGet
    rw [find_key_dictDel_self]
    rfl
  have halloc : (disablePluginInstance r k cls).nextAlloc = r.nextAlloc := rfl
  have hget : (extGet (disablePluginInstance r k cls) k).1.map Prod.fst =
      some ⟨cls, r.nextAlloc⟩ := by
    unfold extGet
    rw [hacts]
    dsimp only
    rw [show cGet (disablePluginInstance r k cls).cache k = none from hcache]
    dsimp only
    rw [halloc]
    rfl
  refine ⟨hacts, ?_, hcache, ?_, hget, ?_⟩
  · intro k2 hk2
    unfold disablePluginInstance extRegister aGet
    rw [find_key_dictSet_other r.actions k k2 cls hk2]
  · intro ti hti
    unfold disablePluginInstance extRegister tGet
    rw [find_key_dictSet_self]
    unfold tGet at hti
    congr 1
    rw [hact, hti]
    simp
  · intro inst hlt
    rw [hget]
    intro hc
    have : r.nextAlloc = inst.alloc := congrArg Instance.alloc (Option.some.inj hc)
    omega

/-- C8 witness: the amended theorem at the one-plugin registry, where the
pre-disable instance has allocation 0 and the post-disable lookup yields
allocation 1. -/
theorem disable_reregisters_class_witness :
    (extGet (disablePluginInstance
        ⟨[("p", 7)], [("p", ⟨7, 0⟩)], [("p", [("option", true)])], 1⟩ "p" 7) "p").1.map
      Prod.fst = some ⟨7, 1⟩ :=
  (disable_reregisters_class
    ⟨[("p", 7)], [("p", ⟨7, 0⟩)], [("p", [("option", true)])], 1⟩ "p" 7 (by decide)).2.2.2.2.1

/-! ## C4 — block-index consistency under mutation -/

theorem set_get_same {α : Type} :
    ∀ (l : List α) (i : Nat) (a : α), l.get? i = some a → l.set i a = l := by
  intro l
  induction l with
  | nil => intro i a h; cases i <;> simp at h
  | cons b t ih =>
    intro i a h
    cases i with
    | zero =>
      simp only [List.get?] at h
      simp [List.set, Option.some.inj h]
    | succ j =>
      simp only [List.get?] at h
      simp [List.set, ih j a h]

theorem eraseIdx_last {α : Type} (l : List α) : l.eraseIdx (l.length - 1) = l.dropLast := by
  induction l with
  | nil => rfl
  | cons a t ih =>
    cases t with
    | nil => rfl
    | cons b u =>
      have h : (a :: b :: u).length - 1 = ((b :: u).length - 1) + 1 := by simp
      rw [h]
      simp only [List.eraseIdx]
      rw [ih]
      rfl

theorem map_eraseIdx {α β : Type} (f : α → β) :
    ∀ (l : List α) (i : Nat), (l.eraseIdx i).map f = (l.map f).eraseIdx i := by
  intro l
  induction l with
  | nil => intro i; rfl
  | cons a t ih =>
    intro i
    cases i with
    | zero => rfl
    | succ j => simp [List.eraseIdx, ih j]

theorem get_dropLast {α : Type} (l : List α) (i : Nat) (h : i < l.length - 1) :
    l.dropLast.get? i = l.get? i := by
  rw [List.get?_eq_getElem?, List.get?_eq_getElem?, List.getElem?_dropLast]
  rw [if_pos (by simpa using h)]

theorem bmDel_eq_dictDel (m : BMap) (k : String) : bmDel m k = dictDel m k := rfl

theorem bmGet_append_self (m : BMap) (k : String) (v : Nat) (h : bmGet m k = none) :
    bmGet (m ++ [(k, v)]) k = some v := by
  unfold bmGet at h ⊢
  rw [List.find?_append]
  have hn : m.find? (fun p => p.1 = k) = none := by
    cases hf : m.find? (fun p => p.1 = k)
    · rfl
    · rw [hf] at h; simp at h
  rw [hn]
  simp [List.find?_cons]

theorem bmGet_append_other (m : BMap) (k k2 : String) (v : Nat) (h : k2 ≠ k) :
    bmGet (m ++ [(k, v)]) k2 = bmGet m k2 := by
  unfold bmGet
  rw [List.find?_append]
  have h1 : [(k, v)].find? (fun p => p.1 = k2) = none := by
    simp [List.find?_cons, Ne.symm h]
  rw [h1]
  cases m.find? (fun p => p.1 = k2) <;> rfl

theorem bmGet_del_self (m : BMap) (k : String) : bmGet (bmDel m k) k = none := by
  unfold bmGet
  rw [bmDel_eq_dictDel, find_key_dictDel_self]
  rfl

theorem bmGet_del_other (m : BMap) (k k2 : String) (h : k2 ≠ k) :
    bmGet (bmDel m k) k2 = bmGet m k2 := by
  unfold bmGet
  rw [bmDel_eq_dictDel, find_key_dictDel_other _ _ _ h]

/-- Consistency depends only on the block-name list and the map. -/
theorem consistentBM_congr (s s1 : PState)
    (hb : s1.ast.blocks.map Prod.fst = s.ast.blocks.map Prod.fst)
    (hm : s1.blockMap = s.blockMap) (hc : consistentBM s) : consistentBM s1 := by
  obtain ⟨h1, h2⟩ := hc
  refine ⟨hb ▸ h1, fun n i => ?_⟩
  rw [hm, hb]
  exact h2 n i

/-- Setting a block slot to an entry with the same name keeps the name
list. -/
theorem blocks_set_names (blocks : List BlkEntry) (idx : Nat) (blk : BlkEntry)
    (os : List OptEntry) (h : blocks.get? idx = some blk) :
    (blocks.set idx (blk.1, os)).map Prod.fst = blocks.map Prod.fst := by
  rw [List.map_set]
  apply set_get_same
  rw [List.get?_map, h]
  rfl

theorem consistent_addOption (s s1 : PState) (b : Option String) (n : String)
    (vs : List String) (h : addOption s b n vs = .ok s1) (hc : consistentBM s) :
    consistentBM s1 := by
  unfold addOption at h
  split at h
  · exact absurd h (by simp)
  split at h
  · exact absurd h (by simp)
  split at h
  · -- block case
    dsimp only at h
    split at h
    · exact absurd h (by simp)
    rename_i idx hidx
    split at h
    · exact absurd h (by simp)
    rename_i blk hblk
    rw [Except.ok.injEq] at h
    subst h
    exact consistentBM_congr s _ (blocks_set_names _ _ _ _ hblk) rfl hc
  · -- non-block case
    rw [Except.ok.injEq] at h
    subst h
    exact consistentBM_congr s _ rfl rfl hc

theorem consistent_removeOption (s s1 : PState) (b : Option String) (n : String)
    (h : removeOption s b n = .ok s1) (hc : consistentBM s) :
    consistentBM s1 := by
  unfold removeOption at h
  split at h
  · dsimp only at h
    split at h
    · exact absurd h (by simp)
    rename_i idx hidx
    split at h
    · exact absurd h (by simp)
    rename_i blk hblk
    split at h
    · exact absurd h (by simp)
    rw [Except.ok.injEq] at h
    subst h
    exact consistentBM_congr s _ (blocks_set_names _ _ _ _ hblk) rfl hc
  · split at h
    · exact absurd h (by simp)
    rw [Except.ok.injEq] at h
    subst h
    exact consistentBM_congr s _ rfl rfl hc

theorem consistent_addBlock (s s1 : PState) (n : String)
    (h : addBlock s n = .ok s1) (hc : consistentBM s) : consistentBM s1 := by
  unfold addBlock at h
  split at h
  · exact absurd h (by simp)
  split at h
  · exact absurd h (by simp)
  rename_i hmem
  rw [Except.ok.injEq] at h
  subst h
  obtain ⟨hnd, hiff⟩ := hc
  have hnone : bmGet s.blockMap n = none := by
    cases hb : bmGet s.blockMap n
    · rfl
    · rw [hb] at hmem; simp at hmem
  have hnotin : n ∉ s.ast.blocks.map Prod.fst := by
    intro hin
    rcases List.get?_of_mem (List.mem_iff_get.mp hin |>.choose_spec ▸ List.get_mem _ _ _) with ⟨i, hi⟩
    have := (hiff n i).mpr hi
    rw [hnone] at this
    exact Option.noConfusion this
  have hset : bmSet s.blockMap n s.ast.blocks.length =
      s.blockMap ++ [(n, s.ast.blocks.length)] := by
    unfold bmSet
    rw [if_neg]
    intro hs
    unfold bmGet at hnone
    rcases Option.isSome_iff_exists.mp hs with ⟨p, hp⟩
    rw [hp] at hnone
    simp at hnone
  have hm2 : (s.ast.blocks ++ [(n, [])]).map Prod.fst =
      s.ast.blocks.map Prod.fst ++ [n] := by simp
  have hlen : s.ast.blocks.length = (s.ast.blocks.map Prod.fst).length := by simp
  constructor
  · rw [hm2, List.nodup_append]
    exact ⟨hnd, List.nodup_singleton n, by simpa using fun hin => hnotin hin⟩
  · intro m i
    simp only [hset]
    rw [hm2]
    by_cases hm : m = n
    · subst hm
      rw [bmGet_append_self _ _ _ hnone]
      constructor
      · intro hsome
        have hieq : i = s.ast.blocks.length := (Option.some.inj hsome).symm
        subst hieq
        rw [hlen, List.get?_concat_length]
      · intro hget
        congr 1
        by_cases hi : i < s.ast.blocks.length
        · exfalso
          rw [List.get?_append (by simpa using hi)] at hget
          have := (hiff m i).mpr hget
          rw [hnone] at this
          exact Option.noConfusion this
        · have hle : (s.ast.blocks.map Prod.fst ++ [m]).length ≤ i ∨
              i = s.ast.blocks.length := by
            simp only [List.length_append, List.length_map, List.length_singleton]
            omega
          rcases hle with hle | hle
          · rw [List.get?_eq_none.mpr hle] at hget
            exact Option.noConfusion hget
          · omega
    · rw [bmGet_append_other _ _ _ _ hm]
      constructor
      · intro hsome
        have hget := (hiff m i).mp hsome
        have hi : i < (s.ast.blocks.map Prod.fst).length := by
          by_contra hni
          rw [List.get?_eq_none.mpr (by omega)] at hget
          exact Option.noConfusion hget
        rw [List.get?_append hi]
        exact hget
      · intro hget
        apply (hiff m i).mpr
        by_cases hi : i < (s.ast.blocks.map Prod.fst).length
        · rw [List.get?_append hi] at hget
          exact hget
        · exfalso
          have hi2 : i = (s.ast.blocks.map Prod.fst).length ∨
              (s.ast.blocks.map Prod.fst ++ [n]).length ≤ i := by
            simp only [List.length_append, List.length_singleton]
            omega
          rcases hi2 with hi2 | hi2
          · subst hi2
            rw [List.get?_concat_length] at hget
            exact hm (Option.some.inj hget).symm
          · rw [List.get?_eq_none.mpr hi2] at hget
            exact Option.noConfusion hget

theorem consistent_removeBlockLast (s s1 : PState) (n : String)
    (h : removeBlock s n = .ok s1)
    (hlast : bmGet s.blockMap n = some (s.ast.blocks.length - 1))
    (hc : consistentBM s) : consistentBM s1 := by
  obtain ⟨hnd, hiff⟩ := hc
  have hgetn : (s.ast.blocks.map Prod.fst).get? (s.ast.blocks.length - 1) = some n :=
    (hiff n _).mp hlast
  have hpos : 0 < s.ast.blocks.length := by
    by_contra hz
    have hlen0 : s.ast.blocks.length = 0 := by omega
    rw [List.get?_eq_none.mpr (by simp [hlen0])] at hgetn
    exact Option.noConfusion hgetn
  unfold removeBlock at h
  split at h
  · exact absurd h (by simp)
  rename_i idx hidx
  rw [hlast] at hidx
  have hieq : idx = s.ast.blocks.length - 1 := (Option.some.inj hidx).symm
  subst hieq
  split at h
  case isFalse => exact absurd h (by simp)
  rw [Except.ok.injEq] at h
  subst h
  dsimp only
  rw [eraseIdx_last]
  have hlen2 : s.ast.blocks.length = (s.ast.blocks.map Prod.fst).length := by simp
  have hmapdl : (s.ast.blocks.dropLast).map Prod.fst = (s.ast.blocks.map Prod.fst).dropLast := by
    rw [← eraseIdx_last, map_eraseIdx, hlen2, eraseIdx_last]
  constructor
  · rw [hmapdl]
    exact hnd.sublist (List.dropLast_sublist _)
  · intro m i
    rw [hmapdl]
    by_cases hm : m = n
    · subst hm
      rw [bmGet_del_self]
      constructor
      · intro hcon; exact Option.noConfusion hcon
      · intro hget
        exfalso
        have hi : i < (s.ast.blocks.map Prod.fst).length - 1 := by
          by_contra hni
          rw [List.get?_eq_none.mpr (by
            simp only [List.length_dropLast, List.length_map]
            simp only [List.length_map] at hni
            omega)] at hget
          exact Option.noConfusion hget
        rw [get_dropLast _ _ hi] at hget
        have := (hiff m i).mpr hget
        rw [hlast] at this
        have hieq : i = s.ast.blocks.length - 1 := (Option.some.inj this).symm
        simp only [List.length_map] at hi
        omega
    · rw [bmGet_del_other _ _ _ hm]
      constructor
      · intro hsome
        have hget := (hiff m i).mp hsome
        have hine : i ≠ s.ast.blocks.length - 1 := by
          intro hieq
          subst hieq
          rw [hgetn] at hget
          exact hm (Option.some.inj hget).symm
        have hi : i < (s.ast.blocks.map Prod.fst).length := by
          by_contra hni
          rw [List.get?_eq_none.mpr (by omega)] at hget
          exact Option.noConfusion hget
        rw [get_dropLast _ _ (by simp only [List.length_map] at hi ⊢; omega)]
        exact hget
      · intro hget
        apply (hiff m i).mpr
        have hi : i < (s.ast.blocks.map Prod.fst).length - 1 := by
          by_contra hni
          rw [List.get?_eq_none.mpr (by
            simp only [List.length_dropLast, List.length_map]
            simp only [List.length_map] at hni
            omega)] at hget
          exact Option.noConfusion hget
        rw [get_dropLast _ _ hi] at hget
        exact hget

/-- The parser's freshly reset state is consistent. -/
theorem consistentBM_reset : consistentBM resetState := by
  constructor
  · simp [resetState]
  · intro n i
    constructor
    · intro h
      simp [resetState, bmGet] at h
    · intro h
      simp [resetState] at h

/-- C4 counterexample: from the (consistent) reset state, `add_block a`,
`add_block b`, then `remove_block a` succeed, but `remove_block` pops the
block without re-indexing later entries: the map still sends `b` to
position 1 while `b` now sits at position 0 of a one-element list.  The
claim's "still holds after remove_block removes a block that is not at the
last position" is false. -/
theorem remove_block_breaks_index_map :
    runMOps resetState [.addBlk "a", .addBlk "b", .removeBlk "a"] =
      .ok ⟨none, ⟨none, [], [("b", [])]⟩, [("b", 1)]⟩ ∧
    ¬consistentBM ⟨none, ⟨none, [], [("b", [])]⟩, [("b", 1)]⟩ ∧
    consistentBM resetState := by
  refine ⟨by decide, ?_, consistentBM_reset⟩
  intro hc
  have h := (hc.2 "b" 1).mp (by decide)
  simp at h

/-- C4 amended: the block index map stays consistent with the block list
(same names, each at its current position) through every sequence of
successful `add_option`, `remove_option`, `add_block` and `remove_block`
calls from a consistent state, *provided* each `remove_block` removes the
block at the last position of the list; a `remove_block` of a non-last
block leaves stale indices for the blocks after it. -/
theorem mutation_preserves_block_index (s : PState) (ops : List MOp) (s2 : PState)
    (hc : consistentBM s) (hs : SafeSteps s ops s2) : consistentBM s2 := by
  induction hs with
  | nil => exact hc
  | cons s op s1 s2 ops happ hlast hrest ih =>
    apply ih
    cases op with
    | addOpt b n vs => exact consistent_addOption s s1 b n vs happ hc
    | removeOpt b n => exact consistent_removeOption s s1 b n happ hc
    | addBlk n => exact consistent_addBlock s s1 n happ hc
    | removeBlk n =>
      exact consistent_removeBlockLast s s1 n happ (hlast n rfl) hc

/-- C4 witness: the amended theorem run over a concrete safe sequence —
add two blocks, add an option to the first, then remove the block that is
at the last position. -/
theorem mutation_preserves_block_index_witness :
    consistentBM ⟨none, ⟨none, [], [("a", [("o", ["v"])])]⟩, [("a", 0)]⟩ := by
  apply mutation_preserves_block_index resetState
    [.addBlk "a", .addBlk "b", .addOpt (some "a") "o" ["v"], .removeBlk "b"]
    _ consistentBM_reset
  refine SafeSteps.cons _ _ ⟨none, ⟨none, [], [("a", [])]⟩, [("a", 0)]⟩ _ _
    (by decide) (fun n hn => by cases hn) ?_
  refine SafeSteps.cons _ _ ⟨none, ⟨none, [], [("a", []), ("b", [])]⟩, [("a", 0), ("b", 1)]⟩ _ _
    (by decide) (fun n hn => by cases hn) ?_
  refine SafeSteps.cons _ _
    ⟨none, ⟨none, [], [("a", [("o", ["v"])]), ("b", [])]⟩, [("a", 0), ("b", 1)]⟩ _ _
    (by decide) (fun n hn => by cases hn) ?_
  refine SafeSteps.cons _ _ ⟨none, ⟨none, [], [("a", [("o", ["v"])])]⟩, [("a", 0)]⟩ _ _
    (by decide) (fun n hn => by cases hn; decide) ?_
  exact SafeSteps.nil _

/-! ## C7 — duplicate-option enforcement in `run_option_hooks` -/

theorem find_key_map_inc (m : CountMap) (k : String) :
    (m.map (fun p => if p.1 = k then (p.1, p.2 + 1) else p)).find? (fun p => p.1 = k) =
      (m.find? (fun p => p.1 = k)).map (fun p => (p.1, p.2 + 1)) := by
  induction m with
  | nil => rfl
  | cons a l ih => by_cases ha : a.1 = k <;> simp [List.find?_cons, ha, ih]

theorem find_key_map_inc_other (m : CountMap) (k k2 : String) (h : k2 ≠ k) :
    (m.map (fun p => if p.1 = k then (p.1, p.2 + 1) else p)).find? (fun p => p.1 = k2) =
      m.find? (fun p => p.1 = k2) := by
  induction m with
  | nil => rfl
  | cons a l ih =>
    by_cases ha : a.1 = k
    · simp [List.find?_cons, ha, Ne.symm h, ih]
    · by_cases ha2 : a.1 = k2 <;> simp [List.find?_cons, ha, ha2, h, ih]

theorem cmGet_inc_self (m : CountMap) (k : String) :
    cmGet (cmInc m k) k = cmGet m k + 1 := by
  unfold cmInc cmGet
  by_cases hmem : (m.find? (fun p => p.1 = k)).isSome
  · rw [if_pos hmem, find_key_map_inc]
    rcases Option.isSome_iff_exists.mp hmem with ⟨p, hp⟩
    rw [hp]
    rfl
  · rw [if_neg hmem, List.find?_append, Option.not_isSome_iff_eq_none.mp hmem]
    simp [List.find?_cons]

theorem cmGet_inc_other (m : CountMap) (k k2 : String) (h : k2 ≠ k) :
    cmGet (cmInc m k) k2 = cmGet m k2 := by
  unfold cmInc cmGet
  by_cases hmem : (m.find? (fun p => p.1 = k)).isSome
  · rw [if_pos hmem, find_key_map_inc_other _ _ _ h]
  · rw [if_neg hmem, List.find?_append]
    have h1 : [(k, 1)].find? (fun p => p.1 = k2) = none := by
      simp [List.find?_cons, Ne.symm h]
    rw [h1]
    cases m.find? (fun p => p.1 = k2) <;> rfl

theorem countKey_cons (e : Option String × OptEntry) (l : List (Option String × OptEntry))
    (k : String) :
    countKey (e :: l) k =
      (if hookKey e.1 e.2.1 = k then 1 else 0) + countKey l k := by
  unfold countKey
  rw [List.filter_cons]
  by_cases he : hookKey e.1 e.2.1 = k <;> simp [he] <;> omega

/-- Processing a segment in which every entry resolves to a hook, every
`parse_option` call succeeds, and no `allow_duplicates=False` key exceeds
one total occurrence, succeeds; the counters advance by the occurrence
counts and the calls record each entry in order. -/
theorem runSeq_ok (hooks : String → Option HookEntry)
    (behave : Nat → String → Option String → List String → ParseOutcome)
    (fname : Option String) :
    ∀ (l : List (Option String × OptEntry)) (hr : HookRun),
    (∀ e ∈ l, ∃ ent, hooks (hookKey e.1 e.2.1) = some ent ∧
        behave ent.plugin e.2.1 e.1 e.2.2 = .ok ∧
        (ent.allowDup = false →
          cmGet hr.counts (hookKey e.1 e.2.1) + countKey l (hookKey e.1 e.2.1) ≤ 1)) →
    ∃ counts2, runSeq hooks behave fname hr l =
        .ok ⟨counts2, hr.calls ++ l.map (fun e => (e.2.1, e.1, e.2.2))⟩ ∧
      ∀ k, cmGet counts2 k = cmGet hr.counts k + countKey l k := by
  intro l
  induction l with
  | nil =>
    intro hr _
    refine ⟨hr.counts, ?_, fun k => by simp [countKey]⟩
    simp [runSeq]
  | cons e rest ih =>
    intro hr hH
    obtain ⟨ent, hent, hbeh, hdupc⟩ := hH e (List.mem_cons_self e rest)
    have hkey1 : countKey (e :: rest) (hookKey e.1 e.2.1) =
        1 + countKey rest (hookKey e.1 e.2.1) := by
      rw [countKey_cons, if_pos rfl]
    have hstep : hookStep hooks behave fname e.1 hr e.2 =
        .ok ⟨cmInc hr.counts (hookKey e.1 e.2.1), hr.calls ++ [(e.2.1, e.1, e.2.2)]⟩ := by
      unfold hookStep
      rw [hent]
      dsimp only
      have hskip : (!ent.allowDup &&
          decide (cmGet (cmInc hr.counts (hookKey e.1 e.2.1)) (hookKey e.1 e.2.1) > 1))
          = false := by
        cases hd : ent.allowDup
        · have hle := hdupc hd
          rw [hkey1] at hle
          have h0 : cmGet hr.counts (hookKey e.1 e.2.1) = 0 := by omega
          rw [Bool.and_eq_false_iff]
          right
          rw [cmGet_inc_self, h0]
          simp
        · simp [hd]
      rw [hskip]
      simp only [Bool.false_eq_true, if_false, hbeh]
    rw [runSeq, hstep]
    dsimp only
    have hside : ∀ e2 ∈ rest, ∃ ent2, hooks (hookKey e2.1 e2.2.1) = some ent2 ∧
        behave ent2.plugin e2.2.1 e2.1 e2.2.2 = .ok ∧
        (ent2.allowDup = false →
          cmGet (cmInc hr.counts (hookKey e.1 e.2.1)) (hookKey e2.1 e2.2.1)
            + countKey rest (hookKey e2.1 e2.2.1) ≤ 1) := by
      intro e2 he2
      obtain ⟨ent2, hent2, hbeh2, hdupc2⟩ := hH e2 (List.mem_cons_of_mem e he2)
      refine ⟨ent2, hent2, hbeh2, fun hdf => ?_⟩
      have hle := hdupc2 hdf
      rw [countKey_cons] at hle
      by_cases hkk : hookKey e2.1 e2.2.1 = hookKey e.1 e.2.1
      · rw [hkk, cmGet_inc_self]
        rw [if_pos hkk.symm] at hle
        rw [hkk] at hle
        omega
      · rw [cmGet_inc_other _ _ _ hkk]
        rw [if_neg (fun hc => hkk hc.symm)] at hle
        omega
    obtain ⟨counts2, hrun, hcnt⟩ :=
      ih ⟨cmInc hr.counts (hookKey e.1 e.2.1), hr.calls ++ [(e.2.1, e.1, e.2.2)]⟩ hside
    refine ⟨counts2, ?_, fun k => ?_⟩
    · rw [hrun]
      simp
    · rw [hcnt k, countKey_cons]
      by_cases hkk : hookKey e.1 e.2.1 = k
      · subst hkk
        rw [cmGet_inc_self, if_pos rfl]
        omega
      · rw [cmGet_inc_other _ _ _ (fun hc => hkk hc.symm), if_neg hkk]
        omega

theorem runSeq_append (hooks : String → Option HookEntry)
    (behave : Nat → String → Option String → List String → ParseOutcome)
    (fname : Option String) :
    ∀ (l1 l2 : List (Option String × OptEntry)) (hr : HookRun),
    runSeq hooks behave fname hr (l1 ++ l2) =
      match runSeq hooks behave fname hr l1 with
      | .error e => .error e
      | .ok hr1 => runSeq hooks behave fname hr1 l2 := by
  intro l1
  induction l1 with
  | nil => intro l2 hr; rfl
  | cons e rest ih =>
    intro l2 hr
    rw [List.cons_append, runSeq, runSeq]
    cases hookStep hooks behave fname e.1 hr e.2
    · rfl
    · dsimp only
      exact ih l2 _

/-- The two dispatch phases of `run_option_hooks` equal one fold over the
tagged dispatch sequence. -/
theorem runOptionHooks_eq_runSeq (hooks : String → Option HookEntry)
    (behave : Nat → String → Option String → List String → ParseOutcome)
    (fname : Option String) (ast : Ast) :
    runOptionHooks hooks behave fname ast =
      runSeq hooks behave fname ⟨[], []⟩ (dispatchSeq ast) := by
  have hlist : ∀ (opts : List OptEntry) (block : Option String) (hr : HookRun),
      runHooksList hooks behave fname block hr opts =
        runSeq hooks behave fname hr (opts.map (fun o => (block, o))) := by
    intro opts
    induction opts with
    | nil => intro block hr; rfl
    | cons o os ih =>
      intro block hr
      rw [List.map_cons, runHooksList, runSeq]
      cases hookStep hooks behave fname block hr o
      · rfl
      · dsimp only
        exact ih block _
  have hblocks : ∀ (bs : List BlkEntry) (hr : HookRun),
      runHooksBlocks hooks behave fname hr bs =
        runSeq hooks behave fname hr
          (bs.flatMap (fun b => b.2.map (fun o => (some b.1, o)))) := by
    intro bs
    induction bs with
    | nil => intro hr; rfl
    | cons b rest ih =>
      intro hr
      rw [List.flatMap_cons, runSeq_append, runHooksBlocks, hlist b.2 (some b.1) hr]
      cases runSeq hooks behave fname hr (b.2.map (fun o => (some b.1, o)))
      · rfl
      · dsimp only
        exact ih _
  unfold runOptionHooks dispatchSeq
  rw [hlist ast.options none ⟨[], []⟩, runSeq_append]
  cases runSeq hooks behave fname ⟨[], []⟩ (ast.options.map (fun o => (none, o)))
  · rfl
  · dsimp only
    exact hblocks ast.blocks _

/-- C7: with an option key registered with `allow_duplicates=False`,
dispatching an AST whose tagged dispatch sequence reaches a second
occurrence of that key (every earlier entry resolving to a hook whose
`parse_option` succeeds, and no other no-duplicates key exceeding one
occurrence earlier) raises `InvalidTaskConfig` at that second occurrence —
the reason names the option and, when block-scoped, the block of the
second occurrence — and the recorded `parse_option` invocations are
exactly those of the earlier entries, so the key's plugin was invoked once
and not for the second occurrence.  The occurrence counter is the one
`state` dict shared across the whole dispatch (top-level options and all
blocks). -/
theorem duplicate_option_raises (hooks : String → Option HookEntry)
    (behave : Nat → String → Option String → List String → ParseOutcome)
    (fname : Option String) (ast : Ast)
    (l1 l2 : List (Option String × OptEntry)) (e2 : Option String × OptEntry)
    (k : String) (ent : HookEntry)
    (hseq : dispatchSeq ast = l1 ++ e2 :: l2)
    (hk : hookKey e2.1 e2.2.1 = k)
    (hent : hooks k = some ent)
    (hdup : ent.allowDuplicates = some false)
    (h1 : countKey l1 k = 1)
    (hres : ∀ e ∈ l1, ∃ ent2, hooks (hookKey e.1 e.2.1) = some ent2 ∧
        behave ent2.plugin e.2.1 e.1 e.2.2 = .ok ∧
        (ent2.allowDup = false → countKey l1 (hookKey e.1 e.2.1) ≤ 1)) :
    ∃ counts2, runOptionHooks hooks behave fname ast =
      .error (⟨fname, raiseReason ("Duplicate option \"" ++ e2.2.1 ++ "\"") e2.1⟩,
              ⟨counts2, l1.map (fun e => (e.2.1, e.1, e.2.2))⟩) := by
  rw [runOptionHooks_eq_runSeq, hseq, runSeq_append]
  have hside : ∀ e ∈ l1, ∃ ent2, hooks (hookKey e.1 e.2.1) = some ent2 ∧
      behave ent2.plugin e.2.1 e.1 e.2.2 = .ok ∧
      (ent2.allowDup = false →
        cmGet (⟨[], []⟩ : HookRun).counts (hookKey e.1 e.2.1)
          + countKey l1 (hookKey e.1 e.2.1) ≤ 1) := by
    intro e he
    obtain ⟨ent2, hent2, hbeh2, hdupc2⟩ := hres e he
    refine ⟨ent2, hent2, hbeh2, fun hdf => ?_⟩
    have hle := hdupc2 hdf
    have h0 : cmGet (⟨[], []⟩ : HookRun).counts (hookKey e.1 e.2.1) = 0 := rfl
    rw [h0]
    omega
  obtain ⟨counts1, hrun, hcnt⟩ := runSeq_ok hooks behave fname l1 ⟨[], []⟩ hside
  rw [hrun]
  dsimp only
  rw [runSeq]
  have h0 : cmGet (⟨[], []⟩ : HookRun).counts k = 0 := rfl
  have hstep : hookStep hooks behave fname e2.1
      ⟨counts1, [] ++ l1.map (fun e => (e.2.1, e.1, e.2.2))⟩ e2.2 =
      .error (⟨fname, raiseReason ("Duplicate option \"" ++ e2.2.1 ++ "\"") e2.1⟩,
        ⟨cmInc counts1 k, [] ++ l1.map (fun e => (e.2.1, e.1, e.2.2))⟩) := by
    unfold hookStep
    rw [hk, hent]
    dsimp only
    have hgt : cmGet (cmInc counts1 k) k > 1 := by
      rw [cmGet_inc_self, hcnt k, h0, h1]
      omega
    have hcond : (!ent.allowDup && decide (cmGet (cmInc counts1 k) k > 1)) = true := by
      rw [Bool.and_eq_true]
      constructor
      · unfold HookEntry.allowDup
        rw [hdup]
        rfl
      · exact decide_eq_true hgt
    rw [hcond]
    rfl
  rw [hstep]
  exact ⟨cmInc counts1 k, by simp⟩

/-- C7 witness: the theorem at a concrete AST with `dur` occurring twice
at top level, a `dur` hook with `allow_duplicates=False`, and an
always-succeeding `parse_option`. -/
theorem duplicate_option_raises_witness :
    ∃ counts2, runOptionHooks
        (fun key => if key = "dur" then some ⟨0, some false⟩ else none)
        (fun _ _ _ _ => .ok) none ⟨some "h", [("dur", ["1"]), ("dur", ["2"])], []⟩ =
      .error (⟨none, raiseReason ("Duplicate option \"" ++ "dur" ++ "\"") none⟩,
              ⟨counts2, [(none, ("dur", ["1"]))].map (fun e => (e.2.1, e.1, e.2.2))⟩) := by
  apply duplicate_option_raises
    (fun key => if key = "dur" then some ⟨0, some false⟩ else none)
    (fun _ _ _ _ => .ok) none ⟨some "h", [("dur", ["1"]), ("dur", ["2"])], []⟩
    [(none, ("dur", ["1"]))] [] (none, ("dur", ["2"])) "dur" ⟨0, some false⟩
    (by decide) rfl (by decide) rfl (by decide)
  intro e he
  have he2 : e = (none, ("dur", ["1"])) := by
    cases he with
    | head => rfl
    | tail _ h => cases h
  subst he2
  exact ⟨⟨0, some false⟩, by decide, rfl, fun _ => by decide⟩

/-! ## C2 — duplicate-block replacement policy -/

theorem mem_uniqKeysGo (n : String) :
    ∀ (l seen : List String), n ∈ uniqKeysGo seen l ↔ (n ∈ l ∧ n ∉ seen) := by
  intro l
  induction l with
  | nil => intro seen; simp [uniqKeysGo]
  | cons a r ih =>
    intro seen
    unfold uniqKeysGo
    by_cases ha : a ∈ seen
    · rw [if_pos ha, ih seen]
      constructor
      · rintro ⟨h1, h2⟩
        exact ⟨List.mem_cons_of_mem a h1, h2⟩
      · rintro ⟨h1, h2⟩
        rcases List.mem_cons.mp h1 with heq | h1
        · exact absurd (heq ▸ ha) h2
        · exact ⟨h1, h2⟩
    · rw [if_neg ha, List.mem_cons, ih (a :: seen)]
      constructor
      · rintro (heq | ⟨h1, h2⟩)
        · subst heq
          exact ⟨List.mem_cons_self n r, ha⟩
        · exact ⟨List.mem_cons_of_mem a h1, fun hc => h2 (List.mem_cons_of_mem a hc)⟩
      · rintro ⟨h1, h2⟩
        rcases List.mem_cons.mp h1 with heq | h1
        · exact Or.inl heq
        · by_cases hna : n = a
          · exact Or.inl hna
          · refine Or.inr ⟨h1, fun hc => ?_⟩
            rcases List.mem_cons.mp hc with hc2 | hc2
            · exact hna hc2
            · exact h2 hc2

theorem mem_uniqKeys (n : String) (l : List String) : n ∈ uniqKeys l ↔ n ∈ l := by
  unfold uniqKeys
  rw [mem_uniqKeysGo]
  simp

theorem uniqKeysGo_nodup : ∀ (l seen : List String), (uniqKeysGo seen l).Nodup := by
  intro l
  induction l with
  | nil => intro seen; exact List.nodup_nil
  | cons a r ih =>
    intro seen
    unfold uniqKeysGo
    by_cases ha : a ∈ seen
    · rw [if_pos ha]; exact ih seen
    · rw [if_neg ha]
      refine List.nodup_cons.mpr ⟨?_, ih (a :: seen)⟩
      intro hc
      exact ((mem_uniqKeysGo a r (a :: seen)).mp hc).2 (List.mem_cons_self a seen)

theorem uniqKeys_nodup (l : List String) : (uniqKeys l).Nodup := uniqKeysGo_nodup l []

theorem uniqKeysGo_append_single (m : String) :
    ∀ (l seen : List String),
      uniqKeysGo seen (l ++ [m]) =
        uniqKeysGo seen l ++ (if m ∈ seen ∨ m ∈ l then [] else [m]) := by
  intro l
  induction l with
  | nil =>
    intro seen
    rw [List.nil_append]
    unfold uniqKeysGo
    by_cases hm : m ∈ seen
    · rw [if_pos hm, if_pos (Or.inl hm)]
      rfl
    · rw [if_neg hm, if_neg (by simp [hm])]
      rfl
  | cons a r ih =>
    intro seen
    rw [List.cons_append]
    unfold uniqKeysGo
    by_cases ha : a ∈ seen
    · rw [if_pos ha, if_pos ha, ih seen]
      congr 1
      by_cases hm : m ∈ seen ∨ m ∈ r
      · rw [if_pos hm, if_pos (by
          rcases hm with hm | hm
          · exact Or.inl hm
          · exact Or.inr (List.mem_cons_of_mem a hm))]
      · rw [if_neg hm]
        rw [if_neg (by
          intro hc
          rcases hc with hc | hc
          · exact hm (Or.inl hc)
          · rcases List.mem_cons.mp hc with rfl | hc
            · exact hm (Or.inl ha)
            · exact hm (Or.inr hc))]
    · rw [if_neg ha, if_neg ha, ih (a :: seen), List.cons_append]
      congr 2
      by_cases hm : m ∈ a :: seen ∨ m ∈ r
      · rw [if_pos hm, if_pos (by
          rcases hm with hm | hm
          · rcases List.mem_cons.mp hm with rfl | hm
            · exact Or.inr (List.mem_cons_self m r)
            · exact Or.inl hm
          · exact Or.inr (List.mem_cons_of_mem a hm))]
      · rw [if_neg hm]
        rw [if_neg (by
          intro hc
          rcases hc with hc | hc
          · exact hm (Or.inl (List.mem_cons_of_mem a hc))
          · rcases List.mem_cons.mp hc with rfl | hc
            · exact hm (Or.inl (List.mem_cons_self m seen))
            · exact hm (Or.inr hc))]

theorem uniqKeys_append_mem (l : List String) (m : String) (h : m ∈ l) :
    uniqKeys (l ++ [m]) = uniqKeys l := by
  unfold uniqKeys
  rw [uniqKeysGo_append_single, if_pos (Or.inr h)]
  simp

theorem uniqKeys_append_not_mem (l : List String) (m : String) (h : m ∉ l) :
    uniqKeys (l ++ [m]) = uniqKeys l ++ [m] := by
  unfold uniqKeys
  rw [uniqKeysGo_append_single, if_neg (by simp [h])]

theorem lastContent_append_self (raw : List BlkEntry) (m : String) (c : List OptEntry) :
    lastContent (raw ++ [(m, c)]) m = c := by
  unfold lastContent
  rw [List.filter_append]
  have h1 : [((m, c) : BlkEntry)].filter (fun b => b.1 = m) = [(m, c)] := by
    simp [List.filter_cons]
  rw [h1]
  rw [List.getLast?_concat]
  rfl

theorem lastContent_append_other (raw : List BlkEntry) (m n : String) (c : List OptEntry)
    (h : n ≠ m) : lastContent (raw ++ [(m, c)]) n = lastContent raw n := by
  unfold lastContent
  rw [List.filter_append]
  have h1 : [((m, c) : BlkEntry)].filter (fun b => b.1 = n) = [] := by
    simp [List.filter_cons, Ne.symm h]
  rw [h1, List.append_nil]

theorem dupSet_eq_dictSet (d : Dupes) (k : String) (v : List OptEntry) :
    dupSet d k v = dictSet d k v := rfl

theorem dupGet_dupSet_self (d : Dupes) (k : String) (v : List OptEntry) :
    dupGet (dupSet d k v) k = some v := by
  unfold dupGet
  rw [dupSet_eq_dictSet]
  exact find_key_dictSet_self d k v

theorem dupGet_dupSet_other (d : Dupes) (k k2 : String) (v : List OptEntry) (h : k2 ≠ k) :
    dupGet (dupSet d k v) k2 = dupGet d k2 := by
  unfold dupGet
  rw [dupSet_eq_dictSet, find_key_dictSet_other _ _ _ _ h]

theorem dupSet_keys (d : Dupes) (k : String) (v : List OptEntry) :
    (dupSet d k v).map Prod.fst =
      if (dupGet d k).isSome then d.map Prod.fst else d.map Prod.fst ++ [k] := by
  have hiso : (dupGet d k).isSome = (d.find? (fun p => p.1 = k)).isSome := by
    unfold dupGet
    cases d.find? (fun p => p.1 = k) <;> rfl
  unfold dupSet
  by_cases hmem : (d.find? (fun p => p.1 = k)).isSome
  · rw [if_pos hmem, if_pos (by rw [hiso]; exact hmem)]
    rw [List.map_map]
    apply List.map_congr_left
    intro p _
    by_cases hp : p.1 = k
    · simp [hp]
    · simp [hp]
  · rw [if_neg hmem, if_neg (by rw [hiso]; exact hmem)]
    simp

theorem applyDupes_cons (d : String × List OptEntry) (ds : Dupes) (bmap : BMap)
    (blocks : List BlkEntry) :
    applyDupes (d :: ds) bmap blocks =
      applyDupes ds bmap
        (match bmGet bmap d.1 with
         | some i => blocks.set i (d.1, d.2)
         | none => blocks) := by
  unfold applyDupes
  rw [List.foldl_cons]

/-- Element-wise description of the duplicate-replacement pass: every slot
keeps its name, and its content is the dupe content when the name was
duplicated. -/
theorem applyDupes_spec :
    ∀ (dupes : Dupes) (bmap : BMap) (blocks : List BlkEntry),
      ((blocks.map Prod.fst).Nodup) →
      ((dupes.map Prod.fst).Nodup) →
      (∀ d ∈ dupes, ∃ i, bmGet bmap d.1 = some i ∧
        ∃ e, blocks.get? i = some e ∧ e.1 = d.1) →
      (applyDupes dupes bmap blocks).length = blocks.length ∧
      ∀ j e, blocks.get? j = some e →
        (applyDupes dupes bmap blocks).get? j =
          some (e.1, (dupGet dupes e.1).getD e.2) := by
  intro dupes
  induction dupes with
  | nil =>
    intro bmap blocks _ _ _
    refine ⟨rfl, fun j e he => ?_⟩
    unfold applyDupes
    rw [List.foldl_nil, he]
    have hd : dupGet [] e.1 = none := rfl
    rw [hd]
    rfl
  | cons d ds ih =>
    intro bmap blocks hbnd hdnd hkeys
    obtain ⟨i, hbi, e0, he0, hname⟩ := hkeys d (List.mem_cons_self d ds)
    rw [applyDupes_cons, hbi]
    have hilt : i < blocks.length := by
      by_contra hni
      rw [List.get?_eq_none.mpr (by omega)] at he0
      exact Option.noConfusion he0
    have hsetnames : (blocks.set i (d.1, d.2)).map Prod.fst = blocks.map Prod.fst := by
      rw [List.map_set]
      apply set_get_same
      rw [List.get?_map, he0]
      simp [hname]
    have hdnd2 : (ds.map Prod.fst).Nodup := (List.nodup_cons.mp hdnd).2
    have hdnotin : d.1 ∉ ds.map Prod.fst := (List.nodup_cons.mp hdnd).1
    have hkeys2 : ∀ d2 ∈ ds, ∃ i2, bmGet bmap d2.1 = some i2 ∧
        ∃ e, (blocks.set i (d.1, d.2)).get? i2 = some e ∧ e.1 = d2.1 := by
      intro d2 hd2
      obtain ⟨i2, hbi2, e2, he2, hname2⟩ := hkeys d2 (List.mem_cons_of_mem d hd2)
      refine ⟨i2, hbi2, ?_⟩
      by_cases hii : i2 = i
      · exfalso
        subst hii
        rw [he0] at he2
        have he2e : e2 = e0 := (Option.some.inj he2).symm
        apply hdnotin
        have hd21 : d2.1 = d.1 := by rw [← hname2, he2e, hname]
        exact hd21 ▸ List.mem_map_of_mem Prod.fst hd2
      · rw [List.get?_set_ne _ _ (fun hc => hii hc.symm)]
        exact ⟨e2, he2, hname2⟩
    obtain ⟨hlen, hget⟩ := ih bmap (blocks.set i (d.1, d.2))
      (hsetnames ▸ hbnd) hdnd2 hkeys2
    constructor
    · rw [hlen, List.length_set]
    · intro j e hje
      by_cases hji : j = i
      · subst hji
        have he0e : e = e0 := by
          rw [he0] at hje
          exact (Option.some.inj hje).symm
        subst he0e
        have hset : (blocks.set j (d.1, d.2)).get? j = some (d.1, d.2) :=
          List.get?_set_eq_of_lt _ hilt
        rw [hget j (d.1, d.2) hset]
        have hdg : dupGet ds d.1 = none := by
          unfold dupGet
          rw [List.find?_eq_none.mpr]
          · rfl
          · intro p hp
            simp only [decide_eq_true_eq]
            intro hpk
            exact hdnotin (hpk ▸ List.mem_map_of_mem Prod.fst hp)
        have hdg2 : dupGet (d :: ds) e.1 = some d.2 := by
          unfold dupGet
          rw [List.find?_cons]
          have hfd : decide (d.1 = e.1) = true := by simp [hname]
          rw [hfd]
          rfl
        dsimp only
        rw [hdg, hdg2, hname]
        rfl
      · have hset : (blocks.set i (d.1, d.2)).get? j = some e := by
          rw [List.get?_set_ne _ _ (fun hc => hji hc.symm)]
          exact hje
        rw [hget j e hset]
        have hene : e.1 ≠ d.1 := by
          intro hc
          apply hji
          have h1 : (blocks.map Prod.fst).get? j = some d.1 := by
            rw [List.get?_map, hje]
            simp [hc]
          have h2 : (blocks.map Prod.fst).get? i = some d.1 := by
            rw [List.get?_map, he0]
            simp [hname]
          have hjlt : j < (blocks.map Prod.fst).length := by
            by_contra hn
            rw [List.get?_eq_none.mpr (by omega)] at h1
            exact Option.noConfusion h1
          exact List.get?_inj hjlt hbnd (h1.trans h2.symm)
        have hdg3 : dupGet (d :: ds) e.1 = dupGet ds e.1 := by
          unfold dupGet
          rw [List.find?_cons]
          have hfd : decide (d.1 = e.1) = false := by
            simp only [decide_eq_false_iff_not]
            intro hc
            exact hene hc.symm
          rw [hfd]
        rw [hdg3]

/-- The loop invariant at exit implies the replacement pass computes the
first-position / last-content policy. -/
theorem inv_apply_dedup (blocks : List BlkEntry) (bmap : BMap) (dupes : Dupes)
    (raw : List BlkEntry)
    (hA : blocks.map Prod.fst = uniqKeys (raw.map Prod.fst))
    (hB : ∀ n i, bmGet bmap n = some i ↔ (blocks.map Prod.fst).get? i = some n)
    (hC : ∀ j e, blocks.get? j = some e →
      (dupGet dupes e.1).getD e.2 = lastContent raw e.1)
    (hE1 : (dupes.map Prod.fst).Nodup)
    (hE2 : ∀ n ∈ dupes.map Prod.fst, n ∈ blocks.map Prod.fst) :
    applyDupes dupes bmap blocks = dedupFirstLast raw := by
  have hbnd : (blocks.map Prod.fst).Nodup := by rw [hA]; exact uniqKeys_nodup _
  have hkeys : ∀ d ∈ dupes, ∃ i, bmGet bmap d.1 = some i ∧
      ∃ e, blocks.get? i = some e ∧ e.1 = d.1 := by
    intro d hd
    have hmem : d.1 ∈ blocks.map Prod.fst := hE2 d.1 (List.mem_map_of_mem Prod.fst hd)
    rcases List.get?_of_mem hmem with ⟨idx, hidx⟩
    refine ⟨idx, (hB d.1 idx).mpr hidx, ?_⟩
    rw [List.get?_map] at hidx
    cases hbe : blocks.get? idx with
    | none =>
      rw [hbe] at hidx
      exact Option.noConfusion hidx
    | some e =>
      rw [hbe] at hidx
      exact ⟨e, rfl, by simpa using hidx⟩
  obtain ⟨hlen, hget⟩ := applyDupes_spec dupes bmap blocks hbnd hE1 hkeys
  apply List.ext
  intro j
  unfold dedupFirstLast
  rw [← hA]
  by_cases hj : j < blocks.length
  · cases hbe : blocks.get? j with
    | none =>
      exfalso
      rw [List.get?_eq_none] at hbe
      omega
    | some e =>
      rw [hget j e hbe, List.get?_map, List.get?_map, hbe]
      simp [hC j e hbe]
  · have h1 : (applyDupes dupes bmap blocks).get? j = none := by
      rw [List.get?_eq_none, hlen]
      omega
    have h2 : (((blocks.map Prod.fst).map fun n => (n, lastContent raw n)).get? j) = none := by
      rw [List.get?_eq_none]
      simp only [List.length_map]
      omega
    rw [h1, h2]

theorem dupGet_none_iff (d : Dupes) (k : String) :
    dupGet d k = none ↔ k ∉ d.map Prod.fst := by
  unfold dupGet
  rw [Option.map_eq_none']
  rw [List.find?_eq_none]
  constructor
  · intro h hmem
    rcases List.mem_map.mp hmem with ⟨p, hp, hpk⟩
    exact h p hp (by simp [hpk])
  · intro hmem p hp hpk
    exact hmem (List.mem_map.mpr ⟨p, hp, of_decide_eq_true hpk⟩)

theorem bmSet_append (m : BMap) (k : String) (v : Nat) (h : bmGet m k = none) :
    bmSet m k v = m ++ [(k, v)] := by
  unfold bmSet
  rw [if_neg]
  intro hs
  unfold bmGet at h
  rcases Option.isSome_iff_exists.mp hs with ⟨p, hp⟩
  rw [hp] at h
  simp at h

/-- Appending a fresh name at the end of the map, pointing at the appended
slot, preserves the map↔position correspondence. -/
theorem bm_append_iff (bmap : BMap) (names : List String) (n : String)
    (hnone : bmGet bmap n = none)
    (hiff : ∀ m i, bmGet bmap m = some i ↔ names.get? i = some m)
    (m : String) (i : Nat) :
    bmGet (bmap ++ [(n, names.length)]) m = some i ↔ (names ++ [n]).get? i = some m := by
  by_cases hm : m = n
  · subst hm
    rw [bmGet_append_self _ _ _ hnone]
    constructor
    · intro hsome
      have hieq : i = names.length := (Option.some.inj hsome).symm
      subst hieq
      rw [List.get?_concat_length]
    · intro hget
      congr 1
      by_cases hi : i < names.length
      · exfalso
        rw [List.get?_append hi] at hget
        have := (hiff m i).mpr hget
        rw [hnone] at this
        exact Option.noConfusion this
      · have hle : (names ++ [m]).length ≤ i ∨ i = names.length := by
          simp only [List.length_append, List.length_singleton]
          omega
        rcases hle with hle | hle
        · rw [List.get?_eq_none.mpr hle] at hget
          exact Option.noConfusion hget
        · omega
  · rw [bmGet_append_other _ _ _ _ hm]
    constructor
    · intro hsome
      have hget := (hiff m i).mp hsome
      have hi : i < names.length := by
        by_contra hni
        rw [List.get?_eq_none.mpr (by omega)] at hget
        exact Option.noConfusion hget
      rw [List.get?_append hi]
      exact hget
    · intro hget
      apply (hiff m i).mpr
      by_cases hi : i < names.length
      · rw [List.get?_append hi] at hget
        exact hget
      · exfalso
        have hi2 : i = names.length ∨ (names ++ [n]).length ≤ i := by
          simp only [List.length_append, List.length_singleton]
          omega
        rcases hi2 with hi2 | hi2
        · subst hi2
          rw [List.get?_concat_length] at hget
          exact hm (Option.some.inj hget).symm
        · rw [List.get?_eq_none.mpr hi2] at hget
          exact Option.noConfusion hget

theorem containerLoop_succ_eq (fuel : Nat) (toks : Toks) (opts : List OptEntry)
    (blocks : List BlkEntry) (bmap : BMap) (dupes : Dupes) :
    containerLoop (fuel + 1) toks opts blocks bmap dupes =
      if lookaheadToken 1 toks ≠ some "\x7d" then
        if lookaheadToken 2 toks = some "\x7b" then
          match ruleBlock fuel toks with
          | .error e => (.error e, bmap)
          | .ok (blk, toks1) =>
            if (bmGet bmap blk.1).isSome then
              containerLoop fuel toks1 opts blocks bmap (dupSet dupes blk.1 blk.2)
            else
              containerLoop fuel toks1 opts (blocks ++ [blk])
                (bmSet bmap blk.1 blocks.length) dupes
        else
          match ruleOption fuel toks with
          | .error e => (.error e, bmap)
          | .ok (o, toks1) => containerLoop fuel toks1 (opts ++ [o]) blocks bmap dupes
      else (.ok (opts, blocks, dupes, toks), bmap) := rfl

theorem naiveLoop_succ_eq (fuel : Nat) (toks : Toks) (opts : List OptEntry)
    (raw : List BlkEntry) :
    naiveLoop (fuel + 1) toks opts raw =
      if lookaheadToken 1 toks ≠ some "\x7d" then
        if lookaheadToken 2 toks = some "\x7b" then
          match ruleBlock fuel toks with
          | .error e => .error e
          | .ok (blk, toks1) => naiveLoop fuel toks1 opts (raw ++ [blk])
        else
          match ruleOption fuel toks with
          | .error e => .error e
          | .ok (o, toks1) => naiveLoop fuel toks1 (opts ++ [o]) raw
      else .ok (opts, raw, toks) := rfl

/-- The container loop with duplicate bookkeeping refines the naive loop
that appends every block occurrence: on success, replaying the recorded
last contents over the kept blocks yields the first-position/last-content
policy applied to the raw occurrence sequence. -/
theorem containerLoop_naive :
    ∀ (fuel : Nat) (toks : Toks) (opts : List OptEntry)
      (blocks : List BlkEntry) (bmap : BMap) (dupes : Dupes) (raw : List BlkEntry),
      blocks.map Prod.fst = uniqKeys (raw.map Prod.fst) →
      (∀ n i, bmGet bmap n = some i ↔ (blocks.map Prod.fst).get? i = some n) →
      (∀ j e, blocks.get? j = some e →
        (dupGet dupes e.1).getD e.2 = lastContent raw e.1) →
      ((dupes.map Prod.fst).Nodup) →
      (∀ n ∈ dupes.map Prod.fst, n ∈ blocks.map Prod.fst) →
      ∀ (opts1 : List OptEntry) (blocks1 : List BlkEntry) (dupes1 : Dupes)
        (toks1 : Toks) (bmap1 : BMap),
      containerLoop fuel toks opts blocks bmap dupes =
        (.ok (opts1, blocks1, dupes1, toks1), bmap1) →
      ∃ raw1, naiveLoop fuel toks opts raw = .ok (opts1, raw1, toks1) ∧
        applyDupes dupes1 bmap1 blocks1 = dedupFirstLast raw1 := by
  intro fuel
  induction fuel with
  | zero =>
    intro toks opts blocks bmap dupes raw _ _ _ _ _ opts1 blocks1 dupes1 toks1 bmap1 h
    exact absurd h (by simp [containerLoop])
  | succ fuel ih =>
    intro toks opts blocks bmap dupes raw hA hB hC hE1 hE2 opts1 blocks1 dupes1 toks1 bmap1 h
    rw [containerLoop_succ_eq] at h
    by_cases hlk : lookaheadToken 1 toks ≠ some "\x7d"
    case neg =>
      rw [if_neg hlk] at h
      simp only [Prod.mk.injEq, Except.ok.injEq] at h
      obtain ⟨⟨ho, hb, hd, ht⟩, hm⟩ := h
      subst ho; subst hb; subst hd; subst ht; subst hm
      refine ⟨raw, ?_, ?_⟩
      · rw [naiveLoop_succ_eq, if_neg hlk]
      · exact inv_apply_dedup blocks bmap dupes raw hA hB hC hE1 hE2
    case pos =>
      rw [if_pos hlk] at h
      by_cases hlk2 : lookaheadToken 2 toks = some "\x7b"
      · rw [if_pos hlk2] at h
        cases hrb : ruleBlock fuel toks with
        | error e =>
          rw [hrb] at h
          exact absurd h (by simp)
        | ok pr =>
          obtain ⟨blk, toksB⟩ := pr
          obtain ⟨bn, bo⟩ := blk
          rw [hrb] at h
          dsimp only at h
          by_cases hdup : (bmGet bmap bn).isSome
          · rw [if_pos hdup] at h
            obtain ⟨i0, hi0⟩ := Option.isSome_iff_exists.mp hdup
            have hmemb : bn ∈ blocks.map Prod.fst := List.get?_mem ((hB bn i0).mp hi0)
            have hmemr : bn ∈ raw.map Prod.fst := (mem_uniqKeys bn _).mp (hA ▸ hmemb)
            have hA2 : blocks.map Prod.fst = uniqKeys ((raw ++ [(bn, bo)]).map Prod.fst) := by
              rw [List.map_append]
              simp only [List.map_cons, List.map_nil]
              rw [uniqKeys_append_mem _ _ hmemr]
              exact hA
            have hC2 : ∀ j e, blocks.get? j = some e →
                (dupGet (dupSet dupes bn bo) e.1).getD e.2 =
                  lastContent (raw ++ [(bn, bo)]) e.1 := by
              intro j e hje
              by_cases he : e.1 = bn
              · rw [he, dupGet_dupSet_self, lastContent_append_self]
                rfl
              · rw [dupGet_dupSet_other _ _ _ _ he, lastContent_append_other raw bn e.1 bo he]
                exact hC j e hje
            have hE12 : ((dupSet dupes bn bo).map Prod.fst).Nodup := by
              rw [dupSet_keys]
              by_cases hd : (dupGet dupes bn).isSome
              · rw [if_pos hd]
                exact hE1
              · rw [if_neg hd]
                have hnm : bn ∉ dupes.map Prod.fst := by
                  rw [← dupGet_none_iff]
                  cases hdg : dupGet dupes bn
                  · rfl
                  · rw [hdg] at hd
                    simp at hd
                rw [List.nodup_append]
                refine ⟨hE1, List.nodup_singleton bn, ?_⟩
                simpa using fun hin => hnm hin
            have hE22 : ∀ n ∈ (dupSet dupes bn bo).map Prod.fst, n ∈ blocks.map Prod.fst := by
              rw [dupSet_keys]
              by_cases hd : (dupGet dupes bn).isSome
              · rw [if_pos hd]
                exact hE2
              · rw [if_neg hd]
                intro n hn
                rcases List.mem_append.mp hn with hn | hn
                · exact hE2 n hn
                · rw [List.mem_singleton] at hn
                  subst hn
                  exact hmemb
            obtain ⟨raw1, hnl, happ⟩ := ih toksB opts blocks bmap (dupSet dupes bn bo)
              (raw ++ [(bn, bo)]) hA2 hB hC2 hE12 hE22 opts1 blocks1 dupes1 toks1 bmap1 h
            refine ⟨raw1, ?_, happ⟩
            rw [naiveLoop_succ_eq, if_pos hlk, if_pos hlk2, hrb]
            exact hnl
          · rw [if_neg hdup] at h
            have hnone : bmGet bmap bn = none := by
              cases hbg : bmGet bmap bn
              · rfl
              · rw [hbg] at hdup
                simp at hdup
            have hnotb : bn ∉ blocks.map Prod.fst := by
              intro hin
              rcases List.get?_of_mem hin with ⟨i, hi⟩
              have := (hB bn i).mpr hi
              rw [hnone] at this
              exact Option.noConfusion this
            have hnotr : bn ∉ raw.map Prod.fst := fun hin =>
              hnotb (hA ▸ (mem_uniqKeys bn _).mpr hin)
            have hset : bmSet bmap bn blocks.length = bmap ++ [(bn, blocks.length)] :=
              bmSet_append bmap bn blocks.length hnone
            have hA2 : (blocks ++ [(bn, bo)]).map Prod.fst =
                uniqKeys ((raw ++ [(bn, bo)]).map Prod.fst) := by
              rw [List.map_append, List.map_append]
              simp only [List.map_cons, List.map_nil]
              rw [uniqKeys_append_not_mem _ _ hnotr, hA]
            have hB2 : ∀ n i, bmGet (bmSet bmap bn blocks.length) n = some i ↔
                ((blocks ++ [(bn, bo)]).map Prod.fst).get? i = some n := by
              intro n i
              rw [hset]
              have hlenn : blocks.length = (blocks.map Prod.fst).length := by simp
              rw [hlenn, List.map_append]
              simp only [List.map_cons, List.map_nil]
              exact bm_append_iff bmap (blocks.map Prod.fst) bn hnone hB n i
            have hC2 : ∀ j e, (blocks ++ [(bn, bo)]).get? j = some e →
                (dupGet dupes e.1).getD e.2 = lastContent (raw ++ [(bn, bo)]) e.1 := by
              intro j e hje
              by_cases hj : j < blocks.length
              · rw [List.get?_append (by simpa using hj)] at hje
                have hne : e.1 ≠ bn := by
                  intro he
                  apply hnotb
                  rw [← he]
                  exact List.mem_map_of_mem Prod.fst (List.get?_mem hje)
                rw [lastContent_append_other raw bn e.1 bo hne]
                exact hC j e hje
              · have hj2 : j = blocks.length ∨ (blocks ++ [(bn, bo)]).length ≤ j := by
                  simp only [List.length_append, List.length_singleton]
                  omega
                rcases hj2 with hj2 | hj2
                · subst hj2
                  rw [List.get?_concat_length] at hje
                  have he : ((bn, bo) : BlkEntry) = e := Option.some.inj hje
                  subst he
                  have hdg : dupGet dupes bn = none := by
                    rw [dupGet_none_iff]
                    intro hin
                    exact hnotb (hE2 bn hin)
                  show (dupGet dupes bn).getD bo = lastContent (raw ++ [(bn, bo)]) bn
                  rw [hdg, lastContent_append_self]
                  rfl
                · rw [List.get?_eq_none.mpr hj2] at hje
                  exact Option.noConfusion hje
            have hE22 : ∀ n ∈ dupes.map Prod.fst, n ∈ (blocks ++ [(bn, bo)]).map Prod.fst := by
              intro n hn
              rw [List.map_append]
              exact List.mem_append.mpr (Or.inl (hE2 n hn))
            obtain ⟨raw1, hnl, happ⟩ := ih toksB opts (blocks ++ [(bn, bo)])
              (bmSet bmap bn blocks.length) dupes (raw ++ [(bn, bo)]) hA2 hB2 hC2 hE1 hE22
              opts1 blocks1 dupes1 toks1 bmap1 h
            refine ⟨raw1, ?_, happ⟩
            rw [naiveLoop_succ_eq, if_pos hlk, if_pos hlk2, hrb]
            exact hnl
      · rw [if_neg hlk2] at h
        cases hro : ruleOption fuel toks with
        | error e =>
          rw [hro] at h
          exact absurd h (by simp)
        | ok pr =>
          obtain ⟨o, toksO⟩ := pr
          rw [hro] at h
          dsimp only at h
          obtain ⟨raw1, hnl, happ⟩ := ih toksO (opts ++ [o]) blocks bmap dupes raw
            hA hB hC hE1 hE2 opts1 blocks1 dupes1 toks1 bmap1 h
          refine ⟨raw1, ?_, happ⟩
          rw [naiveLoop_succ_eq, if_pos hlk, if_neg hlk2, hro]
          exact hnl

/-- A successful `readstream` refines the naive occurrence-collecting read:
the held blocks are the first-position/last-content reduction of the raw
occurrence sequence. -/
theorem readstream_naive (input : List Char) (r : Except PError Unit) (s : PState)
    (hr : readstream input = (r, s)) (hok : r = .ok ()) :
    ∃ raw, naiveReadstream input = .ok (s.ast.header, s.ast.options, raw) ∧
      s.ast.blocks = dedupFirstLast raw := by
  subst hok
  unfold readstream at hr
  dsimp only at hr
  unfold ruleContainer at hr
  cases hg : getTokName ((tokenize input).map Prod.snd) with
  | error e =>
    rw [hg] at hr
    exact absurd hr (by simp)
  | ok pr =>
    obtain ⟨typeName, toks1⟩ := pr
    rw [hg] at hr
    dsimp only at hr
    cases he1 : expectTok "\x7b" toks1 with
    | error e =>
      rw [he1] at hr
      exact absurd hr (by simp)
    | ok toks2 =>
      rw [he1] at hr
      dsimp only at hr
      cases hcl : containerLoop (parseFuel ((tokenize input).map Prod.snd)) toks2 [] []
          resetState.blockMap [] with
      | mk res bmap1 =>
        cases res with
        | error e =>
          rw [hcl] at hr
          exact absurd hr (by simp)
        | ok quad =>
          obtain ⟨opts, blocks0, dupes, toks3⟩ := quad
          rw [hcl] at hr
          dsimp only at hr
          obtain ⟨raw1, hnl, happ⟩ := containerLoop_naive
            (parseFuel ((tokenize input).map Prod.snd)) toks2 [] [] resetState.blockMap []
            [] (by simp [uniqKeys, uniqKeysGo]) (by intro n i; simp [bmGet, resetState])
            (by intro j e hje; simp at hje) (by simp) (by simp)
            opts blocks0 dupes toks3 bmap1 hcl
          cases he2 : expectTok "\x7d" toks3 with
          | error e =>
            rw [he2] at hr
            exact absurd hr (by simp)
          | ok toks4 =>
            rw [he2] at hr
            dsimp only at hr
            cases he3 : expectEmpty toks4 with
            | error e =>
              rw [he3] at hr
              exact absurd hr (by simp)
            | ok u =>
              rw [he3] at hr
              dsimp only at hr
              simp only [Prod.mk.injEq] at hr
              obtain ⟨_, hs⟩ := hr
              subst hs
              refine ⟨raw1, ?_, happ⟩
              unfold naiveReadstream
              dsimp only
              rw [hg]
              dsimp only
              rw [he1]
              dsimp only
              rw [hnl]
              dsimp only
              rw [he2]
              dsimp only
              rw [he3]

/-- C2: parsing the literal input `header \x7bopt "1"; blk\x7bo "a";\x7d
blk2\x7bo "b";\x7d blk2\x7bo "c";\x7d blk\x7bo "d";\x7d blk3\x7bo "e";\x7d\x7d`
succeeds and yields exactly the blocks
`[blk [o ↦ [d]], blk2 [o ↦ [c]], blk3 [o ↦ [e]]]` in that order; and in
general every successful `readstream` holds the blocks obtained from the raw
ordered block-occurrence sequence of the input by keeping each duplicated
name at the list position of its first occurrence with the option content of
its last occurrence (all other blocks keeping their first-seen relative
order), which is `dedupFirstLast` of the naive read. -/
theorem duplicate_blocks_policy :
    ((readstream c2Input).1 = .ok () ∧
      (readstream c2Input).2.ast.blocks =
        [("blk", [("o", ["d"])]), ("blk2", [("o", ["c"])]), ("blk3", [("o", ["e"])])]) ∧
    (∀ (input : List Char) (r : Except PError Unit) (s : PState),
      readstream input = (r, s) → r = .ok () →
      ∃ raw, naiveReadstream input = .ok (s.ast.header, s.ast.options, raw) ∧
        s.ast.blocks = dedupFirstLast raw) :=
  ⟨⟨by decide, by decide⟩, readstream_naive⟩

/-- The refinement at the literal duplicate-block input. -/
theorem duplicate_blocks_policy_witness :
    ∃ raw, naiveReadstream c2Input =
        .ok ((readstream c2Input).2.ast.header, (readstream c2Input).2.ast.options, raw) ∧
      (readstream c2Input).2.ast.blocks = dedupFirstLast raw :=
  duplicate_blocks_policy.2 c2Input (readstream c2Input).1 (readstream c2Input).2 rfl
    (by decide)

/-! ## Round trip: lexing the serialized text -/

theorem lexChars_cons (lx : Lexer) (c : Char) (cs : List Char) :
    lexChars lx (c :: cs) = lexChars (lexStep lx c) cs := rfl

theorem lexChars_append (lx : Lexer) (a b : List Char) :
    lexChars lx (a ++ b) = lexChars (lexChars lx a) b := by
  simp [lexChars, List.foldl_append]

theorem pyReplaceChar_cons (c : Char) (cs : List Char) (old : Char) (repl : List Char) :
    pyReplaceChar (c :: cs) old repl =
      (if c = old then repl else [c]) ++ pyReplaceChar cs old repl := rfl

theorem pyReplaceChar_append (l1 l2 : List Char) (old : Char) (repl : List Char) :
    pyReplaceChar (l1 ++ l2) old repl =
      pyReplaceChar l1 old repl ++ pyReplaceChar l2 old repl := by
  induction l1 with
  | nil => rfl
  | cons c cs ih =>
    rw [List.cons_append, pyReplaceChar_cons, pyReplaceChar_cons, ih, List.append_assoc]

theorem escValue_eq_escSeq (v : String) : escValue v = escSeq v.data := by
  unfold escValue
  generalize v.data = cs
  induction cs with
  | nil => rfl
  | cons c cs ih =>
    rw [pyReplaceChar_cons, pyReplaceChar_append, ih]
    show _ = (if c = '\\' then ['\\', '\\'] else if c = '"' then ['\\', '"'] else [c])
      ++ escSeq cs
    congr 1
    by_cases hb : c = '\\'
    · subst hb
      rfl
    · rw [if_neg hb, if_neg hb]
      by_cases hq : c = '"'
      · subst hq
        rfl
      · rw [if_neg hq, pyReplaceChar_cons, if_neg hq]
        rfl

theorem popEscaped_of_ne (cs : List Char) (h : cs.getLast? ≠ some '\\') :
    popEscaped cs = (false, cs) := by
  unfold popEscaped
  cases hl : cs.getLast? with
  | none => rfl
  | some c =>
    dsimp only
    rw [if_neg]
    intro he
    subst he
    exact h hl

theorem popEscaped_of_bs (cs : List Char) (h : cs.getLast? = some '\\') :
    popEscaped cs = (true, cs.dropLast) := by
  unfold popEscaped
  rw [h]
  simp [escapeChar]

theorem goodSeq_getLast : ∀ (v : List Char), goodSeq v = true → v.getLast? ≠ some '\\' := by
  intro v
  induction v with
  | nil =>
    intro _ h
    exact Option.noConfusion h
  | cons c cs ih =>
    intro h
    cases cs with
    | nil =>
      intro hl
      have hc : c = '\\' := by
        have hg : ([c] : List Char).getLast? = some c := rfl
        rw [hg] at hl
        exact Option.some.inj hl
      subst hc
      simp [goodSeq] at h
    | cons d ds =>
      have hcs : goodSeq (d :: ds) = true := by
        unfold goodSeq at h
        by_cases hc : c = '\\'
        · rw [if_pos hc] at h
          dsimp only at h
          exact ((Bool.and_eq_true _ _).mp h).2
        · rw [if_neg hc] at h
          exact h
      rw [List.getLast?_cons_cons]
      exact ih hcs

theorem nlCount_cons_of_not (c : Char) (cs : List Char) (h : isNewlineChar c = false) :
    nlCount (c :: cs) = nlCount cs := by
  simp [nlCount, List.filter_cons, h]

theorem nlCount_cons_of_nl (c : Char) (cs : List Char) (h : isNewlineChar c = true) :
    nlCount (c :: cs) = nlCount cs + 1 := by
  simp [nlCount, List.filter_cons, h]

/-- A `RE_NAME` tail character is an ordinary buffer character for the
lexer. -/
theorem nameRest_facts (c : Char) (h : isNameRestChar c = true) :
    c ≠ ' ' ∧ c ≠ '\n' ∧ c ≠ '\r' ∧ c ≠ '\t' ∧ c ≠ '#' ∧ c ≠ '\'' ∧ c ≠ '"' ∧
      c ≠ '\x7b' ∧ c ≠ '\x7d' ∧ c ≠ ',' ∧ c ≠ ';' ∧ c ≠ '\\' := by
  have hne : ∀ d : Char, isNameRestChar d = false → c ≠ d := by
    intro d hd he
    rw [he, hd] at h
    exact Bool.noConfusion h
  exact ⟨hne ' ' (by decide), hne '\n' (by decide), hne '\r' (by decide),
    hne '\t' (by decide), hne '#' (by decide), hne '\'' (by decide), hne '"' (by decide),
    hne '\x7b' (by decide), hne '\x7d' (by decide), hne ',' (by decide),
    hne ';' (by decide), hne '\\' (by decide)⟩

theorem name1_rest (c : Char) (h : isNameChar1 c = true) : isNameRestChar c = true := by
  unfold isNameChar1 at h
  unfold isNameRestChar
  rcases (Bool.or_eq_true _ _).mp h with h1 | h1
  · rw [Char.isAlphanum, h1]
    rfl
  · rw [h1]
    simp

theorem lexStep_str_plain (tks : List (Nat × String)) (acc : List Char) (ln : Nat)
    (db : Bool) (c : Char) (hnl : isNewlineChar c = false) (hqc : isQuoteChar c = false)
    (hbs : c ≠ '\\') :
    lexStep ⟨tks, acc, ln, .strMode, some '"', db⟩ c =
      ⟨tks, acc ++ [c], ln, .strMode, some '"', false⟩ := by
  simp [lexStep, hnl, processString, hqc, escapeChar, hbs]

theorem lexStep_str_nl (tks : List (Nat × String)) (acc : List Char) (ln : Nat)
    (c : Char) (hnl : isNewlineChar c = true) :
    lexStep ⟨tks, acc, ln, .strMode, some '"', false⟩ c =
      ⟨tks, acc ++ [c], ln + 1, .strMode, some '"', false⟩ := by
  simp [lexStep, hnl, processNewline]

theorem lexStep_str_openesc (tks : List (Nat × String)) (acc : List Char) (ln : Nat)
    (h : acc.getLast? ≠ some '\\') :
    lexStep ⟨tks, acc, ln, .strMode, some '"', false⟩ '\\' =
      ⟨tks, acc ++ ['\\'], ln, .strMode, some '"', false⟩ := by
  simp [lexStep, processString, isNewlineChar, isQuoteChar, escapeChar,
    popEscaped_of_ne acc h]

theorem lexStep_str_foldesc (tks : List (Nat × String)) (acc : List Char) (ln : Nat) :
    lexStep ⟨tks, acc ++ ['\\'], ln, .strMode, some '"', false⟩ '\\' =
      ⟨tks, acc ++ ['\\'], ln, .strMode, some '"', true⟩ := by
  have hl : (acc ++ ['\\']).getLast? = some '\\' := List.getLast?_concat _
  simp [lexStep, processString, isNewlineChar, isQuoteChar, escapeChar,
    popEscaped_of_bs _ hl, List.dropLast_concat]

theorem lexStep_str_escquote (tks : List (Nat × String)) (acc : List Char) (ln : Nat) :
    lexStep ⟨tks, acc ++ ['\\'], ln, .strMode, some '"', false⟩ '"' =
      ⟨tks, acc ++ ['"'], ln, .strMode, some '"', false⟩ := by
  have hl : (acc ++ ['\\']).getLast? = some '\\' := List.getLast?_concat _
  simp [lexStep, processString, isNewlineChar, isQuoteChar, popEscaped_of_bs _ hl,
    List.dropLast_concat]

theorem lexStep_str_singlequote (tks : List (Nat × String)) (acc : List Char) (ln : Nat) :
    lexStep ⟨tks, acc, ln, .strMode, some '"', false⟩ '\'' =
      ⟨tks, acc ++ ['\''], ln, .strMode, some '"', false⟩ := by
  simp [lexStep, processString, isNewlineChar, isQuoteChar]

/-- Scanning the escaped form of a `goodSeq` value inside a double-quoted
string rebuilds exactly the original characters in the buffer; the
double-escape flag is set exactly when the buffer ends in a backslash. -/
theorem strScanGo : ∀ (v : List Char), goodSeq v = true →
    ∀ (tks : List (Nat × String)) (acc : List Char) (ln : Nat),
    (acc.getLast? = some '\\' → badAfterBackslash (v.headD ' ') = false) →
    lexChars ⟨tks, acc, ln, .strMode, some '"', decide (acc.getLast? = some '\\')⟩
        (escSeq v) =
      ⟨tks, acc ++ v, ln + nlCount v, .strMode, some '"',
        decide ((acc ++ v).getLast? = some '\\')⟩ := by
  intro v
  induction v with
  | nil =>
    intro _ tks acc ln _
    simp [escSeq, lexChars, nlCount]
  | cons c cs ih =>
    intro h tks acc ln hacc
    by_cases hbs : c = '\\'
    · subst hbs
      unfold goodSeq at h
      rw [if_pos rfl] at h
      cases cs with
      | nil =>
        dsimp only at h
        exact Bool.noConfusion h
      | cons d ds =>
        dsimp only at h
        obtain ⟨hd, hgs⟩ := (Bool.and_eq_true _ _).mp h
        have hdb : badAfterBackslash d = false := by
          cases hdd : badAfterBackslash d
          · rfl
          · rw [hdd] at hd
            exact Bool.noConfusion hd
        have haccn : acc.getLast? ≠ some '\\' := by
          intro hend
          have hb : badAfterBackslash '\\' = false := hacc hend
          exact absurd hb (by decide)
        have hdb0 : decide (acc.getLast? = some '\\') = false := decide_eq_false haccn
        have hshape : acc ++ '\\' :: d :: ds = (acc ++ ['\\']) ++ d :: ds := by simp
        rw [hshape, nlCount_cons_of_not '\\' (d :: ds) (by decide), hdb0]
        rw [show escSeq ('\\' :: d :: ds) = '\\' :: '\\' :: escSeq (d :: ds) from rfl]
        rw [lexChars_cons, lexStep_str_openesc tks acc ln haccn, lexChars_cons,
          lexStep_str_foldesc tks acc ln]
        have hip : (acc ++ ['\\']).getLast? = some '\\' →
            badAfterBackslash ((d :: ds).headD ' ') = false := fun _ => hdb
        have ihs := ih hgs tks (acc ++ ['\\']) ln hip
        rw [show decide ((acc ++ ['\\']).getLast? = some '\\') = true by
          simp [List.getLast?_concat]] at ihs
        exact ihs
    · by_cases hq : c = '"'
      · subst hq
        unfold goodSeq at h
        rw [if_neg (by decide)] at h
        have haccn : acc.getLast? ≠ some '\\' := by
          intro hend
          have hb : badAfterBackslash '"' = false := hacc hend
          exact absurd hb (by decide)
        have hdb0 : decide (acc.getLast? = some '\\') = false := decide_eq_false haccn
        have hshape : acc ++ '"' :: cs = (acc ++ ['"']) ++ cs := by simp
        rw [hshape, nlCount_cons_of_not '"' cs (by decide), hdb0]
        rw [show escSeq ('"' :: cs) = '\\' :: '"' :: escSeq cs from rfl]
        rw [lexChars_cons, lexStep_str_openesc tks acc ln haccn, lexChars_cons,
          lexStep_str_escquote tks acc ln]
        have hip : (acc ++ ['"']).getLast? = some '\\' →
            badAfterBackslash (cs.headD ' ') = false := by
          intro hcon
          rw [List.getLast?_concat] at hcon
          exact absurd (Option.some.inj hcon) (by decide)
        have ihs := ih h tks (acc ++ ['"']) ln hip
        rw [show decide ((acc ++ ['"']).getLast? = some '\\') = false by
          simp [List.getLast?_concat]] at ihs
        exact ihs
      · have hcs : goodSeq cs = true := by
          unfold goodSeq at h
          rw [if_neg hbs] at h
          exact h
        have hesc : escSeq (c :: cs) = c :: escSeq cs := by
          simp [escSeq, hbs, hq]
        have hshape : acc ++ c :: cs = (acc ++ [c]) ++ cs := by simp
        have hdecc : decide ((acc ++ [c]).getLast? = some '\\') = false := by
          simp [List.getLast?_concat, hbs]
        have hip : (acc ++ [c]).getLast? = some '\\' →
            badAfterBackslash (cs.headD ' ') = false := by
          intro hcon
          rw [List.getLast?_concat] at hcon
          exact absurd (Option.some.inj hcon) hbs
        by_cases hend : acc.getLast? = some '\\'
        · have hbadc : badAfterBackslash c = false := hacc hend
          have hq2 : c ≠ '\'' := by
            intro he
            subst he
            exact absurd hbadc (by decide)
          have hnl2 : isNewlineChar c = false := by
            cases hcn : isNewlineChar c
            · rfl
            · exfalso
              rcases (Bool.or_eq_true _ _).mp hcn with h1 | h1
              · exact absurd hbadc (by rw [of_decide_eq_true h1]; decide)
              · exact absurd hbadc (by rw [of_decide_eq_true h1]; decide)
          have hqc : isQuoteChar c = false := by
            simp [isQuoteChar, hq2, hq]
          have hdb0 : decide (acc.getLast? = some '\\') = true := decide_eq_true hend
          rw [hshape, nlCount_cons_of_not c cs hnl2, hdb0, hesc, lexChars_cons,
            lexStep_str_plain tks acc ln true c hnl2 hqc hbs]
          have ihs := ih hcs tks (acc ++ [c]) ln hip
          rw [hdecc] at ihs
          exact ihs
        · have hdb0 : decide (acc.getLast? = some '\\') = false := decide_eq_false hend
          by_cases hnl2 : isNewlineChar c = true
          · rw [hshape, nlCount_cons_of_nl c cs hnl2, hdb0, hesc, lexChars_cons,
              lexStep_str_nl tks acc ln c hnl2]
            have harith : ln + (nlCount cs + 1) = ln + 1 + nlCount cs := by omega
            rw [harith]
            have ihs := ih hcs tks (acc ++ [c]) (ln + 1) hip
            rw [hdecc] at ihs
            exact ihs
          · have hnl3 : isNewlineChar c = false := by
              cases hcn : isNewlineChar c
              · rfl
              · exact absurd hcn hnl2
            by_cases hq2 : c = '\''
            · subst hq2
              rw [hshape, nlCount_cons_of_not '\'' cs (by decide), hdb0, hesc,
                lexChars_cons, lexStep_str_singlequote tks acc ln]
              have ihs := ih hcs tks (acc ++ ['\'']) ln hip
              rw [hdecc] at ihs
              exact ihs
            · have hqc : isQuoteChar c = false := by
                simp [isQuoteChar, hq2, hq]
              rw [hshape, nlCount_cons_of_not c cs hnl3, hdb0, hesc, lexChars_cons,
                lexStep_str_plain tks acc ln false c hnl3 hqc hbs]
              have ihs := ih hcs tks (acc ++ [c]) ln hip
              rw [hdecc] at ihs
              exact ihs

theorem mem_of_getLast : ∀ (l : List Char) (a : Char), l.getLast? = some a → a ∈ l := by
  intro l
  induction l with
  | nil =>
    intro a h
    exact Option.noConfusion h
  | cons c cs ih =>
    intro a h
    cases cs with
    | nil =>
      have hc : ([c] : List Char).getLast? = some c := rfl
      rw [hc] at h
      rw [Option.some.inj h]
      exact List.mem_cons_self a []
    | cons d ds =>
      rw [List.getLast?_cons_cons] at h
      exact List.mem_cons_of_mem c (ih a h)

theorem emits_nil : EmitsClean [] [] := by
  intro tks ln
  exact ⟨[], ln, by simp [lexChars, cleanLexer], rfl⟩

theorem emits_append (a b : List Char) (s1 s2 : List String)
    (ha : EmitsClean a s1) (hb : EmitsClean b s2) : EmitsClean (a ++ b) (s1 ++ s2) := by
  intro tks ln
  obtain ⟨t1, l1, he1, hm1⟩ := ha tks ln
  obtain ⟨t2, l2, he2, hm2⟩ := hb (tks ++ t1) l1
  refine ⟨t1 ++ t2, l2, ?_, by simp [hm1, hm2]⟩
  rw [lexChars_append, he1, he2, List.append_assoc]

theorem emits_space : EmitsClean [' '] [] := by
  intro tks ln
  refine ⟨[], ln, ?_, rfl⟩
  show lexStep (cleanLexer tks ln) ' ' = cleanLexer (tks ++ []) ln
  simp [lexStep, processTokens, cleanLexer, isWhitespaceChar, isNewlineChar,
    isTokenChar, isQuoteChar, commentChar, popEscaped, newToken]

theorem emits_nl : EmitsClean ['\n'] [] := by
  intro tks ln
  refine ⟨[], ln + 1, ?_, rfl⟩
  show lexStep (cleanLexer tks ln) '\n' = cleanLexer (tks ++ []) (ln + 1)
  simp [lexStep, processNewline, cleanLexer, isNewlineChar, newToken]

theorem emits_spaces (n : Nat) : EmitsClean (spaces n) [] := by
  induction n with
  | zero => exact emits_nil
  | succ m ih =>
    have hs : spaces (m + 1) = [' '] ++ spaces m := by
      simp [spaces, List.replicate_succ]
    rw [hs]
    have := emits_append [' '] (spaces m) [] [] emits_space ih
    simpa using this

theorem emits_tokChar (c : Char) (h : isTokenChar c = true) :
    EmitsClean [c] [String.mk [c]] := by
  have hc : c = '\x7b' ∨ c = '\x7d' ∨ c = ',' ∨ c = ';' := by
    simp [isTokenChar] at h
    tauto
  intro tks ln
  refine ⟨[(ln, String.mk [c])], ln, ?_, by simp⟩
  rcases hc with rfl | rfl | rfl | rfl <;>
    simp [lexChars, lexStep, processTokens, cleanLexer, isWhitespaceChar, isNewlineChar,
      isQuoteChar, isTokenChar, commentChar, popEscaped, newToken, newTokenChar]

theorem nameScan : ∀ (cs : List Char), cs.all isNameRestChar = true →
    ∀ (tks : List (Nat × String)) (b : List Char) (ln : Nat),
    lexChars ⟨tks, b, ln, .token, none, false⟩ cs = ⟨tks, b ++ cs, ln, .token, none, false⟩ := by
  intro cs
  induction cs with
  | nil =>
    intro _ tks b ln
    simp [lexChars]
  | cons c ct ih =>
    intro h tks b ln
    have hc : isNameRestChar c = true ∧ ct.all isNameRestChar = true := by
      simpa [List.all_cons] using h
    obtain ⟨f1, f2, f3, f4, f5, f6, f7, f8, f9, f10, f11, f12⟩ := nameRest_facts c hc.1
    have hstep : lexStep ⟨tks, b, ln, .token, none, false⟩ c =
        ⟨tks, b ++ [c], ln, .token, none, false⟩ := by
      simp [lexStep, isNewlineChar, f2, f3, processTokens, isWhitespaceChar, f1, f4,
        commentChar, f5, isQuoteChar, f6, f7, isTokenChar, f8, f9, f10, f11]
    have hshape : b ++ c :: ct = (b ++ [c]) ++ ct := by simp
    rw [hshape, lexChars_cons, hstep]
    exact ih hc.2 tks (b ++ [c]) ln

theorem emits_name_space (n : String) (h : isNameCore n.data = true) :
    EmitsClean (n.data ++ [' ']) [n] := by
  intro tks ln
  refine ⟨[(ln, n)], ln, ?_, by simp⟩
  cases hd : n.data with
  | nil =>
    rw [hd] at h
    exact absurd h (by decide)
  | cons c cs =>
    rw [hd] at h
    unfold isNameCore at h
    obtain ⟨h1, h2⟩ := (Bool.and_eq_true _ _).mp h
    have hall : (c :: cs).all isNameRestChar = true := by
      simp [List.all_cons, name1_rest c h1, h2]
    have hlast : (c :: cs).getLast? ≠ some '\\' := by
      intro hcon
      have hmem := mem_of_getLast _ _ hcon
      have := List.all_eq_true.mp hall _ hmem
      exact absurd this (by decide)
    have hflush : lexStep ⟨tks, c :: cs, ln, .token, none, false⟩ ' ' =
        cleanLexer (tks ++ [(ln, String.mk (c :: cs))]) ln := by
      simp [lexStep, isNewlineChar, processTokens, isWhitespaceChar, isTokenChar,
        isQuoteChar, commentChar, popEscaped_of_ne _ hlast, newToken, cleanLexer]
    have hmk : String.mk (c :: cs) = n := by
      rw [← hd]
    rw [lexChars_append]
    have hname := nameScan (c :: cs) hall tks [] ln
    rw [show (⟨tks, [], ln, .token, none, false⟩ : Lexer) = cleanLexer tks ln from rfl] at hname
    rw [hname]
    show lexStep ⟨tks, [] ++ c :: cs, ln, .token, none, false⟩ ' ' = _
    rw [List.nil_append, hflush, hmk]

theorem emits_quoted (v : String) (hv : goodValue v = true) :
    EmitsClean (['"'] ++ escValue v ++ ['"']) [v] := by
  obtain ⟨hne0, hgs⟩ := (Bool.and_eq_true _ _).mp hv
  have hne : v ≠ "" := of_decide_eq_true hne0
  have hdat : v.data ≠ [] := by
    intro hcon
    apply hne
    have : v = String.mk v.data := rfl
    rw [this, hcon]
  intro tks ln
  refine ⟨[(ln + nlCount v.data, v)], ln + nlCount v.data, ?_, by simp⟩
  have hopen : lexChars (cleanLexer tks ln) ['"'] = ⟨tks, [], ln, .strMode, some '"', false⟩ := by
    simp [lexChars, lexStep, isNewlineChar, processTokens, cleanLexer, isWhitespaceChar,
      commentChar, isQuoteChar, isTokenChar, popEscaped, newToken]
  rw [lexChars_append, lexChars_append, hopen, escValue_eq_escSeq]
  have hscan := strScanGo v.data hgs tks [] ln (by intro hcon; exact absurd hcon (by decide))
  rw [show decide (([] : List Char).getLast? = some '\\') = false from by decide] at hscan
  rw [hscan, List.nil_append]
  rw [show decide (v.data.getLast? = some '\\') = false from
    decide_eq_false (goodSeq_getLast v.data hgs)]
  show lexStep ⟨tks, v.data, ln + nlCount v.data, .strMode, some '"', false⟩ '"' = _
  have hlast := goodSeq_getLast v.data hgs
  simp [lexStep, isNewlineChar, processString, isQuoteChar, popEscaped_of_ne _ hlast,
    setMode, newToken, cleanLexer, hdat]

theorem emits_values : ∀ (vs : List String), (∀ v ∈ vs, goodValue v = true) →
    EmitsClean (serializeValues vs) (valTokStrs vs) := by
  intro vs
  induction vs with
  | nil =>
    intro _
    exact emits_nil
  | cons v rest ih =>
    intro h
    have hv : goodValue v = true := h v (List.mem_cons_self v rest)
    cases rest with
    | nil =>
      have hseg : serializeValues [v] = ['"'] ++ escValue v ++ ['"'] := by
        simp [serializeValues, List.intercalate]
      have hstr : valTokStrs [v] = [v] := by
        simp [valTokStrs]
      rw [hseg, hstr]
      exact emits_quoted v hv
    | cons w t =>
      have hrest : ∀ x ∈ w :: t, goodValue x = true := fun x hx =>
        h x (List.mem_cons_of_mem v hx)
      have hseg : serializeValues (v :: w :: t) =
          (['"'] ++ escValue v ++ ['"']) ++ ([','] ++ serializeValues (w :: t)) := by
        simp [serializeValues, List.intercalate, List.intersperse]
      have hstr : valTokStrs (v :: w :: t) = [v] ++ ([String.mk [',']] ++ valTokStrs (w :: t)) := by
        simp [valTokStrs]
      rw [hseg, hstr]
      exact emits_append _ _ _ _ (emits_quoted v hv)
        (emits_append _ _ _ _ (emits_tokChar ',' (by decide)) (ih hrest))

theorem optTokStrs_eq (o : OptEntry) (h : o.2 ≠ []) :
    optTokStrs o = [o.1] ++ valTokStrs o.2 ++ [";"] := by
  cases hv : o.2 with
  | nil => exact absurd hv h
  | cons v vs =>
    simp [optTokStrs, hv, valTokStrs]

theorem emits_optionLine (ind : Nat) (o : OptEntry) (hn : isNameCore o.1.data = true)
    (hne : o.2 ≠ []) (hg : ∀ v ∈ o.2, goodValue v = true) :
    EmitsClean (optionLine ind o) (optTokStrs o) := by
  have hseg : optionLine ind o =
      spaces ind ++ ((o.1.data ++ [' ']) ++ (serializeValues o.2 ++ ([';'] ++ ['\n']))) := by
    simp [optionLine, linesep, List.append_assoc]
  have hstr : optTokStrs o = [] ++ ([o.1] ++ (valTokStrs o.2 ++ ([String.mk [';']] ++ []))) := by
    rw [optTokStrs_eq o hne]
    simp
  rw [hseg, hstr]
  exact emits_append _ _ _ _ (emits_spaces ind)
    (emits_append _ _ _ _ (emits_name_space o.1 hn)
      (emits_append _ _ _ _ (emits_values o.2 hg)
        (emits_append _ _ _ _ (emits_tokChar ';' (by decide)) emits_nl)))

theorem emits_flatten {α : Type} : ∀ (l : List α) (f : α → List Char) (g : α → List String),
    (∀ x ∈ l, EmitsClean (f x) (g x)) →
    EmitsClean (l.map f).flatten (l.flatMap g) := by
  intro l f g
  induction l with
  | nil =>
    intro _
    exact emits_nil
  | cons x t ih =>
    intro h
    have hseg : ((x :: t).map f).flatten = f x ++ (t.map f).flatten := by simp
    have hstr : (x :: t).flatMap g = g x ++ t.flatMap g := by simp
    rw [hseg, hstr]
    exact emits_append _ _ _ _ (h x (List.mem_cons_self x t))
      (ih (fun y hy => h y (List.mem_cons_of_mem x hy)))

theorem emits_blockText (b : BlkEntry) (hn : isNameCore b.1.data = true)
    (ho : ∀ o ∈ b.2, isNameCore o.1.data = true ∧ o.2 ≠ [] ∧ ∀ v ∈ o.2, goodValue v = true) :
    EmitsClean (blockText b) (blkTokStrs b) := by
  have hseg : blockText b =
      spaces 4 ++ ((b.1.data ++ [' ']) ++ (['\x7b'] ++ (['\n'] ++
        ((b.2.map (optionLine 8)).flatten ++ (spaces 4 ++ (['\x7d'] ++ ['\n'])))))) := by
    simp [blockText, linesep, List.append_assoc]
  have hstr : blkTokStrs b =
      [] ++ ([b.1] ++ ([String.mk ['\x7b']] ++ ([] ++
        (b.2.flatMap optTokStrs ++ ([] ++ ([String.mk ['\x7d']] ++ [])))))) := by
    simp [blkTokStrs]
  rw [hseg, hstr]
  refine emits_append _ _ _ _ (emits_spaces 4) ?_
  refine emits_append _ _ _ _ (emits_name_space b.1 hn) ?_
  refine emits_append _ _ _ _ (emits_tokChar '\x7b' (by decide)) ?_
  refine emits_append _ _ _ _ emits_nl ?_
  refine emits_append _ _ _ _ ?_ ?_
  · exact emits_flatten b.2 (optionLine 8) optTokStrs
      (fun o hmem => emits_optionLine 8 o (ho o hmem).1 (ho o hmem).2.1 (ho o hmem).2.2)
  refine emits_append _ _ _ _ (emits_spaces 4) ?_
  exact emits_append _ _ _ _ (emits_tokChar '\x7d' (by decide)) emits_nl

theorem emits_serializeAst (ast : Ast) (hdr : String) (hh : isNameCore hdr.data = true)
    (hopt : ∀ o ∈ ast.options, isNameCore o.1.data = true ∧ o.2 ≠ [] ∧
      ∀ v ∈ o.2, goodValue v = true)
    (hblk : ∀ b ∈ ast.blocks, isNameCore b.1.data = true ∧
      ∀ o ∈ b.2, isNameCore o.1.data = true ∧ o.2 ≠ [] ∧ ∀ v ∈ o.2, goodValue v = true) :
    EmitsClean (serializeAst ast hdr) (astTokStrs ast hdr) := by
  have hseg : serializeAst ast hdr =
      (hdr.data ++ [' ']) ++ (['\x7b'] ++ (['\n'] ++
        ((ast.options.map (optionLine 4)).flatten ++
          ((ast.blocks.map blockText).flatten ++ (['\x7d'] ++ ['\n']))))) := by
    simp [serializeAst, linesep, List.append_assoc]
  have hstr : astTokStrs ast hdr =
      [hdr] ++ ([String.mk ['\x7b']] ++ ([] ++
        (ast.options.flatMap optTokStrs ++
          (ast.blocks.flatMap blkTokStrs ++ ([String.mk ['\x7d']] ++ []))))) := by
    simp [astTokStrs]
  rw [hseg, hstr]
  refine emits_append _ _ _ _ (emits_name_space hdr hh) ?_
  refine emits_append _ _ _ _ (emits_tokChar '\x7b' (by decide)) ?_
  refine emits_append _ _ _ _ emits_nl ?_
  refine emits_append _ _ _ _ ?_ ?_
  · exact emits_flatten ast.options (optionLine 4) optTokStrs
      (fun o hmem => emits_optionLine 4 o (hopt o hmem).1 (hopt o hmem).2.1 (hopt o hmem).2.2)
  refine emits_append _ _ _ _ ?_ ?_
  · exact emits_flatten ast.blocks blockText blkTokStrs
      (fun b hmem => emits_blockText b (hblk b hmem).1 (hblk b hmem).2)
  exact emits_append _ _ _ _ (emits_tokChar '\x7d' (by decide)) emits_nl

/-- Lexing the serialized text of a round-trippable AST yields exactly the
expected token strings. -/
theorem tokenize_serializeAst (ast : Ast) (hdr : String) (hh : isNameCore hdr.data = true)
    (hopt : ∀ o ∈ ast.options, isNameCore o.1.data = true ∧ o.2 ≠ [] ∧
      ∀ v ∈ o.2, goodValue v = true)
    (hblk : ∀ b ∈ ast.blocks, isNameCore b.1.data = true ∧
      ∀ o ∈ b.2, isNameCore o.1.data = true ∧ o.2 ≠ [] ∧ ∀ v ∈ o.2, goodValue v = true) :
    (tokenize (serializeAst ast hdr)).map Prod.snd = astTokStrs ast hdr := by
  obtain ⟨tks2, ln2, he, hm⟩ := emits_serializeAst ast hdr hh hopt hblk [] 1
  unfold tokenize
  rw [show lexInit = cleanLexer [] 1 from rfl, he]
  rw [show (cleanLexer ([] ++ tks2) ln2).tokens = tks2 from by simp [cleanLexer]]
  exact hm

/-! ## Round trip: parsing the expected token strings -/

theorem isNameCore_ne (s : String) (h : isNameCore s.data = true) :
    s ≠ "\x7d" ∧ s ≠ "\x7b" ∧ s ≠ "" ∧ reNameMatch s = true := by
  refine ⟨?_, ?_, ?_, ?_⟩
  · intro he
    subst he
    exact absurd h (by decide)
  · intro he
    subst he
    exact absurd h (by decide)
  · intro he
    subst he
    exact absurd h (by decide)
  · unfold reNameMatch
    rw [h]
    rfl

theorem lookahead1_cons (t : String) (r : Toks) (h : t ≠ "") :
    lookaheadToken 1 (t :: r) = some t := by
  simp [lookaheadToken, pickLookahead, List.take, h]

theorem lookahead2_cons (t1 t2 : String) (r : Toks) (h : t2 ≠ "") :
    lookaheadToken 2 (t1 :: t2 :: r) = some t2 := by
  simp [lookaheadToken, pickLookahead, List.take, h]

theorem flat2_length (ws : List String) :
    (ws.flatMap (fun w => [",", w])).length = 2 * ws.length := by
  induction ws with
  | nil => rfl
  | cons w t ih =>
    simp only [List.flatMap_cons, List.length_append, List.length_cons, ih,
      List.length_nil, List.length_singleton]
    omega

theorem optTokStrs_length (o : OptEntry) (h : o.2 ≠ []) :
    (optTokStrs o).length = 2 * o.2.length + 1 := by
  obtain ⟨n, vals⟩ := o
  cases vals with
  | nil => exact absurd rfl h
  | cons v vs =>
    show ([n, v] ++ vs.flatMap (fun w => [",", w]) ++ [";"]).length = _
    rw [List.length_append, List.length_append, flat2_length]
    simp only [List.length_cons, List.length_nil, List.length_singleton]
    omega

theorem ruleValueLoop_parse : ∀ (ws : List String) (fuel : Nat) (terms : List String)
    (rest : Toks), ws.length + 1 ≤ fuel →
    ruleValueLoop fuel (ws.flatMap (fun w => [",", w]) ++ ";" :: rest) terms =
      .ok (terms ++ ws, ";" :: rest) := by
  intro ws
  induction ws with
  | nil =>
    intro fuel terms rest hf
    cases fuel with
    | zero => omega
    | succ f =>
      show ruleValueLoop (f + 1) (";" :: rest) terms = _
      unfold ruleValueLoop
      rw [lookahead1_cons ";" rest (by decide), if_neg (by decide)]
      simp
  | cons w ws ih =>
    intro fuel terms rest hf
    cases fuel with
    | zero => omega
    | succ f =>
      have hshape : (w :: ws).flatMap (fun w => [",", w]) ++ ";" :: rest =
          "," :: w :: (ws.flatMap (fun w => [",", w]) ++ ";" :: rest) := by
        simp
      rw [hshape]
      unfold ruleValueLoop
      rw [lookahead1_cons "," _ (by decide), if_pos rfl]
      dsimp [getTok]
      rw [ih f (terms ++ [w]) rest (by simp at hf ⊢; omega)]
      simp

theorem ruleValue_parse (v : String) (ws : List String) (fuel : Nat) (rest : Toks)
    (hf : ws.length + 1 ≤ fuel) :
    ruleValue fuel (v :: (ws.flatMap (fun w => [",", w]) ++ ";" :: rest)) =
      .ok (v :: ws, ";" :: rest) := by
  unfold ruleValue
  dsimp [getTok]
  rw [ruleValueLoop_parse ws fuel [v] rest hf]
  simp

theorem ruleOption_parse (o : OptEntry) (fuel : Nat) (rest : Toks)
    (hn : isNameCore o.1.data = true) (hne : o.2 ≠ []) (hf : o.2.length ≤ fuel) :
    ruleOption fuel (optTokStrs o ++ rest) = .ok (o, rest) := by
  obtain ⟨n, vals⟩ := o
  cases hv : vals with
  | nil => exact absurd hv hne
  | cons v ws =>
    subst hv
    have hshape : optTokStrs (n, v :: ws) ++ rest =
        n :: v :: (ws.flatMap (fun w => [",", w]) ++ ";" :: rest) := by
      simp [optTokStrs]
    rw [hshape]
    unfold ruleOption
    have hre : reNameMatch n = true := (isNameCore_ne n hn).2.2.2
    dsimp [getTokName]
    rw [if_pos hre]
    dsimp only
    rw [ruleValue_parse v ws fuel rest (by simp at hf; omega)]
    dsimp only
    simp [expectTok]

theorem ruleBlockLoop_parse : ∀ (os : List OptEntry) (fuel : Nat) (acc : List OptEntry)
    (rest : Toks), (∀ o ∈ os, isNameCore o.1.data = true ∧ o.2 ≠ []) →
    (os.flatMap optTokStrs).length + 1 ≤ fuel →
    ruleBlockLoop fuel (os.flatMap optTokStrs ++ "\x7d" :: rest) acc =
      .ok (acc ++ os, "\x7d" :: rest) := by
  intro os
  induction os with
  | nil =>
    intro fuel acc rest _ hf
    cases fuel with
    | zero => omega
    | succ f =>
      show ruleBlockLoop (f + 1) ("\x7d" :: rest) acc = _
      unfold ruleBlockLoop
      rw [lookahead1_cons "\x7d" rest (by decide), if_neg (by simp)]
      simp
  | cons o os ih =>
    intro fuel acc rest ho hf
    have ho1 := ho o (List.mem_cons_self o os)
    cases fuel with
    | zero => omega
    | succ f =>
      have hshape : (o :: os).flatMap optTokStrs ++ "\x7d" :: rest =
          optTokStrs o ++ (os.flatMap optTokStrs ++ "\x7d" :: rest) := by
        simp
      rw [hshape]
      have hhead : optTokStrs o ++ (os.flatMap optTokStrs ++ "\x7d" :: rest) =
          o.1 :: (valTokStrs o.2 ++ [";"] ++ (os.flatMap optTokStrs ++ "\x7d" :: rest)) := by
        rw [optTokStrs_eq o ho1.2]
        simp
      have hlen : (os.flatMap optTokStrs).length + 1 ≤ f ∧ o.2.length ≤ f := by
        rw [List.flatMap_cons, List.length_append, optTokStrs_length o ho1.2] at hf
        omega
      unfold ruleBlockLoop
      rw [hhead, lookahead1_cons o.1 _ (isNameCore_ne o.1 ho1.1).2.2.1]
      rw [if_pos (by
        intro hcon
        exact (isNameCore_ne o.1 ho1.1).1 (Option.some.inj hcon))]
      rw [← hhead, ruleOption_parse o f _ ho1.1 ho1.2 hlen.2]
      dsimp only
      rw [ih f (acc ++ [o]) rest (fun x hx => ho x (List.mem_cons_of_mem o hx)) hlen.1]
      simp

theorem ruleBlock_parse (b : BlkEntry) (fuel : Nat) (rest : Toks)
    (hn : isNameCore b.1.data = true)
    (ho : ∀ o ∈ b.2, isNameCore o.1.data = true ∧ o.2 ≠ [])
    (hf : (b.2.flatMap optTokStrs).length + 1 ≤ fuel) :
    ruleBlock fuel (blkTokStrs b ++ rest) = .ok (b, rest) := by
  have hshape : blkTokStrs b ++ rest =
      b.1 :: "\x7b" :: (b.2.flatMap optTokStrs ++ "\x7d" :: rest) := by
    simp [blkTokStrs]
  rw [hshape]
  unfold ruleBlock
  dsimp [getTokName]
  rw [if_pos (isNameCore_ne b.1 hn).2.2.2]
  dsimp only
  rw [show expectTok "\x7b" ("\x7b" :: (b.2.flatMap optTokStrs ++ "\x7d" :: rest)) =
    .ok (b.2.flatMap optTokStrs ++ "\x7d" :: rest) from by simp [expectTok]]
  dsimp only
  rw [ruleBlockLoop_parse b.2 fuel [] rest ho hf]
  dsimp only
  simp [expectTok]

theorem blkTokStrs_length (b : BlkEntry) :
    (blkTokStrs b).length = (b.2.flatMap optTokStrs).length + 3 := by
  show ([b.1, "\x7b"] ++ b.2.flatMap optTokStrs ++ ["\x7d"]).length = _
  rw [List.length_append, List.length_append]
  simp only [List.length_cons, List.length_nil, List.length_singleton]
  omega

theorem naiveLoop_blocks : ∀ (bs : List BlkEntry) (fuel : Nat) (accO : List OptEntry)
    (accB : List BlkEntry) (after : Toks),
    (∀ b ∈ bs, isNameCore b.1.data = true ∧
      ∀ o ∈ b.2, isNameCore o.1.data = true ∧ o.2 ≠ []) →
    (bs.flatMap blkTokStrs).length + 1 ≤ fuel →
    naiveLoop fuel (bs.flatMap blkTokStrs ++ "\x7d" :: after) accO accB =
      .ok (accO, accB ++ bs, "\x7d" :: after) := by
  intro bs
  induction bs with
  | nil =>
    intro fuel accO accB after _ hf
    cases fuel with
    | zero => omega
    | succ f =>
      show naiveLoop (f + 1) ("\x7d" :: after) accO accB = _
      rw [naiveLoop_succ_eq, lookahead1_cons "\x7d" after (by decide), if_neg (by simp)]
      simp
  | cons b bs ih =>
    intro fuel accO accB after hb hf
    have hb1 := hb b (List.mem_cons_self b bs)
    cases fuel with
    | zero => omega
    | succ f =>
      have hshape : (b :: bs).flatMap blkTokStrs ++ "\x7d" :: after =
          blkTokStrs b ++ (bs.flatMap blkTokStrs ++ "\x7d" :: after) := by
        simp
      have hhead : blkTokStrs b ++ (bs.flatMap blkTokStrs ++ "\x7d" :: after) =
          b.1 :: "\x7b" :: (b.2.flatMap optTokStrs ++ "\x7d" ::
            (bs.flatMap blkTokStrs ++ "\x7d" :: after)) := by
        simp [blkTokStrs]
      have hlen : (bs.flatMap blkTokStrs).length + 1 ≤ f ∧
          (b.2.flatMap optTokStrs).length + 1 ≤ f := by
        rw [List.flatMap_cons, List.length_append, blkTokStrs_length b] at hf
        omega
      rw [hshape, naiveLoop_succ_eq, hhead]
      rw [lookahead1_cons b.1 _ (isNameCore_ne b.1 hb1.1).2.2.1]
      rw [if_pos (by
        intro hcon
        exact (isNameCore_ne b.1 hb1.1).1 (Option.some.inj hcon))]
      rw [lookahead2_cons b.1 "\x7b" _ (by decide), if_pos rfl]
      rw [← hhead, ruleBlock_parse b f _ hb1.1 hb1.2 hlen.2]
      dsimp only
      rw [ih f accO (accB ++ [b]) after (fun x hx => hb x (List.mem_cons_of_mem b hx)) hlen.1]
      simp

theorem naiveLoop_parse : ∀ (os : List OptEntry) (bs : List BlkEntry) (fuel : Nat)
    (accO : List OptEntry) (accB : List BlkEntry) (after : Toks),
    (∀ o ∈ os, isNameCore o.1.data = true ∧ o.2 ≠ [] ∧ o.2.headD "" ≠ "" ∧
      o.2.headD "" ≠ "\x7b") →
    (∀ b ∈ bs, isNameCore b.1.data = true ∧
      ∀ o ∈ b.2, isNameCore o.1.data = true ∧ o.2 ≠ []) →
    (os.flatMap optTokStrs ++ bs.flatMap blkTokStrs).length + 1 ≤ fuel →
    naiveLoop fuel (os.flatMap optTokStrs ++ bs.flatMap blkTokStrs ++ "\x7d" :: after)
        accO accB =
      .ok (accO ++ os, accB ++ bs, "\x7d" :: after) := by
  intro os
  induction os with
  | nil =>
    intro bs fuel accO accB after _ hb hf
    rw [List.flatMap_nil, List.nil_append]
    rw [naiveLoop_blocks bs fuel accO accB after hb (by simpa using hf)]
    simp
  | cons o os ih =>
    intro bs fuel accO accB after ho hb hf
    have ho1 := ho o (List.mem_cons_self o os)
    cases fuel with
    | zero => omega
    | succ f =>
      obtain ⟨n, vals⟩ := o
      cases hv : vals with
      | nil => exact absurd hv ho1.2.1
      | cons v vs =>
        subst hv
        have hshape : ((n, v :: vs) :: os).flatMap optTokStrs ++
              bs.flatMap blkTokStrs ++ "\x7d" :: after =
            optTokStrs (n, v :: vs) ++
              (os.flatMap optTokStrs ++ bs.flatMap blkTokStrs ++ "\x7d" :: after) := by
          simp
        have hhead : optTokStrs (n, v :: vs) ++
              (os.flatMap optTokStrs ++ bs.flatMap blkTokStrs ++ "\x7d" :: after) =
            n :: v :: (vs.flatMap (fun w => [",", w]) ++ ";" ::
              (os.flatMap optTokStrs ++ bs.flatMap blkTokStrs ++ "\x7d" :: after)) := by
          simp [optTokStrs]
        have hvne : v ≠ "" := by simpa using ho1.2.2.1
        have hvnb : v ≠ "\x7b" := by simpa using ho1.2.2.2
        have hlen : (os.flatMap optTokStrs ++ bs.flatMap blkTokStrs).length + 1 ≤ f ∧
            (v :: vs).length ≤ f := by
          rw [List.flatMap_cons, List.append_assoc, List.length_append,
            optTokStrs_length (n, v :: vs) (by simp), List.length_append] at hf
          rw [List.length_append]
          simp only [List.length_cons] at hf ⊢
          omega
        rw [hshape, naiveLoop_succ_eq, hhead]
        rw [lookahead1_cons n _ (isNameCore_ne n ho1.1).2.2.1]
        rw [if_pos (by
          intro hcon
          exact (isNameCore_ne n ho1.1).1 (Option.some.inj hcon))]
        rw [lookahead2_cons n v _ hvne]
        rw [if_neg (by
          intro hcon
          exact hvnb (Option.some.inj hcon))]
        rw [← hhead, ruleOption_parse (n, v :: vs) f _ ho1.1 (by simp) hlen.2]
        dsimp only
        rw [ih bs f (accO ++ [(n, v :: vs)]) accB after
          (fun x hx => ho x (List.mem_cons_of_mem _ hx)) hb hlen.1]
        simp

/-- The naive read of the serialized text of a round-trippable AST
recovers the header, options and block sequence exactly. -/
theorem naiveReadstream_serialize (ast : Ast) (hdr : String)
    (hh : isNameCore hdr.data = true)
    (hopt : ∀ o ∈ ast.options, isNameCore o.1.data = true ∧ o.2 ≠ [] ∧
      (∀ v ∈ o.2, goodValue v = true) ∧ o.2.headD "" ≠ "\x7b")
    (hblk : ∀ b ∈ ast.blocks, isNameCore b.1.data = true ∧
      ∀ o ∈ b.2, isNameCore o.1.data = true ∧ o.2 ≠ [] ∧ ∀ v ∈ o.2, goodValue v = true) :
    naiveReadstream (serializeAst ast hdr) = .ok (some hdr, ast.options, ast.blocks) := by
  have hopt2 : ∀ o ∈ ast.options, isNameCore o.1.data = true ∧ o.2 ≠ [] ∧
      ∀ v ∈ o.2, goodValue v = true :=
    fun o hm => ⟨(hopt o hm).1, (hopt o hm).2.1, (hopt o hm).2.2.1⟩
  have hblk2 : ∀ b ∈ ast.blocks, isNameCore b.1.data = true ∧
      ∀ o ∈ b.2, isNameCore o.1.data = true ∧ o.2 ≠ [] ∧ ∀ v ∈ o.2, goodValue v = true :=
    hblk
  have htoks := tokenize_serializeAst ast hdr hh hopt2 hblk2
  unfold naiveReadstream
  rw [htoks]
  have hshape : astTokStrs ast hdr = hdr :: "\x7b" ::
      (ast.options.flatMap optTokStrs ++ ast.blocks.flatMap blkTokStrs ++ "\x7d" :: []) := by
    simp [astTokStrs]
  rw [hshape]
  dsimp [getTokName]
  rw [if_pos (isNameCore_ne hdr hh).2.2.2]
  dsimp only
  rw [show expectTok "\x7b" ("\x7b" :: (ast.options.flatMap optTokStrs ++
      ast.blocks.flatMap blkTokStrs ++ "\x7d" :: [])) =
    .ok (ast.options.flatMap optTokStrs ++ ast.blocks.flatMap blkTokStrs ++ "\x7d" :: [])
    from by simp [expectTok]]
  dsimp only
  have hoblk : ∀ o ∈ ast.options, isNameCore o.1.data = true ∧ o.2 ≠ [] ∧
      o.2.headD "" ≠ "" ∧ o.2.headD "" ≠ "\x7b" := by
    intro o hm
    obtain ⟨h1, h2, h3, h4⟩ := hopt o hm
    refine ⟨h1, h2, ?_, h4⟩
    cases hv : o.2 with
    | nil => exact absurd hv h2
    | cons v vs =>
      have hg := h3 v (by rw [hv]; exact List.mem_cons_self v vs)
      have := (Bool.and_eq_true _ _).mp hg
      simpa using of_decide_eq_true this.1
  have hbo : ∀ b ∈ ast.blocks, isNameCore b.1.data = true ∧
      ∀ o ∈ b.2, isNameCore o.1.data = true ∧ o.2 ≠ [] :=
    fun b hm => ⟨(hblk b hm).1, fun o ho => ⟨(hblk b hm).2 o ho |>.1, (hblk b hm).2 o ho |>.2.1⟩⟩
  have hfuel : (ast.options.flatMap optTokStrs ++ ast.blocks.flatMap blkTokStrs).length + 1 ≤
      parseFuel (hdr :: "\x7b" :: (ast.options.flatMap optTokStrs ++
        ast.blocks.flatMap blkTokStrs ++ "\x7d" :: [])) := by
    unfold parseFuel
    simp only [List.length_cons, List.length_append]
    omega
  rw [naiveLoop_parse ast.options ast.blocks
    (parseFuel (hdr :: "\x7b" :: (ast.options.flatMap optTokStrs ++
      ast.blocks.flatMap blkTokStrs ++ "\x7d" :: []))) [] [] [] hoblk hbo hfuel]
  dsimp only
  simp [expectTok, expectEmpty]

/-! ## Round trip: from the naive read back to `readstream` -/

/-- Success of the naive loop forces success of the container loop. -/
theorem naiveLoop_containerLoop : ∀ (fuel : Nat) (toks : Toks) (opts : List OptEntry)
    (raw : List BlkEntry) (opts1 : List OptEntry) (raw1 : List BlkEntry) (toks1 : Toks),
    naiveLoop fuel toks opts raw = .ok (opts1, raw1, toks1) →
    ∀ (blocks : List BlkEntry) (bmap : BMap) (dupes : Dupes),
    ∃ blocks1 dupes1 bmap1,
      containerLoop fuel toks opts blocks bmap dupes =
        (.ok (opts1, blocks1, dupes1, toks1), bmap1) := by
  intro fuel
  induction fuel with
  | zero =>
    intro toks opts raw opts1 raw1 toks1 h
    exact absurd h (by simp [naiveLoop])
  | succ f ih =>
    intro toks opts raw opts1 raw1 toks1 h blocks bmap dupes
    rw [naiveLoop_succ_eq] at h
    rw [containerLoop_succ_eq]
    by_cases hlk : lookaheadToken 1 toks ≠ some "\x7d"
    · rw [if_pos hlk] at h ⊢
      by_cases hlk2 : lookaheadToken 2 toks = some "\x7b"
      · rw [if_pos hlk2] at h ⊢
        cases hrb : ruleBlock f toks with
        | error e =>
          rw [hrb] at h
          exact absurd h (by simp)
        | ok pr =>
          obtain ⟨blk, toksB⟩ := pr
          rw [hrb] at h
          dsimp only at h ⊢
          by_cases hdup : (bmGet bmap blk.1).isSome
          · rw [if_pos hdup]
            exact ih toksB opts (raw ++ [blk]) opts1 raw1 toks1 h blocks bmap
              (dupSet dupes blk.1 blk.2)
          · rw [if_neg hdup]
            exact ih toksB opts (raw ++ [blk]) opts1 raw1 toks1 h (blocks ++ [blk])
              (bmSet bmap blk.1 blocks.length) dupes
      · rw [if_neg hlk2] at h ⊢
        cases hro : ruleOption f toks with
        | error e =>
          rw [hro] at h
          exact absurd h (by simp)
        | ok pr =>
          obtain ⟨o, toksO⟩ := pr
          rw [hro] at h
          dsimp only at h ⊢
          exact ih toksO (opts ++ [o]) raw opts1 raw1 toks1 h blocks bmap dupes
    · rw [if_neg hlk] at h ⊢
      simp only [Except.ok.injEq, Prod.mk.injEq] at h
      obtain ⟨ho, hr, ht⟩ := h
      subst ho
      subst ht
      exact ⟨blocks, dupes, bmap, rfl⟩

theorem uniqKeysGo_congr : ∀ (l s1 s2 : List String),
    (∀ x ∈ l, (x ∈ s1 ↔ x ∈ s2)) → uniqKeysGo s1 l = uniqKeysGo s2 l := by
  intro l
  induction l with
  | nil =>
    intro _ _ _
    rfl
  | cons n r ih =>
    intro s1 s2 hiff
    unfold uniqKeysGo
    by_cases hn : n ∈ s1
    · rw [if_pos hn, if_pos ((hiff n (List.mem_cons_self n r)).mp hn)]
      exact ih s1 s2 (fun x hx => hiff x (List.mem_cons_of_mem n hx))
    · rw [if_neg hn, if_neg (fun hc => hn ((hiff n (List.mem_cons_self n r)).mpr hc))]
      congr 1
      apply ih
      intro x hx
      rw [List.mem_cons, List.mem_cons, hiff x (List.mem_cons_of_mem n hx)]

/-- With pairwise-distinct block names the first-position/last-content
reduction is the identity. -/
theorem dedup_nodup : ∀ (raw : List BlkEntry), (raw.map Prod.fst).Nodup →
    dedupFirstLast raw = raw := by
  intro raw
  induction raw with
  | nil =>
    intro _
    rfl
  | cons e rest ih =>
    intro h
    rw [List.map_cons, List.nodup_cons] at h
    obtain ⟨hnin, hnd⟩ := h
    unfold dedupFirstLast
    rw [List.map_cons]
    have hu : uniqKeys (e.1 :: rest.map Prod.fst) = e.1 :: uniqKeys (rest.map Prod.fst) := by
      show uniqKeysGo [] (e.1 :: rest.map Prod.fst) = e.1 :: uniqKeysGo [] (rest.map Prod.fst)
      rw [show uniqKeysGo ([] : List String) (e.1 :: rest.map Prod.fst) =
        if e.1 ∈ ([] : List String) then uniqKeysGo [] (rest.map Prod.fst)
        else e.1 :: uniqKeysGo [e.1] (rest.map Prod.fst) from rfl]
      rw [if_neg (List.not_mem_nil e.1)]
      congr 1
      exact uniqKeysGo_congr _ [e.1] []
        (fun x hx => by
          simp only [List.mem_singleton, List.not_mem_nil, iff_false]
          intro hxe
          exact hnin (hxe ▸ hx))
    rw [hu, List.map_cons]
    have hl : lastContent (e :: rest) e.1 = e.2 := by
      unfold lastContent
      rw [List.filter_cons, if_pos (by simp)]
      have hf : rest.filter (fun b => b.1 = e.1) = [] := by
        rw [List.filter_eq_nil_iff]
        intro b hb hbe
        exact hnin (List.mem_map.mpr ⟨b, hb, of_decide_eq_true hbe⟩)
      rw [hf]
      rfl
    congr 1
    · rw [hl]
    · have hcongr : ∀ n ∈ uniqKeys (rest.map Prod.fst),
          (n, lastContent (e :: rest) n) = (n, lastContent rest n) := by
        intro n hn
        have hne : e.1 ≠ n := by
          intro heq
          exact hnin (heq ▸ (mem_uniqKeys n _).mp hn)
        congr 1
        unfold lastContent
        rw [List.filter_cons, if_neg (by simp [hne])]
      rw [List.map_congr_left hcongr]
      exact ih hnd

/-- A successful naive read forces `readstream` to succeed, holding the
naive header and options and the deduplicated blocks. -/
theorem readstream_of_naive (input : List Char) (hd : String) (opts : List OptEntry)
    (raw : List BlkEntry)
    (h : naiveReadstream input = .ok (some hd, opts, raw)) :
    ∃ bm, readstream input = (.ok (), ⟨none, ⟨some hd, opts, dedupFirstLast raw⟩, bm⟩) := by
  unfold naiveReadstream at h
  dsimp only at h
  unfold readstream
  dsimp only
  unfold ruleContainer
  cases hg : getTokName ((tokenize input).map Prod.snd) with
  | error e =>
    rw [hg] at h
    exact absurd h (by simp)
  | ok pr =>
    obtain ⟨typeName, toks1⟩ := pr
    rw [hg] at h
    dsimp only at h
    cases he1 : expectTok "\x7b" toks1 with
    | error e =>
      rw [he1] at h
      exact absurd h (by simp)
    | ok toks2 =>
      rw [he1] at h
      dsimp only at h
      cases hnl : naiveLoop (parseFuel ((tokenize input).map Prod.snd)) toks2 [] [] with
      | error e =>
        rw [hnl] at h
        exact absurd h (by simp)
      | ok tri =>
        obtain ⟨opts0, raw0, toks3⟩ := tri
        rw [hnl] at h
        dsimp only at h
        cases he2 : expectTok "\x7d" toks3 with
        | error e =>
          rw [he2] at h
          exact absurd h (by simp)
        | ok toks4 =>
          rw [he2] at h
          dsimp only at h
          cases he3 : expectEmpty toks4 with
          | error e =>
            rw [he3] at h
            exact absurd h (by simp)
          | ok u =>
            rw [he3] at h
            dsimp only at h
            simp only [Except.ok.injEq, Prod.mk.injEq, Option.some.injEq] at h
            obtain ⟨hh, ho, hr⟩ := h
            subst hh
            subst ho
            subst hr
            obtain ⟨blocks1, dupes1, bmap1, hcl⟩ := naiveLoop_containerLoop _ toks2 [] []
              opts0 raw0 toks3 hnl [] resetState.blockMap []
            obtain ⟨raw2, hnl2, happ⟩ := containerLoop_naive
              (parseFuel ((tokenize input).map Prod.snd)) toks2 [] [] resetState.blockMap
              [] [] (by simp [uniqKeys, uniqKeysGo]) (by intro n i; simp [bmGet, resetState])
              (by intro j e hje; simp at hje) (by simp) (by simp)
              opts0 blocks1 dupes1 toks3 bmap1 hcl
            rw [hnl] at hnl2
            simp only [Except.ok.injEq, Prod.mk.injEq] at hnl2
            obtain ⟨-, hraw, -⟩ := hnl2
            subst hraw
            refine ⟨bmap1, ?_⟩
            dsimp only
            rw [he1]
            dsimp only
            rw [hcl]
            dsimp only
            rw [he2]
            dsimp only
            rw [he3]
            dsimp only
            rw [happ]
            rfl

/-! ## Round trip: well-formedness from the mutation API, and the write side -/

theorem wf_addOption (s s1 : PState) (b : Option String) (n : String) (vs : List String)
    (hn : isNameCore n.data = true) (hne : vs ≠ []) (hgv : ∀ v ∈ vs, goodValue v = true)
    (hhd : isTruthyStr b = true ∨ vs.headD "" ≠ "\x7b")
    (h : addOption s b n vs = .ok s1) (hwf : wfAst s.ast) : wfAst s1.ast := by
  obtain ⟨hwo, hwb, hnd⟩ := hwf
  have hrn : reNameMatch n = true := by
    unfold reNameMatch
    rw [hn]
    rfl
  unfold addOption at h
  rw [if_neg (by rw [hrn]; simp)] at h
  rw [if_neg hne] at h
  split at h
  · dsimp only at h
    split at h
    · exact absurd h (by simp)
    rename_i idx hidx
    split at h
    · exact absurd h (by simp)
    rename_i blk hblk
    rw [Except.ok.injEq] at h
    subst h
    refine ⟨hwo, ?_, ?_⟩
    · intro b2 hb2
      rcases List.mem_or_eq_of_mem_set hb2 with hmem | heq
      · exact hwb b2 hmem
      · subst heq
        have hblkmem : blk ∈ s.ast.blocks := List.get?_mem hblk
        obtain ⟨hbn, hbo⟩ := hwb blk hblkmem
        refine ⟨hbn, ?_⟩
        intro o ho
        rcases List.mem_append.mp ho with ho | ho
        · exact hbo o ho
        · rw [List.mem_singleton] at ho
          subst ho
          exact ⟨hn, hne, hgv, fun hfalse => Bool.noConfusion hfalse⟩
    · rw [blocks_set_names _ _ _ _ hblk]
      exact hnd
  · rename_i htruthy
    rw [Except.ok.injEq] at h
    subst h
    refine ⟨?_, hwb, hnd⟩
    intro o ho
    rcases List.mem_append.mp ho with ho | ho
    · exact hwo o ho
    · rw [List.mem_singleton] at ho
      subst ho
      refine ⟨hn, hne, hgv, fun _ => ?_⟩
      rcases hhd with hh | hh
      · exact absurd hh htruthy
      · exact hh

theorem wf_addBlock (s s1 : PState) (n : String) (hn : isNameCore n.data = true)
    (h : addBlock s n = .ok s1) (hwf : wfAst s.ast) (hc : consistentBM s) :
    wfAst s1.ast := by
  obtain ⟨hwo, hwb, -⟩ := hwf
  have hc1 := consistent_addBlock s s1 n h hc
  unfold addBlock at h
  split at h
  · exact absurd h (by simp)
  split at h
  · exact absurd h (by simp)
  rw [Except.ok.injEq] at h
  subst h
  refine ⟨hwo, ?_, hc1.1⟩
  intro b hb
  rcases List.mem_append.mp hb with hb | hb
  · exact hwb b hb
  · rw [List.mem_singleton] at hb
    subst hb
    exact ⟨hn, fun o ho => absurd ho (List.not_mem_nil o)⟩

theorem wf_runMOps : ∀ (ops : List MOp) (s0 s : PState),
    (∀ op ∈ ops, goodOp op = true) → wfAst s0.ast → consistentBM s0 →
    runMOps s0 ops = .ok s → wfAst s.ast ∧ consistentBM s := by
  intro ops
  induction ops with
  | nil =>
    intro s0 s _ hwf hc h
    unfold runMOps at h
    rw [Except.ok.injEq] at h
    subst h
    exact ⟨hwf, hc⟩
  | cons op ops ih =>
    intro s0 s hops hwf hc h
    unfold runMOps at h
    cases hap : applyMOp s0 op with
    | error e =>
      rw [hap] at h
      exact absurd h (by simp)
    | ok s1 =>
      rw [hap] at h
      dsimp only at h
      have hop := hops op (List.mem_cons_self op ops)
      have hrest : ∀ x ∈ ops, goodOp x = true := fun x hx =>
        hops x (List.mem_cons_of_mem op hx)
      have hs1 : wfAst s1.ast ∧ consistentBM s1 := by
        cases op with
        | addOpt b n vs =>
          simp only [goodOp, Bool.and_eq_true, Bool.or_eq_true, List.all_eq_true,
            decide_eq_true_eq, Bool.not_eq_true', List.isEmpty_eq_false] at hop
          obtain ⟨⟨⟨hn, hne⟩, hgv⟩, hhd⟩ := hop
          have hap2 : addOption s0 b n vs = .ok s1 := hap
          exact ⟨wf_addOption s0 s1 b n vs hn hne hgv hhd hap2 hwf,
            consistent_addOption s0 s1 b n vs hap2 hc⟩
        | removeOpt b n => exact absurd hop (by simp [goodOp])
        | addBlk n =>
          have hn : isNameCore n.data = true := by simpa [goodOp] using hop
          have hap2 : addBlock s0 n = .ok s1 := hap
          exact ⟨wf_addBlock s0 s1 n hn hap2 hwf hc, consistent_addBlock s0 s1 n hap2 hc⟩
        | removeBlk n => exact absurd hop (by simp [goodOp])
      exact ih s1 s hrest hs1.1 hs1.2 h

theorem runWrites_none : ∀ (ps : List (List Char)) (w : List Char),
    runWrites ⟨w, none⟩ ps = (true, ⟨w ++ ps.flatten, none⟩) := by
  intro ps
  induction ps with
  | nil =>
    intro w
    simp [runWrites]
  | cons p t ih =>
    intro w
    unfold runWrites
    dsimp [streamWrite]
    rw [ih (w ++ p)]
    simp [List.append_assoc]

theorem writePieces_flatten (ast : Ast) (hdr : String) :
    (writePieces ast hdr).flatten = serializeAst ast hdr := by
  simp [writePieces, serializeAst, List.flatten_append, List.append_assoc]

/-- With a grammar-core header and a fault-free stream, `writestream`
writes exactly the serialized AST and reports success. -/
theorem writestream_ok (s : PState) (hdr : String) (hh : isNameCore hdr.data = true) :
    writestream s ⟨[], none⟩ (some hdr) =
      .ok (true, { s with ast := { s.ast with header := some hdr } },
        ⟨serializeAst s.ast hdr, none⟩) := by
  have hne : hdr ≠ "" := (isNameCore_ne hdr hh).2.2.1
  unfold writestream
  rw [show resolveHeader s.ast (some hdr) = some hdr from by
    simp [resolveHeader, isTruthyStr, hne]]
  dsimp only
  rw [if_neg hne]
  rw [if_neg (by rw [(isNameCore_ne hdr hh).2.2.2]; simp)]
  rw [runWrites_none (writePieces s.ast hdr) [], List.nil_append, writePieces_flatten]

/-- A value ending in a backslash is lost by the round trip: building
`opt "a\"` through the mutation API, writing it under header `conf`, and
re-reading the written text succeeds but returns the value `a` — the lexer
folds the serialized `\\` into one backslash and arms the double-escape
flag, and the closing quote then both terminates the string and pops the
rebuilt backslash off the buffer. -/
theorem roundtrip_loses_trailing_backslash :
    runMOps resetState [MOp.addOpt none "opt" ["a\\"]] =
      .ok ⟨none, ⟨none, [("opt", ["a\\"])], []⟩, []⟩ ∧
    writestream ⟨none, ⟨none, [("opt", ["a\\"])], []⟩, []⟩ ⟨[], none⟩ (some "conf") =
      .ok (true, ⟨none, ⟨some "conf", [("opt", ["a\\"])], []⟩, []⟩,
        ⟨("conf \x7b\n    opt \"a\\\\\";\n\x7d\n").data, none⟩) ∧
    (readstream ("conf \x7b\n    opt \"a\\\\\";\n\x7d\n").data).1 = .ok () ∧
    (readstream ("conf \x7b\n    opt \"a\\\\\";\n\x7d\n").data).2.ast.options =
      [("opt", ["a"])] :=
  ⟨by decide, by decide, by decide, by decide⟩

/-- C1: round trip through `writestream` and `readstream` for ASTs built
solely via the mutation API.  Amended: the round trip preserves header,
options and blocks exactly for additive mutation sequences whose names are
grammar-core `NAME`s, whose options carry at least one value, whose values
are non-empty and contain a backslash only when the next character is not a
backslash, quote or newline (in particular no value ends in a backslash —
the claim's contrary inclusion is refuted by
`roundtrip_loses_trailing_backslash`), and whose top-level options do not
start with the value `\x7b`. -/
theorem roundtrip_good_values (ops : List MOp) (s : PState)
    (hops : ∀ op ∈ ops, goodOp op = true)
    (hrun : runMOps resetState ops = .ok s)
    (hdr : String) (hh : isNameCore hdr.data = true)
    (s1 : PState) (st1 : WStream)
    (hw : writestream s ⟨[], none⟩ (some hdr) = .ok (true, s1, st1)) :
    ∃ s2, readstream st1.written = (.ok (), s2) ∧ s2.ast.header = some hdr ∧
      s2.ast.options = s.ast.options ∧ s2.ast.blocks = s.ast.blocks := by
  obtain ⟨hwf, hc⟩ := wf_runMOps ops resetState s hops
    ⟨fun o ho => absurd ho (List.not_mem_nil o),
      fun b hb => absurd hb (List.not_mem_nil b), List.nodup_nil⟩
    consistentBM_reset hrun
  rw [writestream_ok s hdr hh] at hw
  simp only [Except.ok.injEq, Prod.mk.injEq] at hw
  obtain ⟨-, -, hst⟩ := hw
  obtain ⟨hwo, hwb, hnd⟩ := hwf
  have hnaive := naiveReadstream_serialize s.ast hdr hh
    (fun o ho => ⟨(hwo o ho).1, (hwo o ho).2.1, (hwo o ho).2.2.1, (hwo o ho).2.2.2 rfl⟩)
    (fun b hb => ⟨(hwb b hb).1, fun o ho =>
      ⟨((hwb b hb).2 o ho).1, ((hwb b hb).2 o ho).2.1, ((hwb b hb).2 o ho).2.2.1⟩⟩)
  obtain ⟨bm, hread⟩ := readstream_of_naive (serializeAst s.ast hdr) hdr s.ast.options
    s.ast.blocks hnaive
  rw [← hst]
  refine ⟨⟨none, ⟨some hdr, s.ast.options, dedupFirstLast s.ast.blocks⟩, bm⟩, ?_, rfl, rfl, ?_⟩
  · exact hread
  · exact dedup_nodup s.ast.blocks hnd

/-- The amended round trip at a concrete one-block, two-option build. -/
theorem roundtrip_good_values_witness :
    ∃ s2, readstream (WStream.written
        ⟨("conf \x7b\n    opt \"w\";\n    blk \x7b\n        o \"v\";\n    \x7d\n\x7d\n").data,
          none⟩) = (.ok (), s2) ∧
      s2.ast.header = some "conf" ∧
      s2.ast.options = [("opt", ["w"])] ∧
      s2.ast.blocks = [("blk", [("o", ["v"])])] :=
  roundtrip_good_values
    [MOp.addBlk "blk", MOp.addOpt (some "blk") "o" ["v"], MOp.addOpt none "opt" ["w"]]
    ⟨none, ⟨none, [("opt", ["w"])], [("blk", [("o", ["v"])])]⟩, [("blk", 0)]⟩
    (by decide) (by decide) "conf" (by decide)
    ⟨none, ⟨some "conf", [("opt", ["w"])], [("blk", [("o", ["v"])])]⟩, [("blk", 0)]⟩
    ⟨("conf \x7b\n    opt \"w\";\n    blk \x7b\n        o \"v\";\n    \x7d\n\x7d\n").data, none⟩
    (by decide)

end FocusSpec
